import Mathlib

/-!
# Verification of the docx-cardflip text-segmentation engine

Shallow embedding of the flashcard conversion pipeline:

* `normalizeMcqText` — text normalizer (three regex rewrite passes);
* `isOptionLine` / `isAnswerLine` / `isNoiseLine` / `extractInlineAnswer` —
  line classifier;
* `parseDocxContent` — cursor-driven record segmenter;
* `loadCards` / `viewerLoad` — the viewer's JSON load-and-validate path.

Strings are modelled as `List Char`; JavaScript's `\s` character class,
`trim`, `trimEnd` and the relevant regular expressions are translated
explicitly.  The regex-based rewrites are translated into deterministic
left-to-right scanners: each of the regexes involved is anchored by
character classes that are disjoint from `\s`, so at every input position
there is at most one way to match, and a global `String.replace` is exactly
a single left-to-right scan with non-overlapping matches.
-/

namespace CardFlip

/-- JavaScript's `\s` character class (whitespace as used by `trim`,
`trimEnd` and `\s` in the source regexes). -/
def isJsWs (c : Char) : Bool :=
  c = ' ' || c = '\t' || c = '\n' || c = '\r' ||
  c = '\x0b' || c = '\x0c' || c = '\u00A0' || c = '\u1680' ||
  ('\u2000' ≤ c && c ≤ '\u200A') || c = '\u2028' || c = '\u2029' ||
  c = '\u202F' || c = '\u205F' || c = '\u3000' || c = '\uFEFF'

/-- Drop leading JS whitespace. -/
def dropW (l : List Char) : List Char := l.dropWhile isJsWs

/-- Take leading JS whitespace. -/
def takeW (l : List Char) : List Char := l.takeWhile isJsWs

/-- JavaScript `String.prototype.trimEnd`. -/
def jsTrimEnd (l : List Char) : List Char := (dropW l.reverse).reverse

/-- JavaScript `String.prototype.trim`. -/
def jsTrim (l : List Char) : List Char := jsTrimEnd (dropW l)

/-- Letters accepted by the option marker `[A-D]`. -/
def optLetter (c : Char) : Bool := c = 'A' || c = 'B' || c = 'C' || c = 'D'

/-- Separators accepted by the option marker `[\.\)．]`. -/
def optSep (c : Char) : Bool := c = '.' || c = ')' || c = '．'

/-- `isOptionLine`: tests `/^[A-D][\.\)．]\s*/` (the `\s*` is vacuous, so the
test is exactly "first char is A–D and second is a separator"). -/
def isOptionLine (s : List Char) : Bool :=
  match s with
  | a :: b :: _ => optLetter a && optSep b
  | _ => false

/-- `isAnswerLine` in the source is literally the same predicate. -/
def isAnswerLine (s : List Char) : Bool := isOptionLine s

/-- `isNoiseLine`: blank after trimming, a bare Roman numeral I–IV, or three
or more characters drawn solely from `-`, `_`, `=`. -/
def isNoiseLine (s : List Char) : Bool :=
  let t := jsTrim s
  t.isEmpty || t = ['I'] || t = ['I', 'I'] || t = ['I', 'I', 'I'] ||
  t = ['I', 'V'] ||
  (decide (3 ≤ t.length) && t.all (fun c => c = '-' || c = '_' || c = '='))

/-- Letters accepted by `[A-D]` under the `i` flag. -/
def ansLetter (c : Char) : Bool :=
  optLetter c || c = 'a' || c = 'b' || c = 'c' || c = 'd'

/-- Matches the answer keyword alternation `(?:정답|답|Answer)` (with the `i`
flag, which only affects `Answer`) at the start of the list; returns the
keyword length.  The alternatives are tried in source order. -/
def ansKwLen (t : List Char) : Option Nat :=
  match t with
  | '정' :: '답' :: _ => some 2
  | '답' :: _ => some 1
  | c1 :: c2 :: c3 :: c4 :: c5 :: c6 :: _ =>
    if (c1 = 'A' || c1 = 'a') && (c2 = 'n' || c2 = 'N') &&
       (c3 = 's' || c3 = 'S') && (c4 = 'w' || c4 = 'W') &&
       (c5 = 'e' || c5 = 'E') && (c6 = 'r' || c6 = 'R') then some 6 else none
  | _ => none

/-- One greedy pass of `(?:\s*[,/]\s*[A-Da-d])*`: returns the letters of the
successful iterations together with the unconsumed remainder.  A failed
iteration is rolled back entirely (the regex engine backtracks to the point
before the iteration's `\s*`). -/
def ansIter (fuel : Nat) (r : List Char) : List Char × List Char :=
  match fuel with
  | 0 => ([], r)
  | fuel + 1 =>
    match dropW r with
    | c :: rest1 =>
      if c = ',' || c = '/' then
        match dropW rest1 with
        | d :: rest2 =>
          if ansLetter d then
            let p := ansIter fuel rest2
            (d :: p.1, p.2)
          else ([], r)
        | [] => ([], r)
      else ([], r)
    | [] => ([], r)

/-- `extractInlineAnswer`: matches
`/^(?:정답|답|Answer)\s*[:：]?\s*([A-D](?:\s*[,/]\s*[A-D])*)\s*$/i` against the
trimmed line and returns the captured letters re-joined with `", "` (the
source splits the capture on `[,/]`, trims and filters each piece, and joins;
that is exactly the letter list). -/
def extractInlineAnswer (s : List Char) : Option (List Char) :=
  let t := jsTrim s
  match ansKwLen t with
  | none => none
  | some k =>
    let r := dropW (t.drop k)
    let r2 := match r with
      | ':' :: rest => rest
      | '：' :: rest => rest
      | _ => r
    match dropW r2 with
    | c :: rest =>
      if ansLetter c then
        let p := ansIter rest.length rest
        if (dropW p.2).isEmpty then
          some (c :: p.1.flatMap (fun d => [',', ' ', d]))
        else none
      else none
    | [] => none

/-- The flashcard record produced by the converter. -/
structure Flashcard where
  question : String
  options : List String
  answer : String
  explanation : Option String
deriving Repr, DecidableEq

/-- Join a list of lines with a single separator character
(`Array.prototype.join`). -/
def joinSep (c : Char) : List (List Char) → List Char
  | [] => []
  | [x] => x
  | x :: xs => x ++ c :: joinSep c xs

/-- `while (i < lines.length && isNoiseLine(lines[i])) i++` — fuelled noise
skip.  Every iteration advances the index, so any fuel of at least
`lines.length + 1` runs the loop to completion. -/
def skipNoiseAux (fuel : Nat) (lines : List (List Char)) (i : Nat) : Nat :=
  match fuel with
  | 0 => i
  | fuel + 1 =>
    if i < lines.length then
      if isNoiseLine (lines.getD i []) then skipNoiseAux fuel lines (i + 1)
      else i
    else i

/-- The "next substantive line is an option" lookahead shared by question
scanning and answer scanning: skip noise from `p`; true iff a line remains
and it is an option line. -/
def nextIsOption (lines : List (List Char)) (p : Nat) : Bool :=
  let k := skipNoiseAux (lines.length + 1) lines p
  decide (k < lines.length) && isOptionLine (jsTrim (lines.getD k []))

/-- Question-collection loop of `parseDocxContent` (lines 78–96 of the
source): gather non-noise, non-option lines; after each gathered line peek
past noise, and if the next substantive line is an option, jump to it and
stop. Returns the gathered lines and the final index. -/
def collectQAux (fuel : Nat) (lines : List (List Char)) (j : Nat)
    (acc : List (List Char)) : List (List Char) × Nat :=
  match fuel with
  | 0 => (acc, j)
  | fuel + 1 =>
    if j < lines.length then
      let cur := jsTrim (lines.getD j [])
      if isNoiseLine cur then collectQAux fuel lines (j + 1) acc
      else if isOptionLine cur then (acc, j)
      else
        let k := skipNoiseAux (lines.length + 1) lines (j + 1)
        if decide (k < lines.length) && isOptionLine (jsTrim (lines.getD k []))
        then (acc ++ [cur], k)
        else collectQAux fuel lines (j + 1) (acc ++ [cur])
    else (acc, j)

/-- Option-continuation loop (lines 122–133): absorb following non-option,
non-noise lines into the current option text. -/
def absorbContAux (fuel : Nat) (lines : List (List Char)) (k : Nat)
    (opt : List Char) : List Char × Nat :=
  match fuel with
  | 0 => (opt, k)
  | fuel + 1 =>
    if k < lines.length then
      let nxt := jsTrim (lines.getD k [])
      if isNoiseLine nxt then absorbContAux fuel lines (k + 1) opt
      else if isOptionLine nxt then (opt, k)
      else absorbContAux fuel lines (k + 1) (opt ++ ' ' :: nxt)
    else (opt, k)

/-- Option-collection loop (lines 112–139): gather up to four options, each
with its continuation lines. -/
def collectOptsAux (fuel : Nat) (lines : List (List Char)) (j : Nat)
    (opts : List (List Char)) : List (List Char) × Nat :=
  match fuel with
  | 0 => (opts, j)
  | fuel + 1 =>
    if j < lines.length then
      let cur := jsTrim (lines.getD j [])
      if isNoiseLine cur then collectOptsAux fuel lines (j + 1) opts
      else if isOptionLine cur then
        let p := absorbContAux (lines.length + 1) lines (j + 1) cur
        let opts' := opts ++ [p.1]
        if 4 ≤ opts'.length then (opts', p.2)
        else collectOptsAux fuel lines p.2 opts'
      else (opts, j)
    else (opts, j)

/-- `answers[answers.length - 1] += ' ' + cur`. -/
def appendLast (xs : List (List Char)) (c : List Char) : List (List Char) :=
  match xs with
  | [] => []
  | [x] => [x ++ ' ' :: c]
  | x :: rest => x :: appendLast rest c

/-- Answer-collection loop (lines 156–194): inline answers finish the
record; a plain line whose next substantive line is an option is left
unconsumed (the next record's question); option-shaped lines are pushed as
repeated-option answers; other lines continue the previous answer entry. -/
def collectAnsAux (fuel : Nat) (lines : List (List Char)) (a : Nat)
    (answers : List (List Char)) : List (List Char) × Nat :=
  match fuel with
  | 0 => (answers, a)
  | fuel + 1 =>
    if a < lines.length then
      let cur := jsTrim (lines.getD a [])
      if isNoiseLine cur then collectAnsAux fuel lines (a + 1) answers
      else
        match extractInlineAnswer cur with
        | some payload => (answers ++ [payload], a + 1)
        | none =>
          if !isAnswerLine cur && !isOptionLine cur &&
             nextIsOption lines (a + 1) then (answers, a)
          else
            let answers' :=
              if isAnswerLine cur then answers ++ [cur]
              else if answers.length ≠ 0 then appendLast answers cur
              else answers
            collectAnsAux fuel lines (a + 1) answers'
    else (answers, a)

/-- One full record-emission cycle of the outer `while` loop of
`parseDocxContent`, starting with the cursor at `i`: skip noise, collect a
question, its options and its answer, and either emit a card or discard the
candidate.  Returns the emitted card (if any) and the new cursor. -/
def parseStep (lines : List (List Char)) (i : Nat) : Option Flashcard × Nat :=
  let i1 := skipNoiseAux (lines.length + 1) lines i
  if i1 < lines.length then
    let q := collectQAux (lines.length + 1) lines i1 []
    if decide (q.2 < lines.length) && isOptionLine (jsTrim (lines.getD q.2 []))
    then
      let question := jsTrim (joinSep ' ' q.1)
      if question.isEmpty then (none, q.2 + 1)
      else
        let o := collectOptsAux (lines.length + 1) lines q.2 []
        if o.1.length < 2 then (none, o.2 + 1)
        else
          let a0 := skipNoiseAux (lines.length + 1) lines o.2
          let ans := collectAnsAux (lines.length + 1) lines a0 []
          let answer := jsTrim (joinSep '\n' ans.1)
          (some { question := question.asString
                , options := o.1.map List.asString
                , answer := (if answer.isEmpty then "UNKNOWN".data
                             else answer).asString
                , explanation := none }, ans.2)
    else (none, max (i1 + 1) q.2)
  else (none, i1)

/-- The outer segmentation loop, fuelled by the number of remaining cycles.
Since every cycle strictly increases the cursor (see
`parseStep_progress`), fuel `lines.length` suffices from cursor `0`. -/
def parseGoFuel (fuel : Nat) (lines : List (List Char)) (i : Nat) :
    List Flashcard :=
  match fuel with
  | 0 => []
  | fuel + 1 =>
    if i < lines.length then
      match parseStep lines i with
      | (some c, i') => c :: parseGoFuel fuel lines i'
      | (none, i') => parseGoFuel fuel lines i'
    else []

/-- Split on `'\n'` (JavaScript `String.prototype.split('\n')`). -/
def splitOnNl : List Char → List (List Char)
  | [] => [[]]
  | c :: rest =>
    if c = '\n' then [] :: splitOnNl rest
    else
      match splitOnNl rest with
      | [] => [[c]]
      | l :: ls => (c :: l) :: ls

/-- Line preprocessing of `parseDocxContent` (lines 60–63): remove `\r`,
split on `\n`, replace NBSP by space and trim trailing whitespace in each
line. -/
def docxLines (raw : String) : List (List Char) :=
  (splitOnNl (raw.data.filter (fun c => !(c = '\r')))).map
    (fun l => jsTrimEnd (l.map (fun c => if c = '\u00A0' then ' ' else c)))

/-- `parseDocxContent`: the complete segmentation engine. -/
def parseDocxContent (raw : String) : List Flashcard :=
  let lines := docxLines raw
  parseGoFuel lines.length lines 0

/-! ## Basic facts about the parser's loops -/

theorem asString_eq_empty_iff (l : List Char) : l.asString = "" ↔ l = [] := by
  constructor
  · intro h
    have := congrArg String.data h
    simpa [List.asString] using this
  · intro h
    simp [h, List.asString]

theorem skipNoiseAux_ge (fuel : Nat) (lines : List (List Char)) (i : Nat) :
    i ≤ skipNoiseAux fuel lines i := by
  induction fuel generalizing i with
  | zero => simp [skipNoiseAux]
  | succ fuel ih =>
    simp only [skipNoiseAux]
    split
    · split
      · exact le_trans (Nat.le_succ i) (ih (i + 1))
      · exact le_refl i
    · exact le_refl i

theorem collectQAux_ge (fuel : Nat) (lines : List (List Char)) (j : Nat)
    (acc : List (List Char)) : j ≤ (collectQAux fuel lines j acc).2 := by
  induction fuel generalizing j acc with
  | zero => simp [collectQAux]
  | succ fuel ih =>
    simp only [collectQAux]
    split
    · split
      · exact le_trans (Nat.le_succ j) (ih (j + 1) acc)
      · split
        · exact le_refl j
        · split
          · rename_i hk
            exact le_trans (Nat.le_succ j)
              (skipNoiseAux_ge (lines.length + 1) lines (j + 1))
          · exact le_trans (Nat.le_succ j) (ih (j + 1) _)
    · exact le_refl j

theorem absorbContAux_ge (fuel : Nat) (lines : List (List Char)) (k : Nat)
    (opt : List Char) : k ≤ (absorbContAux fuel lines k opt).2 := by
  induction fuel generalizing k opt with
  | zero => simp [absorbContAux]
  | succ fuel ih =>
    simp only [absorbContAux]
    split
    · split
      · exact le_trans (Nat.le_succ k) (ih (k + 1) opt)
      · split
        · exact le_refl k
        · exact le_trans (Nat.le_succ k) (ih (k + 1) _)
    · exact le_refl k

theorem collectOptsAux_ge (fuel : Nat) (lines : List (List Char)) (j : Nat)
    (opts : List (List Char)) : j ≤ (collectOptsAux fuel lines j opts).2 := by
  induction fuel generalizing j opts with
  | zero => simp [collectOptsAux]
  | succ fuel ih =>
    simp only [collectOptsAux]
    split
    · split
      · exact le_trans (Nat.le_succ j) (ih (j + 1) opts)
      · split
        · split
          · exact le_trans (Nat.le_succ j)
              (absorbContAux_ge (lines.length + 1) lines (j + 1) _)
          · refine le_trans ?_ (ih _ _)
            exact le_trans (Nat.le_succ j)
              (absorbContAux_ge (lines.length + 1) lines (j + 1) _)
        · exact le_refl j
    · exact le_refl j

theorem collectOptsAux_stay (fuel : Nat) (lines : List (List Char)) (j : Nat)
    (opts : List (List Char)) (r : List (List Char) × Nat)
    (hr : collectOptsAux fuel lines j opts = r) (h2 : r.2 ≤ j) : r.1 = opts := by
  induction fuel generalizing j opts with
  | zero => simp only [collectOptsAux] at hr; rw [← hr]
  | succ fuel ih =>
    simp only [collectOptsAux] at hr
    split at hr
    · split at hr
      · have := collectOptsAux_ge fuel lines (j + 1) opts
        rw [hr] at this; omega
      · split at hr
        · split at hr
          · have := absorbContAux_ge (lines.length + 1) lines (j + 1)
              (jsTrim (lines.getD j []))
            rw [← hr] at h2; dsimp only at h2; omega
          · have h1 := absorbContAux_ge (lines.length + 1) lines (j + 1)
              (jsTrim (lines.getD j []))
            have h3 := collectOptsAux_ge fuel lines
              (absorbContAux (lines.length + 1) lines (j + 1)
                (jsTrim (lines.getD j []))).2
              (opts ++ [(absorbContAux (lines.length + 1) lines (j + 1)
                (jsTrim (lines.getD j []))).1])
            rw [hr] at h3; omega
        · rw [← hr]
    · rw [← hr]

theorem collectAnsAux_ge (fuel : Nat) (lines : List (List Char)) (a : Nat)
    (answers : List (List Char)) : a ≤ (collectAnsAux fuel lines a answers).2 := by
  induction fuel generalizing a answers with
  | zero => simp [collectAnsAux]
  | succ fuel ih =>
    simp only [collectAnsAux]
    split
    · split
      · exact le_trans (Nat.le_succ a) (ih (a + 1) answers)
      · split
        · exact Nat.le_succ a
        · split
          · exact le_refl a
          · exact le_trans (Nat.le_succ a) (ih (a + 1) _)
    · exact le_refl a

theorem collectOptsAux_le4 (fuel : Nat) (lines : List (List Char)) (j : Nat)
    (opts : List (List Char)) (h : opts.length ≤ 3) :
    (collectOptsAux fuel lines j opts).1.length ≤ 4 := by
  induction fuel generalizing j opts with
  | zero => simpa [collectOptsAux] using le_trans h (by omega)
  | succ fuel ih =>
    simp only [collectOptsAux]
    split
    · split
      · exact ih (j + 1) opts h
      · split
        · split
          · rename_i hlen
            simp only [List.length_append, List.length_cons, List.length_nil] at *
            omega
          · rename_i hlen
            refine ih _ _ ?_
            simp only [List.length_append, List.length_cons, List.length_nil] at *
            omega
        · exact le_trans h (by omega)
    · exact le_trans h (by omega)

/-- Every path through one record-emission cycle strictly advances the
cursor. -/
theorem parseStep_progress (lines : List (List Char)) (i : Nat)
    (h : i < lines.length) : i < (parseStep lines i).2 := by
  have hi1 : i ≤ skipNoiseAux (lines.length + 1) lines i :=
    skipNoiseAux_ge _ lines i
  have hq : skipNoiseAux (lines.length + 1) lines i ≤
      (collectQAux (lines.length + 1) lines
        (skipNoiseAux (lines.length + 1) lines i) []).2 :=
    collectQAux_ge _ lines _ []
  simp only [parseStep]
  split
  · split
    · split
      · dsimp only; omega
      · split
        · dsimp only
          have ho := collectOptsAux_ge (lines.length + 1) lines
            (collectQAux (lines.length + 1) lines
              (skipNoiseAux (lines.length + 1) lines i) []).2 []
          omega
        · rename_i hopts
          dsimp only
          have ha0 := skipNoiseAux_ge (lines.length + 1) lines
            (collectOptsAux (lines.length + 1) lines
              (collectQAux (lines.length + 1) lines
                (skipNoiseAux (lines.length + 1) lines i) []).2 []).2
          have hans := collectAnsAux_ge (lines.length + 1) lines
            (skipNoiseAux (lines.length + 1) lines
              (collectOptsAux (lines.length + 1) lines
                (collectQAux (lines.length + 1) lines
                  (skipNoiseAux (lines.length + 1) lines i) []).2 []).2) []
          by_cases hoj : (collectOptsAux (lines.length + 1) lines
              (collectQAux (lines.length + 1) lines
                (skipNoiseAux (lines.length + 1) lines i) []).2 []).2 ≤
              (collectQAux (lines.length + 1) lines
                (skipNoiseAux (lines.length + 1) lines i) []).2
          · have hnil := collectOptsAux_stay (lines.length + 1) lines
              (collectQAux (lines.length + 1) lines
                (skipNoiseAux (lines.length + 1) lines i) []).2 [] _ rfl hoj
            rw [hnil] at hopts
            simp at hopts
          · omega
    · dsimp only
      refine Nat.lt_of_lt_of_le ?_ (Nat.le_max_left _ _)
      omega
  · dsimp only
    omega

theorem parseGoFuel_congr (lines : List (List Char)) :
    ∀ (f1 f2 i : Nat), lines.length - i ≤ f1 → lines.length - i ≤ f2 →
      parseGoFuel f1 lines i = parseGoFuel f2 lines i := by
  intro f1
  induction f1 with
  | zero =>
    intro f2 i h1 h2
    have hge : lines.length ≤ i := by omega
    cases f2 with
    | zero => rfl
    | succ f2 => simp [parseGoFuel, Nat.not_lt.mpr hge]
  | succ f1 ih =>
    intro f2 i h1 h2
    cases f2 with
    | zero =>
      have hge : lines.length ≤ i := by omega
      simp [parseGoFuel, Nat.not_lt.mpr hge]
    | succ f2 =>
      simp only [parseGoFuel]
      split
      · rename_i hlt
        have hp := parseStep_progress lines i hlt
        split
        · rename_i c i' hstep
          rw [hstep] at hp; dsimp only at hp
          exact congrArg (c :: ·) (ih f2 i' (by omega) (by omega))
        · rename_i i' hstep
          rw [hstep] at hp; dsimp only at hp
          exact ih f2 i' (by omega) (by omega)
      · rfl

/-- Structural invariant of every emitted card. -/
theorem parseStep_card (lines : List (List Char)) (i : Nat) (c : Flashcard)
    (i' : Nat) (hr : parseStep lines i = (some c, i')) :
    c.question ≠ "" ∧ c.answer ≠ "" ∧ 2 ≤ c.options.length ∧
    c.options.length ≤ 4 ∧ c.explanation = none := by
  simp only [parseStep] at hr
  split at hr
  · split at hr
    · split at hr
      · exact absurd hr (by simp)
      · split at hr
        · exact absurd hr (by simp)
        · rename_i hbound hqe hopts
          rw [Prod.mk.injEq, Option.some.injEq] at hr
          obtain ⟨hc, hcur⟩ := hr
          subst hc
          dsimp only
          refine ⟨?_, ?_, ?_, ?_, rfl⟩
          · rw [Ne, asString_eq_empty_iff]
            intro hnil
            rw [hnil] at hqe
            simp at hqe
          · split
            · decide
            · rename_i hae
              rw [Ne, asString_eq_empty_iff]
              intro hnil
              rw [hnil] at hae
              simp at hae
          · simpa using by omega
          · simpa using collectOptsAux_le4 (lines.length + 1) lines _ []
              (by simp)
    · exact absurd hr (by simp)
  · exact absurd hr (by simp)

theorem parseGoFuel_mem (fuel : Nat) (lines : List (List Char)) :
    ∀ (i : Nat) (c : Flashcard), c ∈ parseGoFuel fuel lines i →
    c.question ≠ "" ∧ c.answer ≠ "" ∧ 2 ≤ c.options.length ∧
    c.options.length ≤ 4 ∧ c.explanation = none := by
  induction fuel with
  | zero => intro i c hc; simp [parseGoFuel] at hc
  | succ fuel ih =>
    intro i c hc
    simp only [parseGoFuel] at hc
    split at hc
    · split at hc
      · rename_i c' i' hstep
        rcases List.mem_cons.mp hc with rfl | hmem
        · exact parseStep_card lines i _ _ hstep
        · exact ih _ _ hmem
      · exact ih _ _ hc
    · simp at hc

/-- C4 (confirmed).  Every Flashcard emitted by `parseDocxContent` has a
non-empty question, a non-empty answer (the sentinel `"UNKNOWN"` standing in
when the collected buffer trims to empty, the record still being emitted),
an options list whose length is 0 or in [2,4], and a null explanation. -/
theorem claim_C4_output_validity : ∀ (raw : String) (c : Flashcard),
    c ∈ parseDocxContent raw →
    c.question ≠ "" ∧ c.answer ≠ "" ∧
    (c.options.length = 0 ∨ (2 ≤ c.options.length ∧ c.options.length ≤ 4)) ∧
    c.explanation = none := by
  intro raw c hc
  obtain ⟨h1, h2, h3, h4, h5⟩ := parseGoFuel_mem _ _ _ _ hc
  exact ⟨h1, h2, Or.inr ⟨h3, h4⟩, h5⟩

/-- Witness for C4 at a concrete input. -/
theorem claim_C4_witness :
    (⟨"What is 2+2?", ["A. 3", "B. 4", "C. 5 정답: B"], "UNKNOWN", none⟩ :
      Flashcard) ∈ parseDocxContent "What is 2+2?\nA. 3\nB. 4\nC. 5\n정답: B" ∧
    (("What is 2+2?" : String) ≠ "" ∧ ("UNKNOWN" : String) ≠ "" ∧
      ((["A. 3", "B. 4", "C. 5 정답: B"] : List String).length = 0 ∨
        (2 ≤ (["A. 3", "B. 4", "C. 5 정답: B"] : List String).length ∧
          (["A. 3", "B. 4", "C. 5 정답: B"] : List String).length ≤ 4)) ∧
      (none : Option String) = none) :=
  ⟨by decide,
   claim_C4_output_validity "What is 2+2?\nA. 3\nB. 4\nC. 5\n정답: B"
     ⟨"What is 2+2?", ["A. 3", "B. 4", "C. 5 정답: B"], "UNKNOWN", none⟩
     (by decide)⟩

/-- C10 (confirmed).  Emitted cards never have an empty options list: the
length is always in [2,4]. -/
theorem claim_C10_options_bounds : ∀ (raw : String) (c : Flashcard),
    c ∈ parseDocxContent raw → 2 ≤ c.options.length ∧ c.options.length ≤ 4 := by
  intro raw c hc
  obtain ⟨-, -, h3, h4, -⟩ := parseGoFuel_mem _ _ _ _ hc
  exact ⟨h3, h4⟩

/-- Witness for C10 at a concrete input. -/
theorem claim_C10_witness :
    (⟨"Q1", ["A. x", "B. y Q2", "A. p", "B. q"], "UNKNOWN", none⟩ :
      Flashcard) ∈ parseDocxContent "Q1\nA. x\nB. y\nQ2\nA. p\nB. q" ∧
    2 ≤ (["A. x", "B. y Q2", "A. p", "B. q"] : List String).length ∧
    (["A. x", "B. y Q2", "A. p", "B. q"] : List String).length ≤ 4 :=
  ⟨by decide,
   claim_C10_options_bounds "Q1\nA. x\nB. y\nQ2\nA. p\nB. q"
     ⟨"Q1", ["A. x", "B. y Q2", "A. p", "B. q"], "UNKNOWN", none⟩
     (by decide)⟩

/-- C3 (confirmed).  Each record-emission cycle strictly increases the
cursor, and consequently the fuelled segmentation loop is insensitive to any
fuel of at least `lines.length - i`: the engine finishes within that many
cycles. -/
theorem claim_C3_progress : ∀ (lines : List (List Char)) (i fuel : Nat),
    i < lines.length → lines.length - i ≤ fuel →
    i < (parseStep lines i).2 ∧
    parseGoFuel fuel lines i = parseGoFuel (lines.length - i) lines i :=
  fun lines i fuel h1 h2 =>
    ⟨parseStep_progress lines i h1,
     parseGoFuel_congr lines fuel (lines.length - i) i h2 (le_refl _)⟩

/-- Witness for C3 at a concrete input. -/
theorem claim_C3_witness :
    (0 < (docxLines "Q1\nA. x\nB. y\nQ2\nA. p\nB. q").length ∧
      (docxLines "Q1\nA. x\nB. y\nQ2\nA. p\nB. q").length - 0 ≤ 9) ∧
    (0 < (parseStep (docxLines "Q1\nA. x\nB. y\nQ2\nA. p\nB. q") 0).2 ∧
      parseGoFuel 9 (docxLines "Q1\nA. x\nB. y\nQ2\nA. p\nB. q") 0 =
        parseGoFuel ((docxLines "Q1\nA. x\nB. y\nQ2\nA. p\nB. q").length - 0)
          (docxLines "Q1\nA. x\nB. y\nQ2\nA. p\nB. q") 0) :=
  ⟨⟨by decide, by decide⟩,
   claim_C3_progress (docxLines "Q1\nA. x\nB. y\nQ2\nA. p\nB. q") 0 9
     (by decide) (by decide)⟩

/-- C1 (code bug).  Scenario A evaluated on the code: the option-continuation
loop absorbs the inline-answer line `정답: B` into option C, and the card is
emitted with the sentinel answer `UNKNOWN` — not with options
`["A. 3","B. 4","C. 5"]` and answer `"B"` as the claim (and the component's
own usage panel) state. -/
theorem claim_C1_scenarioA_eval :
    parseDocxContent "What is 2+2?\nA. 3\nB. 4\nC. 5\n정답: B" =
      [⟨"What is 2+2?", ["A. 3", "B. 4", "C. 5 정답: B"], "UNKNOWN", none⟩] := by
  decide

/-- C2 counterexample.  On Scenario D's input the engine emits exactly one
Flashcard, whose question is "Q1": there is no second record and "Q2" never
appears as a question. -/
theorem claim_C2_counterexample :
    (parseDocxContent "Q1\nA. x\nB. y\nQ2\nA. p\nB. q").length = 1 ∧
    (parseDocxContent "Q1\nA. x\nB. y\nQ2\nA. p\nB. q").map
      Flashcard.question = ["Q1"] := by
  decide

/-- C2 (corrected).  Scenario D evaluated on the code: one card; the second
record's question text "Q2" is absorbed as a continuation of the option
"B. y", and the two following option lines become options 3 and 4 of the
first record. -/
theorem claim_C2_amended_eval :
    parseDocxContent "Q1\nA. x\nB. y\nQ2\nA. p\nB. q" =
      [⟨"Q1", ["A. x", "B. y Q2", "A. p", "B. q"], "UNKNOWN", none⟩] := by
  decide

/-- C7 counterexample.  With three options followed by the repeated-option
answer line "B. 4", the emitted card's answer is the sentinel "UNKNOWN", not
"B. 4". -/
theorem claim_C7_counterexample :
    (parseDocxContent "What is 2+2?\nA. 3\nB. 4\nC. 5\nB. 4").map
      Flashcard.answer = ["UNKNOWN"] := by
  decide

/-- C7 (corrected).  The repeated-option answer notation takes effect only
once four options have been collected: with options A–D followed by "B. 4",
the answer is "B. 4". -/
theorem claim_C7_amended_eval :
    parseDocxContent "What is 2+2?\nA. 3\nB. 4\nC. 5\nD. 6\nB. 4" =
      [⟨"What is 2+2?", ["A. 3", "B. 4", "C. 5", "D. 6"], "B. 4", none⟩] := by
  decide

/-- C6 counterexample.  For the two lines "Q" / "A. 1" the candidate starting
at the (noise-skipped) position 0 is discarded for having fewer than two
options, and the cursor advances to 3 — not to one line past the start. -/
theorem claim_C6_counterexample :
    skipNoiseAux ((docxLines "Q\nA. 1").length + 1) (docxLines "Q\nA. 1") 0 =
      0 ∧
    parseStep (docxLines "Q\nA. 1") 0 = (none, 3) := by
  decide

/-- C6 (corrected).  Whenever a record candidate is discarded, the cursor
is advanced to at least one line past the candidate's noise-skipped start
position (it can land further than one line past it). -/
theorem claim_C6_discard_advance : ∀ (lines : List (List Char)) (i : Nat)
    (r : Option Flashcard × Nat), i < lines.length → parseStep lines i = r →
    r.1 = none → skipNoiseAux (lines.length + 1) lines i < lines.length →
    skipNoiseAux (lines.length + 1) lines i + 1 ≤ r.2 := by
  intro lines i r hi hr hnone hsk
  have hq : skipNoiseAux (lines.length + 1) lines i ≤
      (collectQAux (lines.length + 1) lines
        (skipNoiseAux (lines.length + 1) lines i) []).2 :=
    collectQAux_ge _ lines _ []
  simp only [parseStep] at hr
  rw [if_pos hsk] at hr
  split at hr
  · split at hr
    · subst hr; dsimp only; omega
    · split at hr
      · subst hr
        dsimp only
        have ho := collectOptsAux_ge (lines.length + 1) lines
          (collectQAux (lines.length + 1) lines
            (skipNoiseAux (lines.length + 1) lines i) []).2 []
        omega
      · subst hr
        simp at hnone
  · subst hr
    dsimp only
    exact le_trans (by omega) (Nat.le_max_left _ _)

/-- Witness for C6's corrected statement at a concrete input. -/
theorem claim_C6_witness :
    (0 < (docxLines "Q\nA. 1").length ∧
      parseStep (docxLines "Q\nA. 1") 0 = ((none : Option Flashcard), 3) ∧
      ((none : Option Flashcard), 3).1 = none ∧
      skipNoiseAux ((docxLines "Q\nA. 1").length + 1) (docxLines "Q\nA. 1") 0 <
        (docxLines "Q\nA. 1").length) ∧
    skipNoiseAux ((docxLines "Q\nA. 1").length + 1) (docxLines "Q\nA. 1") 0 +
      1 ≤ ((none : Option Flashcard), 3).2 :=
  ⟨⟨by decide, by decide, rfl, by decide⟩,
   claim_C6_discard_advance (docxLines "Q\nA. 1") 0
     ((none : Option Flashcard), 3) (by decide) (by decide) rfl (by decide)⟩

/-! ## C8: every line access is guarded

Each loop is replayed with an instrumented line accessor that fails on any
out-of-bounds index; the instrumented engine is proved to return
successfully with the same result, i.e. every `lines[k]` access in the
source occurs only under a guard `k < lines.length`. -/

/-- Line access that fails out of bounds. -/
def getLineE (lines : List (List Char)) (k : Nat) : Except Unit (List Char) :=
  match lines[k]? with
  | some l => Except.ok l
  | none => Except.error ()

theorem getLineE_ok (lines : List (List Char)) (i : Nat)
    (h : i < lines.length) : getLineE lines i = Except.ok (lines.getD i []) := by
  simp [getLineE, List.getElem?_eq_getElem h, List.getD_eq_getElem?_getD]

def skipNoiseAuxE (fuel : Nat) (lines : List (List Char)) (i : Nat) :
    Except Unit Nat :=
  match fuel with
  | 0 => Except.ok i
  | fuel + 1 =>
    if i < lines.length then
      match getLineE lines i with
      | Except.error e => Except.error e
      | Except.ok l =>
        if isNoiseLine l then skipNoiseAuxE fuel lines (i + 1)
        else Except.ok i
    else Except.ok i

theorem skipNoiseAuxE_eq (fuel : Nat) (lines : List (List Char)) :
    ∀ i : Nat, skipNoiseAuxE fuel lines i =
      Except.ok (skipNoiseAux fuel lines i) := by
  induction fuel with
  | zero => intro i; rfl
  | succ fuel ih =>
    intro i
    simp only [skipNoiseAuxE, skipNoiseAux]
    split
    · rename_i h
      rw [getLineE_ok lines i h]
      dsimp only
      split
      · exact ih (i + 1)
      · rfl
    · rfl

def nextIsOptionE (lines : List (List Char)) (p : Nat) : Except Unit Bool :=
  match skipNoiseAuxE (lines.length + 1) lines p with
  | Except.error e => Except.error e
  | Except.ok k =>
    if k < lines.length then
      match getLineE lines k with
      | Except.error e => Except.error e
      | Except.ok l => Except.ok (isOptionLine (jsTrim l))
    else Except.ok false

theorem nextIsOptionE_eq (lines : List (List Char)) (p : Nat) :
    nextIsOptionE lines p = Except.ok (nextIsOption lines p) := by
  simp only [nextIsOptionE, nextIsOption, skipNoiseAuxE_eq]
  split
  · rename_i h
    rw [getLineE_ok lines _ h]
    dsimp only
    simp [h]
  · rename_i h
    simp [h]

def collectQAuxE (fuel : Nat) (lines : List (List Char)) (j : Nat)
    (acc : List (List Char)) : Except Unit (List (List Char) × Nat) :=
  match fuel with
  | 0 => Except.ok (acc, j)
  | fuel + 1 =>
    if j < lines.length then
      match getLineE lines j with
      | Except.error e => Except.error e
      | Except.ok lj =>
        let cur := jsTrim lj
        if isNoiseLine cur then collectQAuxE fuel lines (j + 1) acc
        else if isOptionLine cur then Except.ok (acc, j)
        else
          match skipNoiseAuxE (lines.length + 1) lines (j + 1) with
          | Except.error e => Except.error e
          | Except.ok k =>
            if k < lines.length then
              match getLineE lines k with
              | Except.error e => Except.error e
              | Except.ok lk =>
                if isOptionLine (jsTrim lk) then Except.ok (acc ++ [cur], k)
                else collectQAuxE fuel lines (j + 1) (acc ++ [cur])
            else collectQAuxE fuel lines (j + 1) (acc ++ [cur])
    else Except.ok (acc, j)

theorem collectQAuxE_eq (fuel : Nat) (lines : List (List Char)) :
    ∀ (j : Nat) (acc : List (List Char)), collectQAuxE fuel lines j acc =
      Except.ok (collectQAux fuel lines j acc) := by
  induction fuel with
  | zero => intro j acc; rfl
  | succ fuel ih =>
    intro j acc
    simp only [collectQAuxE, collectQAux]
    split
    · rename_i h
      rw [getLineE_ok lines j h]
      dsimp only
      split
      · exact ih (j + 1) acc
      · split
        · rfl
        · rw [skipNoiseAuxE_eq]
          dsimp only
          split
          · rename_i hk
            rw [getLineE_ok lines _ hk]
            dsimp only
            rw [decide_eq_true hk, Bool.true_and]
            split
            · rfl
            · exact ih (j + 1) (acc ++ [jsTrim (lines.getD j [])])
          · rename_i hk
            rw [if_neg (by simp [hk])]
            exact ih (j + 1) (acc ++ [jsTrim (lines.getD j [])])
    · rfl

def absorbContAuxE (fuel : Nat) (lines : List (List Char)) (k : Nat)
    (opt : List Char) : Except Unit (List Char × Nat) :=
  match fuel with
  | 0 => Except.ok (opt, k)
  | fuel + 1 =>
    if k < lines.length then
      match getLineE lines k with
      | Except.error e => Except.error e
      | Except.ok lk =>
        let nxt := jsTrim lk
        if isNoiseLine nxt then absorbContAuxE fuel lines (k + 1) opt
        else if isOptionLine nxt then Except.ok (opt, k)
        else absorbContAuxE fuel lines (k + 1) (opt ++ ' ' :: nxt)
    else Except.ok (opt, k)

theorem absorbContAuxE_eq (fuel : Nat) (lines : List (List Char)) :
    ∀ (k : Nat) (opt : List Char), absorbContAuxE fuel lines k opt =
      Except.ok (absorbContAux fuel lines k opt) := by
  induction fuel with
  | zero => intro k opt; rfl
  | succ fuel ih =>
    intro k opt
    simp only [absorbContAuxE, absorbContAux]
    split
    · rename_i h
      rw [getLineE_ok lines k h]
      dsimp only
      split
      · exact ih (k + 1) opt
      · split
        · rfl
        · exact ih (k + 1) _
    · rfl

def collectOptsAuxE (fuel : Nat) (lines : List (List Char)) (j : Nat)
    (opts : List (List Char)) : Except Unit (List (List Char) × Nat) :=
  match fuel with
  | 0 => Except.ok (opts, j)
  | fuel + 1 =>
    if j < lines.length then
      match getLineE lines j with
      | Except.error e => Except.error e
      | Except.ok lj =>
        let cur := jsTrim lj
        if isNoiseLine cur then collectOptsAuxE fuel lines (j + 1) opts
        else if isOptionLine cur then
          match absorbContAuxE (lines.length + 1) lines (j + 1) cur with
          | Except.error e => Except.error e
          | Except.ok p =>
            let opts' := opts ++ [p.1]
            if 4 ≤ opts'.length then Except.ok (opts', p.2)
            else collectOptsAuxE fuel lines p.2 opts'
        else Except.ok (opts, j)
    else Except.ok (opts, j)

theorem collectOptsAuxE_eq (fuel : Nat) (lines : List (List Char)) :
    ∀ (j : Nat) (opts : List (List Char)), collectOptsAuxE fuel lines j opts =
      Except.ok (collectOptsAux fuel lines j opts) := by
  induction fuel with
  | zero => intro j opts; rfl
  | succ fuel ih =>
    intro j opts
    simp only [collectOptsAuxE, collectOptsAux]
    split
    · rename_i h
      rw [getLineE_ok lines j h]
      dsimp only
      split
      · exact ih (j + 1) opts
      · split
        · rw [absorbContAuxE_eq]
          dsimp only
          split
          · rfl
          · exact ih _ _
        · rfl
    · rfl

def collectAnsAuxE (fuel : Nat) (lines : List (List Char)) (a : Nat)
    (answers : List (List Char)) : Except Unit (List (List Char) × Nat) :=
  match fuel with
  | 0 => Except.ok (answers, a)
  | fuel + 1 =>
    if a < lines.length then
      match getLineE lines a with
      | Except.error e => Except.error e
      | Except.ok la =>
        let cur := jsTrim la
        if isNoiseLine cur then collectAnsAuxE fuel lines (a + 1) answers
        else
          match extractInlineAnswer cur with
          | some payload => Except.ok (answers ++ [payload], a + 1)
          | none =>
            if !isAnswerLine cur && !isOptionLine cur then
              match nextIsOptionE lines (a + 1) with
              | Except.error e => Except.error e
              | Except.ok b =>
                if b then Except.ok (answers, a)
                else
                  collectAnsAuxE fuel lines (a + 1)
                    (if isAnswerLine cur then answers ++ [cur]
                     else if answers.length ≠ 0 then appendLast answers cur
                     else answers)
            else
              collectAnsAuxE fuel lines (a + 1)
                (if isAnswerLine cur then answers ++ [cur]
                 else if answers.length ≠ 0 then appendLast answers cur
                 else answers)
    else Except.ok (answers, a)

theorem collectAnsAuxE_eq (fuel : Nat) (lines : List (List Char)) :
    ∀ (a : Nat) (answers : List (List Char)),
      collectAnsAuxE fuel lines a answers =
        Except.ok (collectAnsAux fuel lines a answers) := by
  induction fuel with
  | zero => intro a answers; rfl
  | succ fuel ih =>
    intro a answers
    simp only [collectAnsAuxE, collectAnsAux]
    split
    · rename_i h
      rw [getLineE_ok lines a h]
      dsimp only
      split
      · exact ih (a + 1) answers
      · split
        · rfl
        · split
          · rename_i hcond
            rw [nextIsOptionE_eq]
            dsimp only
            obtain ⟨hA, hB⟩ := Bool.and_eq_true_iff.mp hcond
            split
            · rename_i hb
              rw [hA, hB, hb]
              simp
            · rename_i hb
              rw [Bool.not_eq_true] at hb
              rw [hA, hB, hb]
              simp only [Bool.true_and, Bool.and_false, Bool.false_eq_true,
                if_false]
              exact ih (a + 1) _
          · rename_i hcond
            by_cases hA : isAnswerLine (jsTrim (lines.getD a [])) = true
            · rw [hA]
              simp only [Bool.not_true, Bool.false_and, Bool.false_eq_true,
                if_false, if_true, if_pos rfl]
              exact ih (a + 1) _
            · rw [Bool.not_eq_true] at hA
              have hB : isOptionLine (jsTrim (lines.getD a [])) = true := by
                by_contra hB
                rw [Bool.not_eq_true] at hB
                exact hcond (by rw [hA, hB]; rfl)
              rw [hA, hB]
              simp only [Bool.not_true, Bool.not_false, Bool.true_and,
                Bool.false_and, Bool.and_false, Bool.false_eq_true, if_false,
                if_true, if_neg (fun hc => Bool.false_ne_true hc)]
              exact ih (a + 1) _
    · rfl

def parseStepE (lines : List (List Char)) (i : Nat) :
    Except Unit (Option Flashcard × Nat) :=
  match skipNoiseAuxE (lines.length + 1) lines i with
  | Except.error e => Except.error e
  | Except.ok i1 =>
    if i1 < lines.length then
      match collectQAuxE (lines.length + 1) lines i1 [] with
      | Except.error e => Except.error e
      | Except.ok q =>
        if q.2 < lines.length then
          match getLineE lines q.2 with
          | Except.error e => Except.error e
          | Except.ok lq =>
            if isOptionLine (jsTrim lq) then
              let question := jsTrim (joinSep ' ' q.1)
              if question.isEmpty then Except.ok (none, q.2 + 1)
              else
                match collectOptsAuxE (lines.length + 1) lines q.2 [] with
                | Except.error e => Except.error e
                | Except.ok o =>
                  if o.1.length < 2 then Except.ok (none, o.2 + 1)
                  else
                    match skipNoiseAuxE (lines.length + 1) lines o.2 with
                    | Except.error e => Except.error e
                    | Except.ok a0 =>
                      match collectAnsAuxE (lines.length + 1) lines a0 [] with
                      | Except.error e => Except.error e
                      | Except.ok ans =>
                        let answer := jsTrim (joinSep '\n' ans.1)
                        Except.ok
                          (some { question := question.asString
                                , options := o.1.map List.asString
                                , answer := (if answer.isEmpty then
                                    "UNKNOWN".data else answer).asString
                                , explanation := none }, ans.2)
            else Except.ok (none, max (i1 + 1) q.2)
        else Except.ok (none, max (i1 + 1) q.2)
    else Except.ok (none, i1)

theorem parseStepE_eq (lines : List (List Char)) (i : Nat) :
    parseStepE lines i = Except.ok (parseStep lines i) := by
  simp only [parseStepE, parseStep, skipNoiseAuxE_eq, collectQAuxE_eq,
    collectOptsAuxE_eq, collectAnsAuxE_eq]
  split
  · rename_i h1
    split
    · rename_i hq
      rw [getLineE_ok lines _ hq]
      dsimp only
      rw [decide_eq_true hq, Bool.true_and]
      split
      · split
        · rfl
        · split
          · rfl
          · rfl
      · rfl
    · rename_i hq
      rw [if_neg (by simp [hq])]
  · rfl

def parseGoFuelE (fuel : Nat) (lines : List (List Char)) (i : Nat) :
    Except Unit (List Flashcard) :=
  match fuel with
  | 0 => Except.ok []
  | fuel + 1 =>
    if i < lines.length then
      match parseStepE lines i with
      | Except.error e => Except.error e
      | Except.ok (some c, i') =>
        match parseGoFuelE fuel lines i' with
        | Except.error e => Except.error e
        | Except.ok cs => Except.ok (c :: cs)
      | Except.ok (none, i') => parseGoFuelE fuel lines i'
    else Except.ok []

theorem parseGoFuelE_eq (fuel : Nat) (lines : List (List Char)) :
    ∀ i : Nat, parseGoFuelE fuel lines i =
      Except.ok (parseGoFuel fuel lines i) := by
  induction fuel with
  | zero => intro i; rfl
  | succ fuel ih =>
    intro i
    simp only [parseGoFuelE, parseGoFuel, parseStepE_eq]
    split
    · rcases hstep : parseStep lines i with ⟨co, i'⟩
      cases co with
      | none => dsimp only; exact ih i'
      | some c => dsimp only; rw [ih i']
    · rfl

/-- The instrumented engine, `parseDocxContent` with failing out-of-bounds
accesses. -/
def parseDocxContentE (raw : String) : Except Unit (List Flashcard) :=
  let lines := docxLines raw
  parseGoFuelE lines.length lines 0

/-- C8 (confirmed).  The segmentation engine is total: replaying it with an
instrumented accessor that fails on any unguarded line access always
succeeds, returning exactly the cards of `parseDocxContent`; the normalizer
`normalizeMcqText` (defined below) is likewise a total function on all
strings by construction. -/
theorem claim_C8_totality : ∀ raw : String,
    parseDocxContentE raw = Except.ok (parseDocxContent raw) := by
  intro raw
  simp only [parseDocxContentE, parseDocxContent]
  exact parseGoFuelE_eq _ _ 0

/-! ## C9: the viewer's load-and-validate path (App.tsx) -/

/-- Parsed JSON values, as delivered by a successful fetch + parse. -/
inductive Json where
  | null : Json
  | bool : Bool → Json
  | num : Int → Json
  | str : String → Json
  | arr : List Json → Json
  | obj : List (String × Json) → Json

mutual

/-- JavaScript's `String(v)` coercion on JSON values. -/
def jsonToString : Json → String
  | Json.null => "null"
  | Json.bool true => "true"
  | Json.bool false => "false"
  | Json.num n => toString n
  | Json.str s => s
  | Json.arr xs => jsonArrToString xs
  | Json.obj _ => "[object Object]"

/-- JavaScript's array-to-string: elements joined with commas; a `null`
element contributes the empty string. -/
def jsonArrToString : List Json → String
  | [] => ""
  | [Json.null] => ""
  | [x] => jsonToString x
  | Json.null :: rest => "," ++ jsonArrToString rest
  | x :: rest => jsonToString x ++ "," ++ jsonArrToString rest

end

def lookupField : List (String × Json) → String → Option Json
  | [], _ => none
  | (k', v) :: rest, k => if k' = k then some v else lookupField rest k

/-- Property lookup `x?.k`: `undefined` (here `none`) unless `x` is an
object carrying the key. -/
def getProp : Json → String → Option Json
  | Json.obj fields, k => lookupField fields k
  | _, _ => none

/-- `String(x?.k ?? '')`: missing or `null` becomes the empty string. -/
def propString (x : Json) (k : String) : String :=
  match getProp x k with
  | none => ""
  | some Json.null => ""
  | some v => jsonToString v

/-- JS `trim` lifted to `String`. -/
def jsTrimS (s : String) : String := (jsTrim s.data).asString

/-- The viewer's card type (`options` and `explanation` optional). -/
structure ViewCard where
  question : String
  options : Option (List String)
  answer : String
  explanation : Option String
deriving Repr, DecidableEq

/-- Element normalization of the viewer's load path (App.tsx lines 39–44):
coerce missing/null question/answer to the (trimmed) empty string, keep
`options` only when it is an array (mapping `String` over its elements), and
default `explanation` to `null` when missing or `null`. -/
def normElem (x : Json) : ViewCard :=
  { question := jsTrimS (propString x "question")
  , options := match getProp x "options" with
      | some (Json.arr ys) => some (ys.map jsonToString)
      | _ => none
  , answer := jsTrimS (propString x "answer")
  , explanation := match getProp x "explanation" with
      | none => none
      | some Json.null => none
      | some v => some (jsonToString v) }

/-- `c.question && c.answer`: both non-empty. -/
def validCard (c : ViewCard) : Bool :=
  !(c.question = "") && !(c.answer = "")

/-- The load-time validation (App.tsx lines 33–49): top level must be an
array; elements are normalized and the invalid ones discarded; zero
survivors is an error. -/
def loadCards : Json → Except String (List ViewCard)
  | Json.arr xs =>
    let normalized := (xs.map normElem).filter validCard
    if normalized.isEmpty then
      Except.error "유효한 카드가 없습니다. (question/answer 필수)"
    else Except.ok normalized
  | _ => Except.error "JSON 최상단은 배열([])이어야 합니다."

/-- The full load path: a fetch/parse failure or a validation failure is
surfaced as one load error (App.tsx line 59); otherwise the cards render. -/
def viewerLoad : Except String Json → Except String (List ViewCard)
  | Except.error e => Except.error ("JSON 로드 실패: " ++ e)
  | Except.ok j =>
    match loadCards j with
    | Except.error e => Except.error ("JSON 로드 실패: " ++ e)
    | Except.ok cs => Except.ok cs

/-- The App.tsx load path: (1) a fetch/parse failure is reported as a load
error; (2) a non-array top level is reported as a load error; (3) missing
or null question/answer normalize to the empty string; (4) a non-array
options field is dropped; (5) missing or null explanation defaults to null;
(6) every rendered card has non-empty question and answer, and the rendered
list is exactly the normalized-and-filtered input; (7) when zero elements
survive validation a load error is reported instead of rendering. -/
theorem appViewerLoad_props :
    (∀ e : String, viewerLoad (Except.error e) =
      Except.error ("JSON 로드 실패: " ++ e)) ∧
    (∀ j : Json, (∀ xs : List Json, j ≠ Json.arr xs) →
      ∃ msg : String, viewerLoad (Except.ok j) = Except.error msg) ∧
    (∀ x : Json, (getProp x "question" = none ∨
        getProp x "question" = some Json.null) → (normElem x).question = "") ∧
    (∀ x : Json, (getProp x "answer" = none ∨
        getProp x "answer" = some Json.null) → (normElem x).answer = "") ∧
    (∀ x : Json, (∀ ys : List Json, getProp x "options" ≠
        some (Json.arr ys)) → (normElem x).options = none) ∧
    (∀ x : Json, (getProp x "explanation" = none ∨
        getProp x "explanation" = some Json.null) →
      (normElem x).explanation = none) ∧
    (∀ (xs : List Json) (cs : List ViewCard),
      viewerLoad (Except.ok (Json.arr xs)) = Except.ok cs →
      cs = (xs.map normElem).filter validCard ∧ cs ≠ [] ∧
      ∀ c ∈ cs, c.question ≠ "" ∧ c.answer ≠ "") ∧
    (∀ xs : List Json, (xs.map normElem).filter validCard = [] →
      ∃ msg : String, viewerLoad (Except.ok (Json.arr xs)) =
        Except.error msg) := by
  refine ⟨fun e => rfl, ?_, ?_, ?_, ?_, ?_, ?_, ?_⟩
  · intro j hne
    cases j with
    | arr xs => exact absurd rfl (hne xs)
    | null => exact ⟨_, rfl⟩
    | bool b => exact ⟨_, rfl⟩
    | num n => exact ⟨_, rfl⟩
    | str s => exact ⟨_, rfl⟩
    | obj fields => exact ⟨_, rfl⟩
  · intro x hx
    rcases hx with hx | hx <;> simp [normElem, propString, hx, jsTrimS,
      jsTrim, jsTrimEnd, dropW, List.asString]
  · intro x hx
    rcases hx with hx | hx <;> simp [normElem, propString, hx, jsTrimS,
      jsTrim, jsTrimEnd, dropW, List.asString]
  · intro x hx
    simp only [normElem]
  · intro x hx
    rcases hx with hx | hx <;> simp [normElem, hx]
  · intro xs cs hcs
    simp only [viewerLoad, loadCards] at hcs
    by_cases hne : ((xs.map normElem).filter validCard).isEmpty
    · rw [if_pos hne] at hcs
      exact absurd hcs (by simp)
    · rw [if_neg hne] at hcs
      dsimp only at hcs
      rw [Except.ok.injEq] at hcs
      subst hcs
      refine ⟨rfl, ?_, ?_⟩
      · intro hnil
        rw [hnil] at hne
        exact hne rfl
      · intro c hc
        have hv := List.of_mem_filter hc
        simp only [validCard, Bool.and_eq_true, Bool.not_eq_true',
          decide_eq_false_iff_not] at hv
        exact ⟨hv.1, hv.2⟩
  · intro xs hempty
    simp only [viewerLoad, loadCards, hempty]
    exact ⟨_, rfl⟩

/-- The App.tsx properties at a concrete input: a non-array payload is
rejected. -/
theorem appViewerLoad_inst :
    (∀ xs : List Json, Json.num 3 ≠ Json.arr xs) ∧
    ∃ msg : String, viewerLoad (Except.ok (Json.num 3)) = Except.error msg :=
  ⟨(fun xs h => nomatch h),
   appViewerLoad_props.2.1 (Json.num 3) (fun xs h => nomatch h)⟩

/-! ## C9: the reduced viewer variant (src/unnamed/part_000) -/

/-- JavaScript truthiness of a JSON value. -/
def jsTruthy : Json → Bool
  | Json.null => false
  | Json.bool b => b
  | Json.num n => !(n = 0)
  | Json.str s => !(s = "")
  | Json.arr _ => true
  | Json.obj _ => true

/-- The filter predicate `card.question && card.answer` (part_000 line 23):
plain truthiness of the two fields, with no coercion and no trimming;
property access on a non-null primitive yields `undefined` (falsy). -/
def keepCard (card : Json) : Bool :=
  (match getProp card "question" with
   | none => false
   | some v => jsTruthy v) &&
  (match getProp card "answer" with
   | none => false
   | some v => jsTruthy v)

/-- `data.filter(card => card.question && card.answer)` scans left to
right; reading `question` off a null element throws a TypeError, which the
surrounding try catches. -/
def filter000 : List Json → Except String (List Json)
  | [] => Except.ok []
  | Json.null :: _ =>
    Except.error "Cannot read properties of null (reading 'question')"
  | card :: rest =>
    match filter000 rest with
    | Except.error e => Except.error e
    | Except.ok cs =>
      Except.ok (if keepCard card then card :: cs else cs)

/-- The component state left by the part_000 `loadCards` (lines 16–29):
the surviving elements verbatim, plus the stored (never rendered) load
error, if any. -/
structure Part000State where
  cards : List Json
  loadError : Option String

/-- The part_000 load path: a fetch/parse failure, a non-array top level
(`data.filter` is not a function) and a null element all store a `로드
실패: `-prefixed message; otherwise the filtered elements are stored
unmodified and no error is stored — also when zero elements survive. -/
def loadCards000 : Except String Json → Part000State
  | Except.error e =>
    { cards := [], loadError := some ("로드 실패: " ++ e) }
  | Except.ok (Json.arr xs) =>
    match filter000 xs with
    | Except.error e => { cards := [], loadError := some ("로드 실패: " ++ e) }
    | Except.ok cs => { cards := cs, loadError := none }
  | Except.ok _ =>
    { cards := [], loadError := some "로드 실패: data.filter is not a function" }

/-- The render guard (part_000 line 48) once loading has finished: with
`currentIndex` still 0, `!cards[0]` keeps the `로딩 중...` placeholder on
screen; `loadError` appears nowhere in the rendered output. -/
def part000Loading (st : Part000State) : Bool :=
  match st.cards with
  | [] => true
  | c :: _ => !(jsTruthy c)

theorem filter000_no_null : ∀ xs : List Json,
    (∀ x ∈ xs, ¬ x = Json.null) →
    filter000 xs = Except.ok (xs.filter keepCard) := by
  intro xs
  induction xs with
  | nil =>
    intro h
    rfl
  | cons card rest ih =>
    intro h
    have hrest := ih (fun x hx => h x (List.mem_cons_of_mem _ hx))
    have hcard : ¬ card = Json.null := h card (by simp)
    cases card with
    | null => exact absurd rfl hcard
    | bool b => simp only [filter000, hrest, List.filter_cons]
    | num n => simp only [filter000, hrest, List.filter_cons]
    | str s => simp only [filter000, hrest, List.filter_cons]
    | arr ys => simp only [filter000, hrest, List.filter_cons]
    | obj fields => simp only [filter000, hrest, List.filter_cons]

/-- C9 counterexample.  On the load path of src/unnamed/part_000 the
claimed behavior fails at concrete fetched values: an array whose only
element has an empty-string question yields zero survivors, yet no load
error is stored and the loading placeholder is rendered; and an element
carrying a non-array `options` field is kept verbatim, its `options` not
dropped. -/
theorem claim_C9_counterexample :
    (loadCards000 (Except.ok (Json.arr
        [Json.obj [("question", Json.str ""), ("answer", Json.str "a")]])) =
      { cards := [], loadError := none } ∧
     part000Loading (loadCards000 (Except.ok (Json.arr
        [Json.obj [("question", Json.str ""), ("answer", Json.str "a")]]))) =
      true) ∧
    (loadCards000 (Except.ok (Json.arr [Json.obj [("question", Json.str "q"),
        ("answer", Json.str "a"), ("options", Json.str "x")]])) =
      { cards := [Json.obj [("question", Json.str "q"),
          ("answer", Json.str "a"), ("options", Json.str "x")]],
        loadError := none } ∧
     getProp (Json.obj [("question", Json.str "q"), ("answer", Json.str "a"),
        ("options", Json.str "x")]) "options" = some (Json.str "x")) :=
  ⟨⟨rfl, rfl⟩, ⟨rfl, rfl⟩⟩

/-- C9 (corrected).  The repository has two viewer load paths.  The
App.tsx path satisfies the claimed contract: a fetch/parse failure and a
non-array top level are load errors, missing or null question and answer
coerce to the (trimmed) empty string, a non-array options field is
dropped, explanation defaults to null, elements lacking a non-empty
question or answer are discarded, and zero survivors is a load error.
The reduced part_000 path performs none of the normalization: a
fetch/parse failure only stores a message that is never rendered,
surviving elements are kept verbatim (filtered solely by truthiness of
their question and answer fields), and on zero survivors no load error is
stored and the loading placeholder is rendered instead. -/
theorem claim_C9_amended :
    (      (∀ e : String, viewerLoad (Except.error e) =
        Except.error ("JSON 로드 실패: " ++ e)) ∧
      (∀ j : Json, (∀ xs : List Json, j ≠ Json.arr xs) →
        ∃ msg : String, viewerLoad (Except.ok j) = Except.error msg) ∧
      (∀ x : Json, (getProp x "question" = none ∨
          getProp x "question" = some Json.null) → (normElem x).question = "") ∧
      (∀ x : Json, (getProp x "answer" = none ∨
          getProp x "answer" = some Json.null) → (normElem x).answer = "") ∧
      (∀ x : Json, (∀ ys : List Json, getProp x "options" ≠
          some (Json.arr ys)) → (normElem x).options = none) ∧
      (∀ x : Json, (getProp x "explanation" = none ∨
          getProp x "explanation" = some Json.null) →
        (normElem x).explanation = none) ∧
      (∀ (xs : List Json) (cs : List ViewCard),
        viewerLoad (Except.ok (Json.arr xs)) = Except.ok cs →
        cs = (xs.map normElem).filter validCard ∧ cs ≠ [] ∧
        ∀ c ∈ cs, c.question ≠ "" ∧ c.answer ≠ "") ∧
      (∀ xs : List Json, (xs.map normElem).filter validCard = [] →
        ∃ msg : String, viewerLoad (Except.ok (Json.arr xs)) =
          Except.error msg)) ∧
    ((∀ e : String, loadCards000 (Except.error e) =
        { cards := [], loadError := some ("로드 실패: " ++ e) }) ∧
     (∀ xs : List Json, (∀ x ∈ xs, ¬ x = Json.null) →
        loadCards000 (Except.ok (Json.arr xs)) =
          { cards := xs.filter keepCard, loadError := none }) ∧
     (∀ xs : List Json, (∀ x ∈ xs, ¬ x = Json.null) →
        xs.filter keepCard = [] →
        (loadCards000 (Except.ok (Json.arr xs))).loadError = none ∧
        part000Loading (loadCards000 (Except.ok (Json.arr xs))) = true)) := by
  refine ⟨appViewerLoad_props, fun e => rfl, ?_, ?_⟩
  · intro xs hnn
    simp only [loadCards000]
    rw [filter000_no_null xs hnn]
  · intro xs hnn hz
    have h2 : loadCards000 (Except.ok (Json.arr xs)) =
        { cards := xs.filter keepCard, loadError := none } := by
      simp only [loadCards000]
      rw [filter000_no_null xs hnn]
    rw [h2, hz]
    exact ⟨rfl, rfl⟩

/-- Witness for C9 at a concrete input: the part_000 path keeps verbatim
the element whose question and answer are non-empty strings. -/
theorem claim_C9_amended_witness :
    (∀ x ∈ [Json.obj [("question", Json.str "q"), ("answer", Json.str "a")]],
      ¬ x = Json.null) ∧
    loadCards000 (Except.ok (Json.arr
      [Json.obj [("question", Json.str "q"), ("answer", Json.str "a")]])) =
      { cards := [Json.obj [("question", Json.str "q"),
          ("answer", Json.str "a")]], loadError := none } := by
  have hnn : ∀ x ∈ [Json.obj [("question", Json.str "q"),
      ("answer", Json.str "a")]], ¬ x = Json.null := by
    intro x hx
    rw [List.mem_singleton] at hx
    subst hx
    intro hcon
    exact Json.noConfusion hcon
  refine ⟨hnn, ?_⟩
  have h2 := claim_C9_amended.2.2.1
    [Json.obj [("question", Json.str "q"), ("answer", Json.str "a")]] hnn
  rw [h2]
  rfl

/-! ## The text normalizer (`normalizeMcqText`)

`normalizeMcqText` performs three global regex rewrites.  Each regex is
anchored by character classes disjoint from `\s`, so matching at a given
position is deterministic, and a global replace is a single left-to-right
scan with non-overlapping matches.  Pass 1 and pass 3 share the shape
`([^\n])\s*(G)` ↦ `$1\n$2`: scan for a non-newline character followed
(after greedily consumed whitespace) by a matchable group, replace the
whitespace in between by one newline, and resume after the group.  The
shared shape is `scanBrk`, parameterized by the group matcher. -/

def cleanupText (l : List Char) : List Char :=
  (l.filter (fun c => !(c = '\r'))).map (fun c => if c = ' ' then ' ' else c)

theorem length_dropWhile_le (p : Char → Bool) (l : List Char) :
    (l.dropWhile p).length ≤ l.length := by
  induction l with
  | nil => simp
  | cons a l ih => rw [List.dropWhile_cons]; split <;> simp <;> omega

theorem dropW_head_not_ws (l : List Char) (c : Char) (r : List Char)
    (h : dropW l = c :: r) : isJsWs c = false := by
  have := List.head?_dropWhile_not isJsWs l
  rw [dropW] at h
  rw [h] at this
  simpa using this

theorem takeW_all_ws (l : List Char) : ∀ a ∈ takeW l, isJsWs a :=
  fun _ h => List.mem_takeWhile_imp h

theorem takeW_append_dropW (l : List Char) : takeW l ++ dropW l = l :=
  List.takeWhile_append_dropWhile isJsWs l

theorem dropW_not_ws (c : Char) (l : List Char) (h : isJsWs c = false) :
    dropW (c :: l) = c :: l := by simp [dropW, List.dropWhile_cons, h]

theorem takeW_not_ws (c : Char) (l : List Char) (h : isJsWs c = false) :
    takeW (c :: l) = [] := by simp [takeW, List.takeWhile_cons, h]

theorem dropW_ws (c : Char) (l : List Char) (h : isJsWs c = true) :
    dropW (c :: l) = dropW l := by simp [dropW, List.dropWhile_cons, h]

theorem takeW_ws (c : Char) (l : List Char) (h : isJsWs c = true) :
    takeW (c :: l) = c :: takeW l := by simp [takeW, List.takeWhile_cons, h]

theorem dropW_nl (l : List Char) : dropW ('\n' :: l) = dropW l :=
  dropW_ws '\n' l (by decide)

/-- The non-whitespace subsequence of a string; both rewrite passes leave it
unchanged (they only delete whitespace and insert newlines). -/
def nonWs (l : List Char) : List Char := l.filter (fun c => !(isJsWs c))

theorem nonWs_nil : nonWs [] = [] := rfl

theorem nonWs_cons_ws (c : Char) (l : List Char) (h : isJsWs c = true) :
    nonWs (c :: l) = nonWs l := by simp [nonWs, h]

theorem nonWs_cons_not_ws (c : Char) (l : List Char) (h : isJsWs c = false) :
    nonWs (c :: l) = c :: nonWs l := by simp [nonWs, h]

theorem nonWs_append (l1 l2 : List Char) :
    nonWs (l1 ++ l2) = nonWs l1 ++ nonWs l2 := List.filter_append l1 l2

theorem nonWs_all_ws (l : List Char) (h : ∀ a ∈ l, isJsWs a) :
    nonWs l = [] := by
  induction l with
  | nil => rfl
  | cons a l ih =>
    rw [nonWs_cons_ws a l (h a (by simp))]
    exact ih (fun a ha => h a (by simp [ha]))

theorem nonWs_dropW (l : List Char) : nonWs (dropW l) = nonWs l := by
  conv_rhs => rw [← takeW_append_dropW l]
  rw [nonWs_append, nonWs_all_ws (takeW l) (takeW_all_ws l), List.nil_append]

/-- A group matcher for one rewrite pass: on success it splits its input
into the matched group (nonempty, starting with a non-whitespace character)
and the remainder. -/
structure Brk where
  m : List Char → Option (List Char × List Char)
  pre_eq : ∀ t g r, m t = some (g, r) → g ++ r = t
  ne_nil : ∀ t g r, m t = some (g, r) → g ≠ []
  hd_not_ws : ∀ t g r c cs, m t = some (g, r) → g = c :: cs → isJsWs c = false

theorem Brk.r_lt (b : Brk) {t g r : List Char} (h : b.m t = some (g, r)) :
    r.length < t.length := by
  have h1 := b.pre_eq t g r h
  have h2 := b.ne_nil t g r h
  have h3 : g.length + r.length = t.length := by
    rw [← h1, List.length_append]
  have h4 : 1 ≤ g.length := by
    cases g with
    | nil => exact absurd rfl h2
    | cons a l => simp
  omega

/-- One global replace of `([^\n])\s*(G)` by `$1\n$2`: scan left to right;
at a non-newline character whose following whitespace run is followed by a
matchable group, emit the character, one newline and the group, and resume
after the group (non-overlapping matches); otherwise emit the character and
move on.  Greedy `\s*` is forced: the group always starts with a
non-whitespace character, so backtracking cannot produce another match. -/
def scanBrk (b : Brk) : List Char → List Char
  | [] => []
  | c :: rest =>
    if c = '\n' then c :: scanBrk b rest
    else
      match h : b.m (dropW rest) with
      | some (g, r) => c :: '\n' :: (g ++ scanBrk b r)
      | none => c :: scanBrk b rest
termination_by l => l.length
decreasing_by
  · simp only [List.length_cons]; omega
  · have h1 := b.r_lt h
    have h2 : (dropW rest).length ≤ rest.length := length_dropWhile_le _ _
    simp only [List.length_cons]
    omega
  · simp only [List.length_cons]; omega

/-- The pass-1 matcher `[A-D][\.\)．]\s*` (the trailing `\s*` belongs to the
replaced group `$2` and is kept verbatim). -/
def optM (t : List Char) : Option (List Char × List Char) :=
  match t with
  | l :: s :: r' =>
    if optLetter l && optSep s then some (l :: s :: takeW r', dropW r')
    else none
  | _ => none

theorem optLetter_not_ws (c : Char) (h : optLetter c = true) :
    isJsWs c = false := by
  simp only [optLetter, Bool.or_eq_true, decide_eq_true_eq] at h
  rcases h with ((h | h) | h) | h <;> subst h <;> decide

def optBrk : Brk where
  m := optM
  pre_eq := by
    intro t g r h
    unfold optM at h
    split at h
    · split at h
      · rw [Option.some.injEq, Prod.mk.injEq] at h
        obtain ⟨hg, hr⟩ := h
        subst hg; subst hr
        simp only [List.cons_append, List.cons.injEq, true_and]
        exact takeW_append_dropW _
      · exact absurd h (by simp)
    · exact absurd h (by simp)
  ne_nil := by
    intro t g r h
    unfold optM at h
    split at h
    · split at h
      · rw [Option.some.injEq, Prod.mk.injEq] at h
        rw [← h.1]
        simp
      · exact absurd h (by simp)
    · exact absurd h (by simp)
  hd_not_ws := by
    intro t g r c cs h hg
    unfold optM at h
    split at h
    · rename_i l s r'
      split at h
      · rename_i hls
        rw [Option.some.injEq, Prod.mk.injEq] at h
        rw [← h.1] at hg
        rw [List.cons.injEq] at hg
        rw [← hg.1]
        exact optLetter_not_ws l (by
          rw [Bool.and_eq_true] at hls
          exact hls.1)
      · exact absurd h (by simp)
    · exact absurd h (by simp)

/-- The iteration `(?:\s*[,/]\s*[A-Da-d])*` of the pass-3 matcher, returning
the consumed text and the remainder. -/
def iterCons (fuel : Nat) (r : List Char) : List Char × List Char :=
  match fuel with
  | 0 => ([], r)
  | fuel + 1 =>
    match dropW r with
    | c :: rest1 =>
      if c = ',' || c = '/' then
        match dropW rest1 with
        | d :: rest2 =>
          if ansLetter d then
            let p := iterCons fuel rest2
            (takeW r ++ c :: (takeW rest1 ++ d :: p.1), p.2)
          else ([], r)
        | [] => ([], r)
      else ([], r)
    | [] => ([], r)

/-- The pass-3 matcher
`(?:정답|답|Answer)\s*[:：]\s*[A-D](?:\s*[,/]\s*[A-D])*` (flags `gi`; the
colon is mandatory here, unlike in `extractInlineAnswer`). -/
def inlineM (t : List Char) : Option (List Char × List Char) :=
  match ansKwLen t with
  | none => none
  | some k =>
    match dropW (t.drop k) with
    | c :: rest1 =>
      if c = ':' || c = '：' then
        match dropW rest1 with
        | d :: rest2 =>
          if ansLetter d then
            some (t.take k ++ (takeW (t.drop k) ++ c ::
                (takeW rest1 ++ d :: (iterCons rest2.length rest2).1)),
              (iterCons rest2.length rest2).2)
          else none
        | [] => none
      else none
    | [] => none

theorem iterCons_pre (fuel : Nat) : ∀ r : List Char,
    (iterCons fuel r).1 ++ (iterCons fuel r).2 = r := by
  induction fuel with
  | zero => intro r; rfl
  | succ fuel ih =>
    intro r
    simp only [iterCons]
    split
    · rename_i c rest1 hdrop
      split
      · rename_i hc
        split
        · rename_i d rest2 hdrop1
          split
          · rename_i hd
            dsimp only
            rw [List.append_assoc, List.cons_append, List.append_assoc,
              List.cons_append, ih rest2]
            rw [← hdrop1, takeW_append_dropW, ← hdrop, takeW_append_dropW]
          · rfl
        · rfl
      · rfl
    · rfl

theorem ansKwLen_le (t : List Char) (k : Nat) (h : ansKwLen t = some k) :
    k ≤ t.length ∧ 1 ≤ k := by
  unfold ansKwLen at h
  split at h
  · rw [Option.some.injEq] at h; subst h; simp
  · rw [Option.some.injEq] at h; subst h; simp
  · split at h
    · rw [Option.some.injEq] at h; subst h; simp
    · exact absurd h (by simp)
  · exact absurd h (by simp)

theorem ansKwLen_head (t : List Char) (k : Nat) (h : ansKwLen t = some k) :
    ∃ c cs, t = c :: cs ∧ isJsWs c = false := by
  cases t with
  | nil =>
    rw [show ansKwLen ([] : List Char) = none from rfl] at h
    exact Option.noConfusion h
  | cons c cs =>
    refine ⟨c, cs, rfl, ?_⟩
    unfold ansKwLen at h
    split at h
    · rename_i tail heq
      rw [List.cons.injEq] at heq
      rw [heq.1]
      decide
    · rename_i tail heq
      rw [List.cons.injEq] at heq
      rw [heq.1]
      decide
    · rename_i heq
      split at h
      · rename_i hciv
        simp only [Bool.and_eq_true, Bool.or_eq_true, decide_eq_true_eq]
          at hciv
        rw [List.cons.injEq] at heq
        obtain ⟨hc1, -⟩ := heq
        subst hc1
        have h1 : c = 'A' ∨ c = 'a' := by tauto
        rcases h1 with h1 | h1 <;> rw [h1] <;> decide
      · exact Option.noConfusion h
    · exact Option.noConfusion h

def inlineBrk : Brk where
  m := inlineM
  pre_eq := by
    intro t g r h
    unfold inlineM at h
    split at h
    · exact absurd h (by simp)
    · rename_i k hk
      split at h
      · rename_i c rest1 hdropr
        split at h
        · rename_i hc
          split at h
          · rename_i d rest2 hdrop1
            split at h
            · rename_i hd
              rw [Option.some.injEq, Prod.mk.injEq] at h
              obtain ⟨hg, hr⟩ := h
              subst hg; subst hr
              rw [List.append_assoc, List.append_assoc, List.cons_append,
                List.append_assoc, List.cons_append, iterCons_pre]
              rw [← hdrop1, takeW_append_dropW, ← hdropr, takeW_append_dropW]
              exact List.take_append_drop k t
            · exact absurd h (by simp)
          · exact absurd h (by simp)
        · exact absurd h (by simp)
      · exact absurd h (by simp)
  ne_nil := by
    intro t g r h
    unfold inlineM at h
    split at h
    · exact absurd h (by simp)
    · rename_i k hk
      split at h
      · rename_i c rest1 hdropr
        split at h
        · split at h
          · rename_i d rest2 hdrop1
            split at h
            · rw [Option.some.injEq, Prod.mk.injEq] at h
              rw [← h.1]
              obtain ⟨c0, cs0, ht, hws⟩ := ansKwLen_head t k hk
              obtain ⟨-, hk1⟩ := ansKwLen_le t k hk
              subst ht
              cases k with
              | zero => omega
              | succ k => simp
            · exact absurd h (by simp)
          · exact absurd h (by simp)
        · exact absurd h (by simp)
      · exact absurd h (by simp)
  hd_not_ws := by
    intro t g r c cs h hg
    unfold inlineM at h
    split at h
    · exact absurd h (by simp)
    · rename_i k hk
      split at h
      · rename_i c1 rest1 hdropr
        split at h
        · split at h
          · rename_i d rest2 hdrop1
            split at h
            · rw [Option.some.injEq, Prod.mk.injEq] at h
              obtain ⟨c0, cs0, ht, hws⟩ := ansKwLen_head t k hk
              obtain ⟨-, hk1⟩ := ansKwLen_le t k hk
              rw [← h.1] at hg
              subst ht
              cases k with
              | zero => omega
              | succ k =>
                simp only [List.take_succ_cons, List.cons_append,
                  List.cons.injEq] at hg
                rw [← hg.1]
                exact hws
            · exact absurd h (by simp)
          · exact absurd h (by simp)
        · exact absurd h (by simp)
      · exact absurd h (by simp)

/-- Pass 1: `t.replace(/([^\n])\s*([A-D][\.\)．]\s*)/g, '$1\n$2')`. -/
def breakOpts : List Char → List Char := scanBrk optBrk

/-- Pass 2: `t.replace(/\n{3,}/g, '\n\n')`. -/
def collapseNl : List Char → List Char
  | [] => []
  | c :: rest =>
    if c = '\n' then
      (if 2 ≤ (rest.takeWhile (fun d => d = '\n')).length then ['\n', '\n']
       else c :: rest.takeWhile (fun d => d = '\n')) ++
      collapseNl (rest.dropWhile (fun d => d = '\n'))
    else c :: collapseNl rest
termination_by l => l.length
decreasing_by
  · have := length_dropWhile_le (fun d => d = '\n') rest
    simp only [List.length_cons]
    omega
  · simp only [List.length_cons]; omega

/-- Pass 3:
`t.replace(/([^\n])\s*((?:정답|답|Answer)\s*[:：]\s*[A-D](?:\s*[,/]\s*[A-D])*)/gi, '$1\n$2')`. -/
def breakInline : List Char → List Char := scanBrk inlineBrk

/-- `normalizeMcqText`: strip `\r`, replace NBSP by space, then the three
rewrite passes in order. -/
def normalizeMcqText (s : String) : String :=
  (breakInline (collapseNl (breakOpts (cleanupText s.data)))).asString

/-! ### Generic facts about the rewrite scan -/

theorem scanBrk_nil (b : Brk) : scanBrk b [] = [] := by
  unfold scanBrk
  rfl

theorem scanBrk_cons_nl (b : Brk) (rest : List Char) :
    scanBrk b ('\n' :: rest) = '\n' :: scanBrk b rest := by
  conv_lhs => rw [scanBrk]
  rw [if_pos rfl]

theorem scanBrk_cons_match (b : Brk) (c : Char) (rest g r : List Char)
    (hc : ¬ c = '\n') (h : b.m (dropW rest) = some (g, r)) :
    scanBrk b (c :: rest) = c :: '\n' :: (g ++ scanBrk b r) := by
  conv_lhs => rw [scanBrk]
  rw [if_neg hc]
  split
  · rename_i g2 r2 h2
    rw [h] at h2
    rw [Option.some.injEq, Prod.mk.injEq] at h2
    rw [h2.1, h2.2]
  · rename_i h2
    rw [h] at h2
    exact Option.noConfusion h2

theorem scanBrk_cons_none (b : Brk) (c : Char) (rest : List Char)
    (hc : ¬ c = '\n') (h : b.m (dropW rest) = none) :
    scanBrk b (c :: rest) = c :: scanBrk b rest := by
  conv_lhs => rw [scanBrk]
  rw [if_neg hc]
  split
  · rename_i g2 r2 h2
    rw [h] at h2
    exact Option.noConfusion h2
  · rfl

/-- The scan never changes the first character. -/
theorem scanBrk_head (b : Brk) (l : List Char) :
    (scanBrk b l).head? = l.head? := by
  induction l using scanBrk.induct b with
  | case1 => rw [scanBrk_nil]
  | case2 rest ih => rw [scanBrk_cons_nl]; rfl
  | case3 c rest hc g r hm ih =>
    rw [scanBrk_cons_match b c rest g r hc hm]
    rfl
  | case4 c rest hc hm ih =>
    rw [scanBrk_cons_none b c rest hc hm]
    rfl

/-- The scan only deletes whitespace and inserts newlines: the non-blank
subsequence is invariant. -/
theorem nonWs_scanBrk (b : Brk) (l : List Char) :
    nonWs (scanBrk b l) = nonWs l := by
  induction l using scanBrk.induct b with
  | case1 => rw [scanBrk_nil]
  | case2 rest ih =>
    rw [scanBrk_cons_nl, nonWs_cons_ws _ _ (by decide),
      nonWs_cons_ws _ _ (by decide), ih]
  | case3 c rest hc g r hm ih =>
    rw [scanBrk_cons_match b c rest g r hc hm]
    have hpre := b.pre_eq _ _ _ hm
    have hrest : rest = takeW rest ++ (g ++ r) := by
      rw [hpre, takeW_append_dropW]
    have hr2 : nonWs rest = nonWs g ++ nonWs r := by
      conv_lhs => rw [hrest]
      rw [nonWs_append, nonWs_all_ws _ (takeW_all_ws rest), List.nil_append,
        nonWs_append]
    by_cases hcw : isJsWs c
    · rw [nonWs_cons_ws _ _ hcw, nonWs_cons_ws _ _ (by decide), nonWs_append,
        ih, nonWs_cons_ws _ _ hcw, hr2]
    · have hcw2 : isJsWs c = false := by simpa using hcw
      rw [nonWs_cons_not_ws _ _ hcw2, nonWs_cons_ws _ _ (by decide),
        nonWs_append, ih, nonWs_cons_not_ws _ _ hcw2, hr2]
  | case4 c rest hc hm ih =>
    rw [scanBrk_cons_none b c rest hc hm]
    by_cases hcw : isJsWs c
    · rw [nonWs_cons_ws _ _ hcw, nonWs_cons_ws _ _ hcw, ih]
    · rw [nonWs_cons_not_ws _ _ (by simpa using hcw),
        nonWs_cons_not_ws _ _ (by simpa using hcw), ih]

/-- A newline-free prefix of the scan's output is a verbatim prefix of the
input (every rewrite の site emits a newline). -/
theorem take_scanBrk (b : Brk) (l : List Char) : ∀ k : Nat,
    ((scanBrk b l).take k).all (fun d => !(d = '\n')) = true →
    (scanBrk b l).take k = l.take k := by
  induction l using scanBrk.induct b with
  | case1 => intro k hk; rw [scanBrk_nil]
  | case2 rest ih =>
    intro k hk
    rw [scanBrk_cons_nl] at hk ⊢
    cases k with
    | zero => rfl
    | succ k => simp at hk
  | case3 c rest hc g r hm ih =>
    intro k hk
    rw [scanBrk_cons_match b c rest g r hc hm] at hk ⊢
    cases k with
    | zero => rfl
    | succ k =>
      cases k with
      | zero => rfl
      | succ k => simp at hk
  | case4 c rest hc hm ih =>
    intro k hk
    rw [scanBrk_cons_none b c rest hc hm] at hk ⊢
    cases k with
    | zero => rfl
    | succ k =>
      simp only [List.take_succ_cons, List.all_cons, Bool.and_eq_true] at hk
      rw [List.take_succ_cons, List.take_succ_cons, ih k hk.2]

/-- On input whose whitespace prefix is followed by no match, the scan
copies the prefix. -/
theorem scanBrk_ws_pre (b : Brk) (v : List Char)
    (h : b.m (dropW v) = none) :
    scanBrk b v = takeW v ++ scanBrk b (dropW v) := by
  induction v with
  | nil =>
    simp only [takeW, dropW, List.takeWhile_nil, List.dropWhile_nil,
      scanBrk_nil, List.nil_append]
  | cons c rest ih =>
    by_cases hcw : isJsWs c
    · rw [takeW_ws _ _ hcw, dropW_ws _ _ hcw] at *
      by_cases hcn : c = '\n'
      · subst hcn
        rw [scanBrk_cons_nl, ih h, List.cons_append]
      · rw [scanBrk_cons_none b c rest hcn (by
          rw [← dropW_ws c rest hcw] at h
          rwa [dropW, List.dropWhile_cons, if_pos hcw] at h), ih h,
          List.cons_append]
    · have hcw' : isJsWs c = false := by simpa using hcw
      rw [takeW_not_ws _ _ hcw', dropW_not_ws _ _ hcw', List.nil_append]

theorem Brk.g_cons (b : Brk) {t g r : List Char} (h : b.m t = some (g, r)) :
    ∃ c0 cs0, g = c0 :: cs0 ∧ isJsWs c0 = false := by
  cases g with
  | nil => exact absurd rfl (b.ne_nil t [] r h)
  | cons c0 cs0 => exact ⟨c0, cs0, rfl, b.hd_not_ws t _ r c0 cs0 h rfl⟩

theorem dropW_g_append (b : Brk) {t g r : List Char}
    (h : b.m t = some (g, r)) (u : List Char) : dropW (g ++ u) = g ++ u := by
  obtain ⟨c0, cs0, hg, hws⟩ := b.g_cons h
  rw [hg, List.cons_append, dropW_not_ws _ _ hws]

/-- Matcher re-stability: a matched group still matches, with the same
split, when the remainder is replaced by any text with the same head and
the same non-blank subsequence. -/
def BrkStable (b : Brk) : Prop :=
  ∀ t g r u, b.m t = some (g, r) → u.head? = r.head? → nonWs u = nonWs r →
    b.m (g ++ u) = some (g, u)

/-- Fail stability at a rewritten match site. -/
def BrkFail1 (b : Brk) : Prop :=
  ∀ c rest g r u, ¬ c = '\n' → b.m (c :: rest) = none →
    b.m (dropW rest) = some (g, r) → u.head? = r.head? → nonWs u = nonWs r →
    b.m (c :: '\n' :: (g ++ u)) = none

/-- Fail stability at a copied position. -/
def BrkFail2 (b : Brk) : Prop :=
  ∀ c rest u, ¬ c = '\n' → b.m (c :: rest) = none →
    u.head? = rest.head? → nonWs u = nonWs rest →
    (∀ k : Nat, ((u.take k).all (fun d => !(d = '\n'))) = true →
      u.take k = rest.take k) →
    b.m (c :: u) = none

/-- If the matcher fails after the whitespace prefix of the input, it also
fails after the whitespace prefix of the scanned output. -/
theorem scanFailPres (b : Brk) (h1 : BrkFail1 b) (h2 : BrkFail2 b) :
    ∀ v, b.m (dropW v) = none → b.m (dropW (scanBrk b v)) = none := by
  intro v
  induction v using scanBrk.induct b with
  | case1 => intro h; rw [scanBrk_nil]; exact h
  | case2 rest ih =>
    intro h
    rw [dropW_nl] at h
    rw [scanBrk_cons_nl, dropW_nl]
    exact ih h
  | case3 c rest hc g r hm ih =>
    intro h
    by_cases hcw : isJsWs c
    · rw [dropW_ws _ _ hcw] at h
      rw [h] at hm
      exact Option.noConfusion hm
    · have hcw2 : isJsWs c = false := by simpa using hcw
      rw [dropW_not_ws _ _ hcw2] at h
      rw [scanBrk_cons_match b c rest g r hc hm, dropW_not_ws _ _ hcw2]
      exact h1 c rest g r (scanBrk b r) hc h hm (by rw [scanBrk_head])
        (nonWs_scanBrk b r)
  | case4 c rest hc hm ih =>
    intro h
    by_cases hcw : isJsWs c
    · rw [dropW_ws _ _ hcw] at h
      rw [scanBrk_cons_none b c rest hc hm, dropW_ws _ _ hcw]
      exact ih h
    · have hcw2 : isJsWs c = false := by simpa using hcw
      rw [dropW_not_ws _ _ hcw2] at h
      rw [scanBrk_cons_none b c rest hc hm, dropW_not_ws _ _ hcw2]
      exact h2 c rest (scanBrk b rest) hc h (by rw [scanBrk_head])
        (nonWs_scanBrk b rest) (take_scanBrk b rest)

/-- A rewrite pass with a stable matcher is idempotent. -/
theorem scanBrk_idem (b : Brk) (hs : BrkStable b) (h1 : BrkFail1 b)
    (h2 : BrkFail2 b) : ∀ x, scanBrk b (scanBrk b x) = scanBrk b x := by
  intro x
  induction x using scanBrk.induct b with
  | case1 => rw [scanBrk_nil, scanBrk_nil]
  | case2 rest ih => rw [scanBrk_cons_nl, scanBrk_cons_nl, ih]
  | case3 c rest hc g r hm ih =>
    rw [scanBrk_cons_match b c rest g r hc hm]
    have hre : b.m (dropW ('\n' :: (g ++ scanBrk b r))) =
        some (g, scanBrk b r) := by
      rw [dropW_nl, dropW_g_append b hm]
      exact hs _ g r (scanBrk b r) hm (by rw [scanBrk_head])
        (nonWs_scanBrk b r)
    rw [scanBrk_cons_match b c _ g (scanBrk b r) hc hre, ih]
  | case4 c rest hc hm ih =>
    rw [scanBrk_cons_none b c rest hc hm]
    rw [scanBrk_cons_none b c (scanBrk b rest) hc
      (scanFailPres b h1 h2 rest hm), ih]

/-! ### Stability of the pass-1 matcher -/

theorem optSep_not_ws (c : Char) (h : optSep c = true) : isJsWs c = false := by
  simp only [optSep, Bool.or_eq_true, decide_eq_true_eq] at h
  rcases h with (h | h) | h <;> subst h <;> decide

theorem ansLetter_not_ws (c : Char) (h : ansLetter c = true) :
    isJsWs c = false := by
  simp only [ansLetter, optLetter, Bool.or_eq_true, decide_eq_true_eq] at h
  rcases h with (((((((h | h) | h) | h) | h) | h) | h) | h) <;>
    subst h <;> decide

theorem takeW_ws_append (x y : List Char) :
    takeW (takeW x ++ y) = takeW x ++ takeW y :=
  List.takeWhile_append_of_pos (takeW_all_ws x)

theorem dropW_ws_append (x y : List Char) : dropW (takeW x ++ y) = dropW y :=
  List.dropWhile_append_of_pos (takeW_all_ws x)

/-- If a list has the same head as a whitespace-stripped list, its own
whitespace prefix is empty. -/
theorem head_dropW_no_ws (r' u : List Char) (h : u.head? = (dropW r').head?) :
    takeW u = [] ∧ dropW u = u := by
  cases u with
  | nil => exact ⟨rfl, rfl⟩
  | cons c0 u2 =>
    have h2 : (dropW r').head? = some c0 := by rw [← h]; rfl
    cases hdr : dropW r' with
    | nil => rw [hdr] at h2; exact Option.noConfusion h2
    | cons d tail =>
      rw [hdr] at h2
      have hd : d = c0 := by
        have := h2
        simp only [List.head?_cons, Option.some.injEq] at this
        exact this
      have hws := dropW_head_not_ws r' d tail hdr
      rw [hd] at hws
      exact ⟨takeW_not_ws _ _ hws, dropW_not_ws _ _ hws⟩


theorem optBrk_stable : BrkStable optBrk := by
  intro t g r u hm hhead hnw
  have hm2 : optM t = some (g, r) := hm
  show optM (g ++ u) = some (g, u)
  unfold optM at hm2
  split at hm2
  · rename_i l s r'
    split at hm2
    · rename_i hls
      rw [Option.some.injEq, Prod.mk.injEq] at hm2
      obtain ⟨hg, hr⟩ := hm2
      obtain ⟨ht, hd⟩ := head_dropW_no_ws r' u (by rw [hhead, ← hr])
      rw [← hg]
      show optM (l :: s :: (takeW r' ++ u)) = some (l :: s :: takeW r', u)
      simp only [optM]
      rw [if_pos hls, takeW_ws_append, ht, List.append_nil, dropW_ws_append,
        hd]
    · exact Option.noConfusion hm2
  · exact Option.noConfusion hm2

theorem optBrk_fail1 : BrkFail1 optBrk := by
  intro c rest g r u hc hnone hm hhead hnw
  show optM (c :: '\n' :: (g ++ u)) = none
  simp only [optM]
  have h0 : optSep '\n' = false := by decide
  rw [h0, Bool.and_false]
  simp

theorem optBrk_fail2 : BrkFail2 optBrk := by
  intro c rest u hc hnone0 hhead hnw htake
  have hnone : optM (c :: rest) = none := hnone0
  show optM (c :: u) = none
  cases u with
  | nil => rfl
  | cons s u2 =>
    have hrest : ∃ rest2, rest = s :: rest2 := by
      cases rest with
      | nil => exact Option.noConfusion hhead
      | cons s2 rest2 =>
        refine ⟨rest2, ?_⟩
        simp only [List.head?_cons, Option.some.injEq] at hhead
        rw [hhead]
    obtain ⟨rest2, hrest2⟩ := hrest
    rw [hrest2] at hnone
    simp only [optM] at hnone ⊢
    split at hnone
    · exact Option.noConfusion hnone
    · rename_i hbad
      rw [if_neg hbad]

/-! ### Stability of the pass-3 matcher -/

/-- Separators of the iteration `[,/]`. -/
def sepCh (c : Char) : Bool := c = ',' || c = '/'

/-- The mandatory colon class `[:：]`. -/
def colonCh (c : Char) : Bool := c = ':' || c = '：'

theorem sepCh_not_ws (c : Char) (h : (c = ',' || c = '/') = true) :
    isJsWs c = false := by
  simp only [Bool.or_eq_true, decide_eq_true_eq] at h
  rcases h with h | h <;> subst h <;> decide

theorem colonCh_not_ws (c : Char) (h : (c = ':' || c = '：') = true) :
    isJsWs c = false := by
  simp only [Bool.or_eq_true, decide_eq_true_eq] at h
  rcases h with h | h <;> subst h <;> decide

/-- Whether the first two non-whitespace characters exist and satisfy `p`
resp. `q` (the lookahead pattern `\s*P\s*Q`). -/
def peek2 (p q : Char → Bool) (v : List Char) : Bool :=
  match nonWs v with
  | c :: d :: _ => p c && q d
  | _ => false

theorem peek2_congr (p q : Char → Bool) {u v : List Char}
    (h : nonWs u = nonWs v) : peek2 p q u = peek2 p q v := by
  unfold peek2; rw [h]

theorem dropW_head_eq (v : List Char) :
    (dropW v).head? = (nonWs v).head? := by
  induction v with
  | nil => rfl
  | cons c rest ih =>
    by_cases hcw : isJsWs c
    · rw [dropW_ws _ _ hcw, nonWs_cons_ws _ _ hcw]; exact ih
    · have h2 : isJsWs c = false := by simpa using hcw
      rw [dropW_not_ws _ _ h2, nonWs_cons_not_ws _ _ h2]
      rfl

theorem nonWs_of_dropW_cons {v : List Char} {c : Char} {rest1 : List Char}
    (h : dropW v = c :: rest1) : nonWs v = c :: nonWs rest1 := by
  rw [← nonWs_dropW v, h,
    nonWs_cons_not_ws _ _ (dropW_head_not_ws v c rest1 h)]

/-- Without the two-character lookahead, the iteration consumes nothing. -/
theorem iterCons_no_peek (u : List Char)
    (h : peek2 sepCh ansLetter u = false) :
    ∀ fuel, iterCons fuel u = ([], u) := by
  intro fuel
  cases fuel with
  | zero => rfl
  | succ f =>
    unfold iterCons
    cases hdu : dropW u with
    | nil => rfl
    | cons c rest1 =>
      dsimp only
      have hn1 := nonWs_of_dropW_cons hdu
      by_cases hc : (c = ',' || c = '/') = true
      · rw [if_pos hc]
        cases hd1 : dropW rest1 with
        | nil => rfl
        | cons d rest2 =>
          dsimp only
          have hn2 := nonWs_of_dropW_cons hd1
          have hd : ansLetter d = false := by
            by_contra hdt
            rw [Bool.not_eq_false] at hdt
            have hp : peek2 sepCh ansLetter u = true := by
              unfold peek2
              rw [hn1, hn2]
              show (sepCh c && ansLetter d) = true
              rw [hdt, Bool.and_true]
              exact hc
            rw [hp] at h
            exact Bool.noConfusion h
          rw [hd]
          simp
      · rw [if_neg hc]

/-- The remainder left by the iteration never admits another iteration. -/
theorem iterCons_tail_no_peek : ∀ (fuel : Nat) (r m rf : List Char),
    r.length ≤ fuel → iterCons fuel r = (m, rf) →
    peek2 sepCh ansLetter rf = false := by
  intro fuel
  induction fuel with
  | zero =>
    intro r m rf hlen hit
    have hr : r = [] := List.length_eq_zero.mp (Nat.le_zero.mp hlen)
    subst hr
    have h2 : (([] : List Char), ([] : List Char)) = (m, rf) := hit
    rw [Prod.mk.injEq] at h2
    rw [← h2.2]
    rfl
  | succ f ih =>
    intro r m rf hlen hit
    unfold iterCons at hit
    cases hdu : dropW r with
    | nil =>
      rw [hdu] at hit
      dsimp only at hit
      rw [Prod.mk.injEq] at hit
      rw [← hit.2]
      unfold peek2
      rw [show nonWs r = [] from by rw [← nonWs_dropW r, hdu]; rfl]
    | cons c rest1 =>
      rw [hdu] at hit
      dsimp only at hit
      by_cases hc : (c = ',' || c = '/') = true
      · rw [if_pos hc] at hit
        cases hd1 : dropW rest1 with
        | nil =>
          rw [hd1] at hit
          dsimp only at hit
          rw [Prod.mk.injEq] at hit
          rw [← hit.2]
          unfold peek2
          rw [nonWs_of_dropW_cons hdu,
            show nonWs rest1 = [] from by rw [← nonWs_dropW rest1, hd1]; rfl]
        | cons d rest2 =>
          rw [hd1] at hit
          dsimp only at hit
          by_cases hd : ansLetter d = true
          · rw [if_pos hd] at hit
            rw [Prod.mk.injEq] at hit
            rw [← hit.2]
            have l1 : (dropW r).length ≤ r.length := length_dropWhile_le _ _
            have l2 : (dropW rest1).length ≤ rest1.length :=
              length_dropWhile_le _ _
            rw [hdu] at l1
            rw [hd1] at l2
            simp only [List.length_cons] at l1 l2
            exact ih rest2 _ _ (by omega) rfl
          · rw [if_neg hd] at hit
            rw [Prod.mk.injEq] at hit
            rw [← hit.2]
            unfold peek2
            rw [nonWs_of_dropW_cons hdu,
              show nonWs rest1 = d :: nonWs rest2 from nonWs_of_dropW_cons hd1]
            show (sepCh c && ansLetter d) = false
            rw [Bool.not_eq_true] at hd
            rw [hd, Bool.and_false]
      · rw [if_neg hc] at hit
        rw [Prod.mk.injEq] at hit
        rw [← hit.2]
        unfold peek2
        rw [nonWs_of_dropW_cons hdu]
        cases hnr : nonWs rest1 with
        | nil => rfl
        | cons d t =>
          show (sepCh c && ansLetter d) = false
          rw [Bool.not_eq_true] at hc
          rw [show sepCh c = false from hc, Bool.false_and]

/-- Replaying the iteration on its own consumed text followed by a
non-matching tail consumes exactly the same text. -/
theorem iterCons_append : ∀ (fuel1 : Nat) (r m rf u : List Char)
    (fuel2 : Nat), r.length ≤ fuel1 → iterCons fuel1 r = (m, rf) →
    (m ++ u).length ≤ fuel2 → peek2 sepCh ansLetter u = false →
    iterCons fuel2 (m ++ u) = (m, u) := by
  intro fuel1
  induction fuel1 with
  | zero =>
    intro r m rf u fuel2 hlen hit hlen2 hpu
    have hr : r = [] := List.length_eq_zero.mp (Nat.le_zero.mp hlen)
    subst hr
    have h2 : (([] : List Char), ([] : List Char)) = (m, rf) := hit
    rw [Prod.mk.injEq] at h2
    rw [← h2.1, List.nil_append]
    exact iterCons_no_peek u hpu fuel2
  | succ f ih =>
    intro r m rf u fuel2 hlen hit hlen2 hpu
    unfold iterCons at hit
    cases hdu : dropW r with
    | nil =>
      rw [hdu] at hit
      dsimp only at hit
      rw [Prod.mk.injEq] at hit
      rw [← hit.1, List.nil_append]
      exact iterCons_no_peek u hpu fuel2
    | cons c rest1 =>
      rw [hdu] at hit
      dsimp only at hit
      by_cases hc : (c = ',' || c = '/') = true
      · rw [if_pos hc] at hit
        cases hd1 : dropW rest1 with
        | nil =>
          rw [hd1] at hit
          dsimp only at hit
          rw [Prod.mk.injEq] at hit
          rw [← hit.1, List.nil_append]
          exact iterCons_no_peek u hpu fuel2
        | cons d rest2 =>
          rw [hd1] at hit
          dsimp only at hit
          by_cases hd : ansLetter d = true
          · rw [if_pos hd] at hit
            rw [Prod.mk.injEq] at hit
            obtain ⟨hm, hrf⟩ := hit
            have hcw : isJsWs c = false := sepCh_not_ws c hc
            have hdw : isJsWs d = false := ansLetter_not_ws d hd
            have l1 : (dropW r).length ≤ r.length := length_dropWhile_le _ _
            have l2 : (dropW rest1).length ≤ rest1.length :=
              length_dropWhile_le _ _
            rw [hdu] at l1
            rw [hd1] at l2
            simp only [List.length_cons] at l1 l2
            have l3 : (iterCons f rest2).1.length ≤ rest2.length := by
              have hp := congrArg List.length (iterCons_pre f rest2)
              rw [List.length_append] at hp
              omega
            have hmeq : m.length = (takeW r).length + (takeW rest1).length +
                (iterCons f rest2).1.length + 2 := by
              rw [← hm]
              simp [List.length_append, List.length_cons]
              omega
            cases fuel2 with
            | zero =>
              exfalso
              rw [List.length_append] at hlen2
              omega
            | succ f2 =>
              have hih : iterCons f2 ((iterCons f rest2).1 ++ u) =
                  ((iterCons f rest2).1, u) := by
                refine ih rest2 (iterCons f rest2).1 (iterCons f rest2).2 u
                  f2 (by omega) rfl ?_ hpu
                rw [List.length_append] at hlen2 ⊢
                omega
              have hv : m ++ u = takeW r ++ (c :: (takeW rest1 ++
                  (d :: ((iterCons f rest2).1 ++ u)))) := by
                rw [← hm]
                simp [List.append_assoc, List.cons_append]
              rw [hv]
              unfold iterCons
              rw [dropW_ws_append, dropW_not_ws _ _ hcw]
              dsimp only
              rw [if_pos hc]
              rw [dropW_ws_append, dropW_not_ws _ _ hdw]
              dsimp only
              rw [if_pos hd]
              rw [hih]
              dsimp only
              rw [takeW_ws_append, takeW_not_ws _ _ hcw, List.append_nil,
                takeW_ws_append, takeW_not_ws _ _ hdw, List.append_nil]
              rw [hm]
          · rw [if_neg hd] at hit
            rw [Prod.mk.injEq] at hit
            rw [← hit.1, List.nil_append]
            exact iterCons_no_peek u hpu fuel2
      · rw [if_neg hc] at hit
        rw [Prod.mk.injEq] at hit
        rw [← hit.1, List.nil_append]
        exact iterCons_no_peek u hpu fuel2

theorem ansKwLen_jeongdap (X : List Char) :
    ansKwLen ('정' :: '답' :: X) = some 2 := by
  unfold ansKwLen
  split
  · rfl
  · rename_i heq
    simp at heq
  · rename_i g1 g2 heq
    rw [List.cons.injEq, List.cons.injEq] at heq
    exfalso
    exact g1 heq.1.symm heq.2.1.symm
  · rename_i x g1 g2 g3
    exact absurd rfl (g1 X)

theorem ansKwLen_dap (X : List Char) : ansKwLen ('답' :: X) = some 1 := by
  unfold ansKwLen
  split
  · rename_i heq
    simp at heq
  · rfl
  · rename_i g1 g2 heq
    rw [List.cons.injEq] at heq
    exact absurd heq.1.symm g2
  · rename_i x g1 g2 g3
    exact absurd rfl (g2 X)

theorem ansKwLen_six (c1 c2 c3 c4 c5 c6 : Char) (X : List Char)
    (h : ((c1 = 'A' || c1 = 'a') && (c2 = 'n' || c2 = 'N') &&
       (c3 = 's' || c3 = 'S') && (c4 = 'w' || c4 = 'W') &&
       (c5 = 'e' || c5 = 'E') && (c6 = 'r' || c6 = 'R')) = true) :
    ansKwLen (c1 :: c2 :: c3 :: c4 :: c5 :: c6 :: X) = some 6 := by
  have h1 : (c1 = 'A' || c1 = 'a') = true := by
    simp only [Bool.and_eq_true] at h
    exact h.1.1.1.1.1
  unfold ansKwLen
  split
  · rename_i heq
    rw [List.cons.injEq] at heq
    exfalso
    rw [heq.1] at h1
    simp at h1
  · rename_i heq
    rw [List.cons.injEq] at heq
    exfalso
    rw [heq.1] at h1
    simp at h1
  · rename_i g1 g2 heq
    rw [List.cons.injEq, List.cons.injEq, List.cons.injEq, List.cons.injEq,
      List.cons.injEq, List.cons.injEq] at heq
    obtain ⟨e1, e2, e3, e4, e5, e6, e7⟩ := heq
    subst e1
    subst e2
    subst e3
    subst e4
    subst e5
    subst e6
    rw [if_pos h]
  · rename_i x g1 g2 g3
    exact absurd rfl (g3 c1 c2 c3 c4 c5 c6 X)

/-- A recognised keyword stays recognised when the input beyond the keyword
is replaced arbitrarily. -/
theorem ansKwLen_take_append (t : List Char) (k : Nat) (X : List Char)
    (h : ansKwLen t = some k) : ansKwLen (t.take k ++ X) = some k := by
  unfold ansKwLen at h
  split at h
  · rw [Option.some.injEq] at h
    subst h
    exact ansKwLen_jeongdap X
  · rw [Option.some.injEq] at h
    subst h
    exact ansKwLen_dap X
  · rename_i c1 c2 c3 c4 c5 c6 tail g1 g2
    split at h
    · rename_i hcond
      rw [Option.some.injEq] at h
      subst h
      exact ansKwLen_six c1 c2 c3 c4 c5 c6 X hcond
    · exact Option.noConfusion h
  · exact Option.noConfusion h

/-- A recognised keyword starts with one of the four keyword-opening
characters. -/
theorem ansKwLen_head_cls (t : List Char) (k : Nat)
    (h : ansKwLen t = some k) :
    ∃ c0 cs, t = c0 :: cs ∧
      (c0 = '정' ∨ c0 = '답' ∨ c0 = 'A' ∨ c0 = 'a') := by
  unfold ansKwLen at h
  split at h
  · exact ⟨'정', _, rfl, Or.inl rfl⟩
  · exact ⟨'답', _, rfl, Or.inr (Or.inl rfl)⟩
  · rename_i c1 c2 c3 c4 c5 c6 tail g1 g2
    split at h
    · rename_i hcond
      refine ⟨c1, _, rfl, ?_⟩
      simp only [Bool.and_eq_true, Bool.or_eq_true, decide_eq_true_eq]
        at hcond
      rcases hcond.1.1.1.1.1 with h1 | h1
      · exact Or.inr (Or.inr (Or.inl h1))
      · exact Or.inr (Or.inr (Or.inr h1))
    · exact Option.noConfusion h
  · exact Option.noConfusion h

/-- A keyword cannot straddle an inserted newline: on `c :: '\n' :: Z` only
the single-character keyword `답` can match. -/
theorem ansKwLen_nl (c : Char) (Z : List Char) (k : Nat)
    (h : ansKwLen (c :: '\n' :: Z) = some k) : c = '답' ∧ k = 1 := by
  unfold ansKwLen at h
  split at h
  · rename_i heq
    simp at heq
  · rename_i heq
    rw [List.cons.injEq] at heq
    rw [Option.some.injEq] at h
    exact ⟨heq.1, h.symm⟩
  · rename_i g1 g2 heq
    split at h
    · rename_i hcond
      rw [List.cons.injEq, List.cons.injEq] at heq
      obtain ⟨e1, e2, -⟩ := heq
      exfalso
      rw [← e2] at hcond
      simp at hcond
    · exact Option.noConfusion h
  · exact Option.noConfusion h

/-- Keyword recognition transfers along a tail with equal head, equal
non-whitespace content and equal newline-free prefixes, together with the
prefix below the keyword. -/
theorem ansKwLen_transfer (c : Char) (u rest : List Char) (k : Nat)
    (h : ansKwLen (c :: u) = some k)
    (hhead : u.head? = rest.head?)
    (htake : ∀ j : Nat, ((u.take j).all (fun d => !(d = '\n'))) = true →
      u.take j = rest.take j) :
    ansKwLen (c :: rest) = some k ∧ u.take (k - 1) = rest.take (k - 1) := by
  unfold ansKwLen at h
  split at h
  · rename_i heq
    rw [Option.some.injEq] at h
    subst h
    rw [List.cons.injEq] at heq
    obtain ⟨hc, hu⟩ := heq
    subst hc
    have hr : rest.head? = some '답' := by rw [← hhead, hu]; rfl
    cases rest with
    | nil => exact Option.noConfusion hr
    | cons r0 rtail =>
      rw [List.head?_cons, Option.some.injEq] at hr
      subst hr
      refine ⟨ansKwLen_jeongdap rtail, ?_⟩
      rw [hu]
      rfl
  · rename_i heq
    rw [Option.some.injEq] at h
    subst h
    rw [List.cons.injEq] at heq
    obtain ⟨hc, -⟩ := heq
    subst hc
    exact ⟨ansKwLen_dap rest, rfl⟩
  · rename_i c1 c2 c3 c4 c5 c6 tail g1 g2 heq
    split at h
    · rename_i hcond
      rw [Option.some.injEq] at h
      subst h
      rw [List.cons.injEq] at heq
      obtain ⟨hc, hu⟩ := heq
      subst hc
      have hcnd := hcond
      simp only [Bool.and_eq_true, Bool.or_eq_true, decide_eq_true_eq]
        at hcnd
      obtain ⟨⟨⟨⟨⟨h1, h2⟩, h3⟩, h4⟩, h5⟩, h6⟩ := hcnd
      have n2 : (decide (c2 = '\n')) = false :=
        decide_eq_false (by rcases h2 with h' | h' <;> subst h' <;> decide)
      have n3 : (decide (c3 = '\n')) = false :=
        decide_eq_false (by rcases h3 with h' | h' <;> subst h' <;> decide)
      have n4 : (decide (c4 = '\n')) = false :=
        decide_eq_false (by rcases h4 with h' | h' <;> subst h' <;> decide)
      have n5 : (decide (c5 = '\n')) = false :=
        decide_eq_false (by rcases h5 with h' | h' <;> subst h' <;> decide)
      have n6 : (decide (c6 = '\n')) = false :=
        decide_eq_false (by rcases h6 with h' | h' <;> subst h' <;> decide)
      have hall : ((u.take 5).all (fun d => !(d = '\n'))) = true := by
        rw [hu]
        show ((c2 :: c3 :: c4 :: c5 :: c6 :: ([] : List Char)).all
          (fun d => !(d = '\n'))) = true
        simp only [List.all_cons, List.all_nil, Bool.and_true]
        rw [n2, n3, n4, n5, n6]
        rfl
      have ht5 := htake 5 hall
      have hu5 : u.take 5 = c2 :: c3 :: c4 :: c5 :: c6 :: [] := by
        rw [hu]
        rfl
      rw [hu5] at ht5
      have hrest : rest = c2 :: c3 :: c4 :: c5 :: c6 :: rest.drop 5 := by
        conv_lhs => rw [← List.take_append_drop 5 rest]
        rw [← ht5]
        rfl
      constructor
      · rw [hrest]
        exact ansKwLen_six c c2 c3 c4 c5 c6 (rest.drop 5) hcond
      · rw [hu5, ← ht5]
    · exact Option.noConfusion h
  · exact Option.noConfusion h

/-- Equal prefixes and equal non-whitespace content give equal
non-whitespace content of the suffixes. -/
theorem nonWs_drop_transfer (u rest : List Char) (j : Nat)
    (hnw : nonWs u = nonWs rest) (ht : u.take j = rest.take j) :
    nonWs (u.drop j) = nonWs (rest.drop j) := by
  have h1 : nonWs (u.take j) ++ nonWs (u.drop j) =
      nonWs (rest.take j) ++ nonWs (rest.drop j) := by
    rw [← nonWs_append, ← nonWs_append, List.take_append_drop,
      List.take_append_drop]
    exact hnw
  rw [ht] at h1
  exact List.append_cancel_left h1

theorem peek2_of_dropW_nil (p q : Char → Bool) (v : List Char)
    (h : dropW v = []) : peek2 p q v = false := by
  unfold peek2
  rw [show nonWs v = [] from by rw [← nonWs_dropW v, h]; rfl]

theorem peek2_of_dropW_one (p q : Char → Bool) (v : List Char) (c : Char)
    (rest1 : List Char) (h : dropW v = c :: rest1) (h2 : dropW rest1 = []) :
    peek2 p q v = false := by
  unfold peek2
  rw [nonWs_of_dropW_cons h,
    show nonWs rest1 = [] from by rw [← nonWs_dropW rest1, h2]; rfl]

theorem peek2_of_dropW_two (p q : Char → Bool) (v : List Char) (c : Char)
    (rest1 : List Char) (d : Char) (rest2 : List Char)
    (h : dropW v = c :: rest1) (h2 : dropW rest1 = d :: rest2) :
    peek2 p q v = (p c && q d) := by
  unfold peek2
  rw [nonWs_of_dropW_cons h,
    show nonWs rest1 = d :: nonWs rest2 from nonWs_of_dropW_cons h2]

/-- The pass-3 matcher fails exactly when no recognised keyword is followed
(after whitespace) by a colon and an option letter. -/
theorem inlineM_none_iff (t : List Char) :
    inlineM t = none ↔ ∀ k, ansKwLen t = some k →
      peek2 colonCh ansLetter (t.drop k) = false := by
  unfold inlineM
  cases hk : ansKwLen t with
  | none =>
    constructor
    · intro h k hk2
      exact Option.noConfusion hk2
    · intro h
      rfl
  | some k =>
    dsimp only
    cases hd : dropW (t.drop k) with
    | nil =>
      dsimp only
      constructor
      · intro h k2 hk2
        rw [Option.some.injEq] at hk2
        subst hk2
        exact peek2_of_dropW_nil _ _ _ hd
      · intro h
        rfl
    | cons c rest1 =>
      dsimp only
      by_cases hc : (c = ':' || c = '：') = true
      · rw [if_pos hc]
        cases hd1 : dropW rest1 with
        | nil =>
          dsimp only
          constructor
          · intro h k2 hk2
            rw [Option.some.injEq] at hk2
            subst hk2
            exact peek2_of_dropW_one _ _ _ _ _ hd hd1
          · intro h
            rfl
        | cons d rest2 =>
          dsimp only
          by_cases hdl : ansLetter d = true
          · rw [if_pos hdl]
            constructor
            · intro h
              exact Option.noConfusion h
            · intro h
              exfalso
              have hp := h k rfl
              rw [peek2_of_dropW_two _ _ _ _ _ _ _ hd hd1] at hp
              have hcc : colonCh c = true := hc
              rw [hcc, hdl] at hp
              exact Bool.noConfusion hp
          · rw [if_neg hdl]
            constructor
            · intro h k2 hk2
              rw [Option.some.injEq] at hk2
              subst hk2
              rw [peek2_of_dropW_two _ _ _ _ _ _ _ hd hd1]
              rw [Bool.not_eq_true] at hdl
              rw [hdl, Bool.and_false]
            · intro h
              rfl
      · rw [if_neg hc]
        constructor
        · intro h k2 hk2
          rw [Option.some.injEq] at hk2
          subst hk2
          cases hd1 : dropW rest1 with
          | nil => exact peek2_of_dropW_one _ _ _ _ _ hd hd1
          | cons d rest2 =>
            rw [peek2_of_dropW_two _ _ _ _ _ _ _ hd hd1]
            rw [Bool.not_eq_true] at hc
            rw [show colonCh c = false from hc, Bool.false_and]
        · intro h
          rfl

/-- The group matched by the pass-3 matcher starts with a keyword-opening
character. -/
theorem inlineM_g_head (t g r : List Char) (h : inlineM t = some (g, r)) :
    ∃ g0 gt, g = g0 :: gt ∧
      (g0 = '정' ∨ g0 = '답' ∨ g0 = 'A' ∨ g0 = 'a') := by
  unfold inlineM at h
  split at h
  · exact Option.noConfusion h
  · rename_i k hk
    split at h
    · rename_i c0 rest1 hd1
      split at h
      · rename_i hcol
        split at h
        · rename_i d rest2 hd2
          split at h
          · rename_i hdl
            rw [Option.some.injEq, Prod.mk.injEq] at h
            obtain ⟨hg, -⟩ := h
            obtain ⟨c0h, cs, ht, hcls⟩ := ansKwLen_head_cls t k hk
            obtain ⟨-, hk1⟩ := ansKwLen_le t k hk
            cases k with
            | zero => omega
            | succ k2 =>
              refine ⟨c0h, cs.take k2 ++ (takeW (t.drop (k2 + 1)) ++ c0 ::
                (takeW rest1 ++ d :: (iterCons rest2.length rest2).1)),
                ?_, hcls⟩
              rw [← hg, ht, List.take_succ_cons, List.cons_append]
          · exact Option.noConfusion h
        · exact Option.noConfusion h
      · exact Option.noConfusion h
    · exact Option.noConfusion h

theorem inlineBrk_fail1 : BrkFail1 inlineBrk := by
  intro c rest g r u hc hnone0 hm0 hhead hnw
  have hm : inlineM (dropW rest) = some (g, r) := hm0
  show inlineM (c :: '\n' :: (g ++ u)) = none
  rw [inlineM_none_iff]
  intro k hk
  obtain ⟨-, hk1⟩ := ansKwLen_nl c (g ++ u) k hk
  subst hk1
  obtain ⟨g0, gt, hg0, hcls⟩ := inlineM_g_head (dropW rest) g r hm
  show peek2 colonCh ansLetter ('\n' :: (g ++ u)) = false
  have hg0w : isJsWs g0 = false := by
    rcases hcls with h' | h' | h' | h' <;> subst h' <;> decide
  unfold peek2
  rw [show nonWs ('\n' :: (g ++ u)) = g0 :: nonWs (gt ++ u) from by
    rw [nonWs_cons_ws _ _ (by decide), hg0, List.cons_append,
      nonWs_cons_not_ws _ _ hg0w]]
  cases hnt : nonWs (gt ++ u) with
  | nil => rfl
  | cons d t2 =>
    show (colonCh g0 && ansLetter d) = false
    have hg0c : colonCh g0 = false := by
      rcases hcls with h' | h' | h' | h' <;> subst h' <;> decide
    rw [hg0c, Bool.false_and]

theorem inlineBrk_fail2 : BrkFail2 inlineBrk := by
  intro c rest u hc hnone0 hhead hnw htake
  have hnone : inlineM (c :: rest) = none := hnone0
  show inlineM (c :: u) = none
  rw [inlineM_none_iff] at hnone ⊢
  intro k hk
  obtain ⟨hk2, htk⟩ := ansKwLen_transfer c u rest k hk hhead htake
  have hp := hnone k hk2
  obtain ⟨hkle, hk1⟩ := ansKwLen_le (c :: u) k hk
  cases k with
  | zero => omega
  | succ k2 =>
    rw [List.drop_succ_cons] at hp ⊢
    have hnwd : nonWs (u.drop k2) = nonWs (rest.drop k2) :=
      nonWs_drop_transfer u rest k2 hnw htk
    exact (peek2_congr colonCh ansLetter hnwd).trans hp

theorem inlineBrk_stable : BrkStable inlineBrk := by
  intro t g r u hm0 hhead hnw
  have hm : inlineM t = some (g, r) := hm0
  show inlineM (g ++ u) = some (g, u)
  unfold inlineM at hm
  split at hm
  · exact Option.noConfusion hm
  · rename_i k hk
    split at hm
    · rename_i c0 rest1 hd1
      split at hm
      · rename_i hcol
        split at hm
        · rename_i d rest2 hd2
          split at hm
          · rename_i hdl
            rw [Option.some.injEq, Prod.mk.injEq] at hm
            obtain ⟨hg, hr⟩ := hm
            have hk1 := (ansKwLen_le t k hk).2
            have hkle := (ansKwLen_le t k hk).1
            have hcw : isJsWs c0 = false := colonCh_not_ws c0 hcol
            have hdw : isJsWs d = false := ansLetter_not_ws d hdl
            have hlen : (t.take k).length = k := by
              rw [List.length_take]
              omega
            have hdrop_all : ∀ a b : List Char, a.length = k →
                (a ++ b).drop k = b := by
              intro a b hab
              rw [← hab]
              exact List.drop_left a b
            have htake_all : ∀ a b : List Char, a.length = k →
                (a ++ b).take k = a := by
              intro a b hab
              rw [← hab]
              exact List.take_left a b
            have hkw : ansKwLen (g ++ u) = some k := by
              rw [← hg, List.append_assoc]
              exact ansKwLen_take_append t k _ hk
            have hdropk : (g ++ u).drop k = takeW (t.drop k) ++ (c0 ::
                (takeW rest1 ++
                  (d :: ((iterCons rest2.length rest2).1 ++ u)))) := by
              rw [← hg, List.append_assoc, hdrop_all _ _ hlen]
              simp [List.append_assoc, List.cons_append]
            have htk : (g ++ u).take k = t.take k := by
              rw [← hg, List.append_assoc, htake_all _ _ hlen]
            have hpeek : peek2 sepCh ansLetter u = false := by
              have h2 := iterCons_tail_no_peek rest2.length rest2
                (iterCons rest2.length rest2).1
                (iterCons rest2.length rest2).2 le_rfl rfl
              rw [hr] at h2
              rw [peek2_congr sepCh ansLetter hnw]
              exact h2
            have hit : iterCons ((iterCons rest2.length rest2).1 ++ u).length
                ((iterCons rest2.length rest2).1 ++ u) =
                ((iterCons rest2.length rest2).1, u) :=
              iterCons_append rest2.length rest2
                (iterCons rest2.length rest2).1
                (iterCons rest2.length rest2).2 u
                ((iterCons rest2.length rest2).1 ++ u).length le_rfl rfl
                le_rfl hpeek
            unfold inlineM
            rw [hkw]
            dsimp only
            rw [hdropk, dropW_ws_append, dropW_not_ws _ _ hcw]
            dsimp only
            rw [if_pos hcol]
            rw [dropW_ws_append, dropW_not_ws _ _ hdw]
            dsimp only
            rw [if_pos hdl]
            rw [hit]
            dsimp only
            rw [htk]
            rw [takeW_ws_append, takeW_not_ws _ _ hcw, List.append_nil]
            rw [takeW_ws_append, takeW_not_ws _ _ hdw, List.append_nil]
            rw [hg]
          · exact Option.noConfusion hm
        · exact Option.noConfusion hm
      · exact Option.noConfusion hm
    · exact Option.noConfusion hm

/-! ### Idempotence of the two rewrite passes -/

theorem breakOpts_idem (x : List Char) :
    breakOpts (breakOpts x) = breakOpts x :=
  scanBrk_idem optBrk optBrk_stable optBrk_fail1 optBrk_fail2 x

theorem breakInline_idem (x : List Char) :
    breakInline (breakInline x) = breakInline x :=
  scanBrk_idem inlineBrk inlineBrk_stable inlineBrk_fail1 inlineBrk_fail2 x

/-! ### A recursive characterisation of the scan's fixed points -/

/-- `fixBrk b v` holds when every match site in `v` is already in rewritten
form: the matched group is preceded by exactly one newline. -/
def fixBrk (b : Brk) : List Char → Prop
  | [] => True
  | c :: rest =>
    if c = '\n' then fixBrk b rest
    else
      match h : b.m (dropW rest) with
      | some (g, r) => takeW rest = ['\n'] ∧ fixBrk b r
      | none => fixBrk b rest
termination_by l => l.length
decreasing_by
  · simp only [List.length_cons]; omega
  · have h1 := b.r_lt h
    have h2 : (dropW rest).length ≤ rest.length := length_dropWhile_le _ _
    simp only [List.length_cons]
    omega
  · simp only [List.length_cons]; omega

theorem fixBrk_nil (b : Brk) : fixBrk b [] := by
  unfold fixBrk
  trivial

theorem fixBrk_cons_nl (b : Brk) (rest : List Char) :
    fixBrk b ('\n' :: rest) ↔ fixBrk b rest := by
  conv_lhs => rw [fixBrk]
  rw [if_pos rfl]

theorem fixBrk_cons_match (b : Brk) (c : Char) (rest g r : List Char)
    (hc : ¬ c = '\n') (h : b.m (dropW rest) = some (g, r)) :
    fixBrk b (c :: rest) ↔ (takeW rest = ['\n'] ∧ fixBrk b r) := by
  conv_lhs => rw [fixBrk]
  rw [if_neg hc]
  split
  · rename_i g2 r2 h2
    rw [h] at h2
    rw [Option.some.injEq, Prod.mk.injEq] at h2
    rw [← h2.2]
  · rename_i h2
    rw [h] at h2
    exact Option.noConfusion h2

theorem fixBrk_cons_none (b : Brk) (c : Char) (rest : List Char)
    (hc : ¬ c = '\n') (h : b.m (dropW rest) = none) :
    fixBrk b (c :: rest) ↔ fixBrk b rest := by
  conv_lhs => rw [fixBrk]
  rw [if_neg hc]
  split
  · rename_i g2 r2 h2
    rw [h] at h2
    exact Option.noConfusion h2
  · rfl

/-- Being unchanged by the scan is the same as `fixBrk`. -/
theorem scanBrk_eq_iff_fixBrk (b : Brk) : ∀ v,
    scanBrk b v = v ↔ fixBrk b v := by
  intro v
  induction v using scanBrk.induct b with
  | case1 =>
    rw [scanBrk_nil]
    exact ⟨fun _ => fixBrk_nil b, fun _ => rfl⟩
  | case2 rest ih =>
    rw [scanBrk_cons_nl, fixBrk_cons_nl]
    simp only [List.cons.injEq, true_and]
    exact ih
  | case3 c rest hc g r hm ih =>
    rw [scanBrk_cons_match b c rest g r hc hm,
      fixBrk_cons_match b c rest g r hc hm]
    simp only [List.cons.injEq, true_and]
    obtain ⟨g0, gs0, hg0, hg0w⟩ := b.g_cons hm
    have hpre := b.pre_eq _ _ _ hm
    constructor
    · intro h
      have hdw : dropW ('\n' :: (g ++ scanBrk b r)) = g ++ scanBrk b r := by
        rw [dropW_nl, hg0, List.cons_append, dropW_not_ws _ _ hg0w,
          ← List.cons_append, ← hg0]
      have hscan : scanBrk b r = r := by
        have h2 : g ++ r = g ++ scanBrk b r := by
          rw [hpre, ← h, hdw]
        exact (List.append_cancel_left h2).symm
      constructor
      · rw [← h, takeW_ws _ _ (by decide), hg0, List.cons_append,
          takeW_not_ws _ _ hg0w]
      · exact ih.mp hscan
    · rintro ⟨htw, hfx⟩
      have hscan : scanBrk b r = r := ih.mpr hfx
      have hrest : rest = '\n' :: (g ++ r) := by
        conv_lhs => rw [← takeW_append_dropW rest]
        rw [htw, ← hpre]
        rfl
      rw [hscan, hrest]
  | case4 c rest hc hm ih =>
    rw [scanBrk_cons_none b c rest hc hm, fixBrk_cons_none b c rest hc hm]
    simp only [List.cons.injEq, true_and]
    exact ih

/-- A prefix of newlines is transparent for `fixBrk`. -/
theorem fixBrk_nl_pre (b : Brk) : ∀ (p z : List Char),
    (∀ a ∈ p, a = '\n') → (fixBrk b (p ++ z) ↔ fixBrk b z) := by
  intro p
  induction p with
  | nil =>
    intro z hp
    exact Iff.rfl
  | cons a p2 ih =>
    intro z hp
    have ha : a = '\n' := hp a (by simp)
    subst ha
    rw [List.cons_append, fixBrk_cons_nl]
    exact ih z (fun x hx => hp x (by simp [hx]))

/-- A whitespace prefix before a non-matching position is transparent for
`fixBrk`. -/
theorem fixBrk_ws_pre (b : Brk) : ∀ (w z : List Char),
    (∀ a ∈ w, isJsWs a) → b.m (dropW z) = none →
    (fixBrk b (w ++ z) ↔ fixBrk b z) := by
  intro w
  induction w with
  | nil =>
    intro z hw hz
    exact Iff.rfl
  | cons a w2 ih =>
    intro z hw hz
    have ha : isJsWs a := hw a (by simp)
    rw [List.cons_append]
    by_cases han : a = '\n'
    · subst han
      rw [fixBrk_cons_nl]
      exact ih z (fun x hx => hw x (by simp [hx])) hz
    · have hd2 : dropW (w2 ++ z) = dropW z :=
        List.dropWhile_append_of_pos
          (fun x hx => hw x (List.mem_cons_of_mem _ hx))
      have hmn : b.m (dropW (w2 ++ z)) = none := by
        rw [hd2]
        exact hz
      rw [fixBrk_cons_none b a (w2 ++ z) han hmn]
      exact ih z (fun x hx => hw x (by simp [hx])) hz

/-! ### Interaction of the two matchers -/

theorem dropW_append_of_ne (g2 u : List Char) (h : ¬ dropW g2 = []) :
    dropW (g2 ++ u) = dropW g2 ++ u := by
  induction g2 with
  | nil => exact absurd rfl h
  | cons a t ih =>
    by_cases haw : isJsWs a
    · rw [dropW_ws a t haw] at h
      rw [List.cons_append, dropW_ws a (t ++ u) haw, dropW_ws a t haw]
      exact ih h
    · have haw2 : isJsWs a = false := by simpa using haw
      rw [List.cons_append, dropW_not_ws a (t ++ u) haw2,
        dropW_not_ws a t haw2, List.cons_append]

theorem takeW_append_of_ne (g2 u : List Char) (h : ¬ dropW g2 = []) :
    takeW (g2 ++ u) = takeW g2 := by
  induction g2 with
  | nil => exact absurd rfl h
  | cons a t ih =>
    by_cases haw : isJsWs a
    · rw [dropW_ws a t haw] at h
      rw [List.cons_append, takeW_ws a (t ++ u) haw, takeW_ws a t haw,
        ih h]
    · have haw2 : isJsWs a = false := by simpa using haw
      rw [List.cons_append, takeW_not_ws a (t ++ u) haw2,
        takeW_not_ws a t haw2]

theorem optM_cons2 (l s : Char) (X : List Char) :
    optM (l :: s :: X) =
      if (optLetter l && optSep s) = true then
        some (l :: s :: takeW X, dropW X)
      else none := rfl

theorem optM_one (l : Char) : optM [l] = none := rfl

theorem optM_nl_second (c : Char) (X : List Char) :
    optM (c :: '\n' :: X) = none := by
  simp only [optM]
  have h0 : optSep '\n' = false := by decide
  rw [h0, Bool.and_false]
  simp

/-- The text below a recognised keyword never starts an option marker. -/
theorem ansKwLen_take_no_opt (t : List Char) (k : Nat)
    (h : ansKwLen t = some k) : ∀ Y, optM (t.take k ++ Y) = none := by
  intro Y
  unfold ansKwLen at h
  split at h
  · rw [Option.some.injEq] at h
    subst h
    rfl
  · rw [Option.some.injEq] at h
    subst h
    cases Y with
    | nil => rfl
    | cons y ys =>
      show optM ('답' :: y :: ys) = none
      rw [optM_cons2, show optLetter '답' = false from rfl, Bool.false_and]
      simp
  · rename_i c1 c2 c3 c4 c5 c6 tail g1 g2
    split at h
    · rename_i hcond
      rw [Option.some.injEq] at h
      subst h
      show optM (c1 :: c2 :: (c3 :: c4 :: c5 :: c6 :: [] ++ Y)) = none
      rw [optM_cons2]
      simp only [Bool.and_eq_true, Bool.or_eq_true, decide_eq_true_eq]
        at hcond
      have h2 : optSep c2 = false := by
        rcases hcond.1.1.1.1.2 with h' | h' <;> subst h' <;> rfl
      rw [h2, Bool.and_false]
      simp
    · exact Option.noConfusion h
  · exact Option.noConfusion h

/-- The group matched by the pass-3 matcher never starts an option marker,
whatever follows it. -/
theorem inlineM_g_no_opt (t g r : List Char) (h : inlineM t = some (g, r)) :
    ∀ X, optM (g ++ X) = none := by
  intro X
  unfold inlineM at h
  split at h
  · exact Option.noConfusion h
  · rename_i k hk
    split at h
    · rename_i c0 rest1 hd1
      split at h
      · rename_i hcol
        split at h
        · rename_i d rest2 hd2
          split at h
          · rename_i hdl
            rw [Option.some.injEq, Prod.mk.injEq] at h
            obtain ⟨hg, -⟩ := h
            rw [← hg, List.append_assoc]
            exact ansKwLen_take_no_opt t k hk _
          · exact Option.noConfusion h
        · exact Option.noConfusion h
      · exact Option.noConfusion h
    · exact Option.noConfusion h

/-- Failure of one matcher after the whitespace prefix is preserved by a
scan with another matcher, given cross-matcher fail stability and that the
other matcher's groups never match. -/
theorem scanFailPres2 (b1 b2 : Brk)
    (h1 : ∀ c rest g r u, ¬ c = '\n' → b1.m (c :: rest) = none →
      b2.m (dropW rest) = some (g, r) → u.head? = r.head? →
      nonWs u = nonWs r → b1.m (c :: '\n' :: (g ++ u)) = none)
    (h2 : BrkFail2 b1)
    (h3 : ∀ t g r, b2.m t = some (g, r) → ∀ X, b1.m (g ++ X) = none) :
    ∀ v, b1.m (dropW v) = none → b1.m (dropW (scanBrk b2 v)) = none := by
  intro v
  induction v using scanBrk.induct b2 with
  | case1 =>
    intro h
    rw [scanBrk_nil]
    exact h
  | case2 rest ih =>
    intro h
    rw [dropW_nl] at h
    rw [scanBrk_cons_nl, dropW_nl]
    exact ih h
  | case3 c rest hc g r hm ih =>
    intro h
    obtain ⟨g0, gs0, hg0, hg0w⟩ := b2.g_cons hm
    rw [scanBrk_cons_match b2 c rest g r hc hm]
    by_cases hcw : isJsWs c
    · rw [dropW_ws _ _ hcw, dropW_nl, hg0, List.cons_append,
        dropW_not_ws _ _ hg0w, ← List.cons_append, ← hg0]
      exact h3 _ g r hm (scanBrk b2 r)
    · have hcw2 : isJsWs c = false := by simpa using hcw
      rw [dropW_not_ws _ _ hcw2] at h
      rw [dropW_not_ws _ _ hcw2]
      exact h1 c rest g r (scanBrk b2 r) hc h hm (by rw [scanBrk_head])
        (nonWs_scanBrk b2 r)
  | case4 c rest hc hm ih =>
    intro h
    by_cases hcw : isJsWs c
    · rw [dropW_ws _ _ hcw] at h
      rw [scanBrk_cons_none b2 c rest hc hm, dropW_ws _ _ hcw]
      exact ih h
    · have hcw2 : isJsWs c = false := by simpa using hcw
      rw [dropW_not_ws _ _ hcw2] at h
      rw [scanBrk_cons_none b2 c rest hc hm, dropW_not_ws _ _ hcw2]
      exact h2 c rest (scanBrk b2 rest) hc h (by rw [scanBrk_head])
        (nonWs_scanBrk b2 rest) (take_scanBrk b2 rest)

/-- Option-marker failure is preserved by the inline-answer pass. -/
theorem scanFailPres_opt_inline : ∀ v, optM (dropW v) = none →
    optM (dropW (scanBrk inlineBrk v)) = none :=
  scanFailPres2 optBrk inlineBrk
    (fun c rest g r u hc hn hm hh hnw => optM_nl_second c (g ++ u))
    optBrk_fail2
    (fun t g r hm X => inlineM_g_no_opt t g r hm X)

/-! ### The newline-collapsing pass and option-break fixed points -/

theorem collapseNl_nil : collapseNl [] = [] := by
  unfold collapseNl
  rfl

theorem collapseNl_cons_nl (rest : List Char) :
    collapseNl ('\n' :: rest) =
      (if 2 ≤ (rest.takeWhile (fun d => d = '\n')).length then ['\n', '\n']
       else '\n' :: rest.takeWhile (fun d => d = '\n')) ++
      collapseNl (rest.dropWhile (fun d => d = '\n')) := by
  conv_lhs => rw [collapseNl]
  rw [if_pos rfl]

theorem collapseNl_cons (c : Char) (rest : List Char) (hc : ¬ c = '\n') :
    collapseNl (c :: rest) = c :: collapseNl rest := by
  conv_lhs => rw [collapseNl]
  rw [if_neg hc]

theorem collapseNl_nl_shape (rest : List Char) :
    ∃ X, collapseNl ('\n' :: rest) = '\n' :: X := by
  rw [collapseNl_cons_nl]
  by_cases h2 : 2 ≤ (rest.takeWhile (fun d => d = '\n')).length
  · rw [if_pos h2]
    exact ⟨'\n' :: collapseNl (rest.dropWhile (fun d => d = '\n')), rfl⟩
  · rw [if_neg h2]
    exact ⟨rest.takeWhile (fun d => d = '\n') ++
      collapseNl (rest.dropWhile (fun d => d = '\n')), rfl⟩

theorem takeWhile_append_stop (p : Char → Bool) : ∀ (w z : List Char),
    (∀ c zt, z = c :: zt → p c = false) →
    (w ++ z).takeWhile p = w.takeWhile p ∧
    (w ++ z).dropWhile p = w.dropWhile p ++ z := by
  intro w
  induction w with
  | nil =>
    intro z hz
    constructor
    · cases z with
      | nil => rfl
      | cons c zt =>
        show (c :: zt).takeWhile p = ([] : List Char).takeWhile p
        rw [List.takeWhile_cons_of_neg (by simp [hz c zt rfl])]
        rfl
    · cases z with
      | nil => rfl
      | cons c zt =>
        show (c :: zt).dropWhile p = ([] : List Char).dropWhile p ++ c :: zt
        rw [List.dropWhile_cons_of_neg (by simp [hz c zt rfl])]
        rfl
  | cons a w2 ih =>
    intro z hz
    by_cases hpa : p a = true
    · constructor
      · rw [List.cons_append, List.takeWhile_cons_of_pos hpa,
          List.takeWhile_cons_of_pos hpa, (ih z hz).1]
      · rw [List.cons_append, List.dropWhile_cons_of_pos hpa,
          List.dropWhile_cons_of_pos hpa, (ih z hz).2]
    · have hpa2 : ¬ p a := by simpa using hpa
      constructor
      · rw [List.cons_append, List.takeWhile_cons_of_neg hpa2,
          List.takeWhile_cons_of_neg hpa2]
      · rw [List.cons_append, List.dropWhile_cons_of_neg hpa2,
          List.dropWhile_cons_of_neg hpa2, List.cons_append]

theorem mem_dropWhile_mem (p : Char → Bool) (l : List Char) (a : Char)
    (h : a ∈ l.dropWhile p) : a ∈ l :=
  (List.dropWhile_sublist p).subset h

theorem mem_takeWhile_mem (p : Char → Bool) (l : List Char) (a : Char)
    (h : a ∈ l.takeWhile p) : a ∈ l :=
  (List.takeWhile_sublist p).subset h

/-- Collapsing a whitespace run before a non-whitespace position keeps it a
whitespace run. -/
theorem collapseNl_ws_append : ∀ (n : Nat) (w z : List Char),
    w.length ≤ n → (∀ a ∈ w, isJsWs a) →
    (∀ c zt, z = c :: zt → isJsWs c = false) →
    ∃ w2, (∀ a ∈ w2, isJsWs a) ∧
      collapseNl (w ++ z) = w2 ++ collapseNl z := by
  intro n
  induction n with
  | zero =>
    intro w z hlen hw hz
    have hwn : w = [] := List.length_eq_zero.mp (Nat.le_zero.mp hlen)
    subst hwn
    exact ⟨[], by simp, rfl⟩
  | succ m ih =>
    intro w z hlen hw hz
    cases w with
    | nil => exact ⟨[], by simp, rfl⟩
    | cons a w2 =>
      have hz2 : ∀ c zt, z = c :: zt → decide (c = '\n') = false := by
        intro c zt hzc
        have h5 := hz c zt hzc
        rw [decide_eq_false_iff_not]
        intro hcn
        subst hcn
        exact Bool.noConfusion h5
      by_cases han : a = '\n'
      · subst han
        rw [List.cons_append, collapseNl_cons_nl]
        obtain ⟨ht, hd⟩ := takeWhile_append_stop (fun d => d = '\n') w2 z hz2
        rw [ht, hd]
        have hlw : (w2.dropWhile (fun d => d = '\n')).length ≤ m := by
          have := length_dropWhile_le (fun d => d = '\n') w2
          simp only [List.length_cons] at hlen
          omega
        obtain ⟨w3, hw3, heq⟩ := ih (w2.dropWhile (fun d => d = '\n')) z hlw
          (fun x hx => hw x (List.mem_cons_of_mem _
            (mem_dropWhile_mem _ _ _ hx))) hz
        rw [heq, ← List.append_assoc]
        by_cases h2 : 2 ≤ (w2.takeWhile (fun d => d = '\n')).length
        · rw [if_pos h2]
          refine ⟨['\n', '\n'] ++ w3, ?_, rfl⟩
          intro x hx
          rw [List.mem_append] at hx
          rcases hx with hx | hx
          · rw [List.mem_cons] at hx
            rcases hx with hx | hx
            · subst hx; decide
            · rw [List.mem_singleton] at hx
              subst hx; decide
          · exact hw3 x hx
        · rw [if_neg h2]
          refine ⟨('\n' :: w2.takeWhile (fun d => d = '\n')) ++ w3, ?_, rfl⟩
          intro x hx
          rw [List.mem_append] at hx
          rcases hx with hx | hx
          · rw [List.mem_cons] at hx
            rcases hx with hx | hx
            · subst hx; decide
            · have h6 := List.mem_takeWhile_imp hx
              simp only [decide_eq_true_eq] at h6
              subst h6; decide
          · exact hw3 x hx
      · rw [List.cons_append, collapseNl_cons a _ han]
        have hlw : w2.length ≤ m := by
          simp only [List.length_cons] at hlen
          omega
        obtain ⟨w3, hw3, heq⟩ := ih w2 z hlw
          (fun x hx => hw x (List.mem_cons_of_mem _ hx)) hz
        rw [heq]
        refine ⟨a :: w3, ?_, rfl⟩
        intro y hy
        rw [List.mem_cons] at hy
        rcases hy with hy | hy
        · rw [hy]
          exact hw a (by simp)
        · exact hw3 y hy

theorem optLetter_not_nl (l : Char) (h : optLetter l = true) : ¬ l = '\n' := by
  simp only [optLetter, Bool.or_eq_true, decide_eq_true_eq] at h
  rcases h with ((h | h) | h) | h <;> subst h <;> decide

theorem optSep_not_nl (s : Char) (h : optSep s = true) : ¬ s = '\n' := by
  simp only [optSep, Bool.or_eq_true, decide_eq_true_eq] at h
  rcases h with (h | h) | h <;> subst h <;> decide

theorem not_nl_of_not_ws (c : Char) (h : isJsWs c = false) : ¬ c = '\n' := by
  intro hc
  subst hc
  exact Bool.noConfusion h

theorem optM_some_decomp (w g r : List Char) (h : optM w = some (g, r)) :
    ∃ l s r2, w = l :: s :: r2 ∧ (optLetter l && optSep s) = true ∧
      g = l :: s :: takeW r2 ∧ r = dropW r2 := by
  unfold optM at h
  split at h
  · rename_i l s r2
    split at h
    · rename_i hls
      rw [Option.some.injEq, Prod.mk.injEq] at h
      exact ⟨l, s, r2, rfl, hls, h.1.symm, h.2.symm⟩
    · exact Option.noConfusion h
  · exact Option.noConfusion h

/-- Option-marker failure is preserved by newline collapapsing. -/
theorem optM_dropW_collapse (z : List Char) (h : optM (dropW z) = none) :
    optM (dropW (collapseNl z)) = none := by
  cases hdz : dropW z with
  | nil =>
    have hall : ∀ a ∈ z, isJsWs a := by
      intro a ha
      exact List.dropWhile_eq_nil_iff.mp hdz a ha
    obtain ⟨w2, hw2, heq⟩ := collapseNl_ws_append z.length z [] le_rfl hall
      (fun c zt hc => List.noConfusion hc)
    rw [List.append_nil] at heq
    rw [collapseNl_nil, List.append_nil] at heq
    rw [heq, show dropW w2 = [] from List.dropWhile_eq_nil_iff.mpr hw2]
    rfl
  | cons d0 tail =>
    have hd0 : isJsWs d0 = false := dropW_head_not_ws z d0 tail hdz
    have hzz : z = takeW z ++ (d0 :: tail) := by
      rw [← hdz, takeW_append_dropW]
    obtain ⟨w2, hw2, heq⟩ := collapseNl_ws_append (takeW z).length (takeW z)
      (d0 :: tail) le_rfl (takeW_all_ws z)
      (fun c zt hc => by rw [List.cons.injEq] at hc; rw [← hc.1]; exact hd0)
    rw [hdz] at h
    have hcz : collapseNl z = w2 ++ collapseNl (d0 :: tail) := by
      conv_lhs => rw [hzz]
      exact heq
    rw [hcz, collapseNl_cons d0 tail (not_nl_of_not_ws d0 hd0),
      show dropW (w2 ++ d0 :: collapseNl tail) =
        dropW (d0 :: collapseNl tail) from
        List.dropWhile_append_of_pos hw2,
      dropW_not_ws _ _ hd0]
    cases tail with
    | nil =>
      rw [collapseNl_nil]
      rfl
    | cons d1 t2 =>
      rw [optM_cons2] at h
      have hcond : (optLetter d0 && optSep d1) = false := by
        by_contra hcc
        rw [Bool.not_eq_false] at hcc
        rw [if_pos hcc] at h
        exact Option.noConfusion h
      by_cases hd1 : d1 = '\n'
      · subst hd1
        obtain ⟨X, hX⟩ := collapseNl_nl_shape t2
        rw [hX]
        exact optM_nl_second d0 X
      · rw [collapseNl_cons d1 t2 hd1, optM_cons2, hcond]
        simp

/-- Newline collapsing preserves option-break fixed points. -/
theorem fixOpt_collapseNl : ∀ (n : Nat) (y : List Char), y.length ≤ n →
    fixBrk optBrk y → fixBrk optBrk (collapseNl y) := by
  intro n
  induction n with
  | zero =>
    intro y hlen hfx
    have hy : y = [] := List.length_eq_zero.mp (Nat.le_zero.mp hlen)
    subst hy
    rw [collapseNl_nil]
    exact fixBrk_nil optBrk
  | succ m ih =>
    intro y hlen hfx
    cases y with
    | nil =>
      rw [collapseNl_nil]
      exact fixBrk_nil optBrk
    | cons c rest =>
      by_cases hc : c = '\n'
      · subst hc
        rw [collapseNl_cons_nl]
        have hfr : fixBrk optBrk rest := (fixBrk_cons_nl optBrk rest).mp hfx
        have hsplit := List.takeWhile_append_dropWhile
          (fun d => d = '\n') rest
        have htw_nl : ∀ a ∈ rest.takeWhile (fun d => d = '\n'),
            a = '\n' := by
          intro a ha
          have := List.mem_takeWhile_imp ha
          simpa using this
        have hfd : fixBrk optBrk (rest.dropWhile (fun d => d = '\n')) := by
          have h1 := fixBrk_nl_pre optBrk
            (rest.takeWhile (fun d => d = '\n'))
            (rest.dropWhile (fun d => d = '\n')) htw_nl
          rw [hsplit] at h1
          exact h1.mp hfr
        have hlen2 : (rest.dropWhile (fun d => d = '\n')).length ≤ m := by
          have := length_dropWhile_le (fun d => d = '\n') rest
          simp only [List.length_cons] at hlen
          omega
        have hcoll := ih _ hlen2 hfd
        by_cases h2 : 2 ≤ (rest.takeWhile (fun d => d = '\n')).length
        · rw [if_pos h2]
          refine (fixBrk_nl_pre optBrk _ _ ?_).mpr hcoll
          intro a ha
          rw [List.mem_cons] at ha
          rcases ha with ha | ha
          · exact ha
          · rw [List.mem_singleton] at ha
            exact ha
        · rw [if_neg h2]
          refine (fixBrk_nl_pre optBrk _ _ ?_).mpr hcoll
          intro a ha
          rw [List.mem_cons] at ha
          rcases ha with ha | ha
          · exact ha
          · exact htw_nl a ha
      · rw [collapseNl_cons c rest hc]
        cases hm : optBrk.m (dropW rest) with
        | none =>
          have hfr := (fixBrk_cons_none optBrk c rest hc hm).mp hfx
          have hmn : optBrk.m (dropW (collapseNl rest)) = none :=
            optM_dropW_collapse rest hm
          rw [fixBrk_cons_none optBrk c _ hc hmn]
          refine ih rest ?_ hfr
          simp only [List.length_cons] at hlen
          omega
        | some gr =>
          obtain ⟨gO, rO⟩ := gr
          obtain ⟨htw, hfr⟩ :=
            (fixBrk_cons_match optBrk c rest gO rO hc hm).mp hfx
          obtain ⟨l, s, r2, hw_eq, hls, hgO, hrO⟩ :=
            optM_some_decomp _ gO rO hm
          have hpre := optBrk.pre_eq _ _ _ hm
          have hrest : rest = '\n' :: (gO ++ rO) := by
            conv_lhs => rw [← takeW_append_dropW rest]
            rw [htw, ← hpre]
            rfl
          have hls1 : optLetter l = true := by
            rw [Bool.and_eq_true] at hls
            exact hls.1
          have hls2 : optSep s = true := by
            rw [Bool.and_eq_true] at hls
            exact hls.2
          have hlw : isJsWs l = false := optLetter_not_ws l hls1
          have hsw : isJsWs s = false := optSep_not_ws s hls2
          have hln : ¬ l = '\n' := optLetter_not_nl l hls1
          have hsn : ¬ s = '\n' := optSep_not_nl s hls2
          have hrO_head : ∀ c2 zt, rO = c2 :: zt → isJsWs c2 = false := by
            intro c2 zt hco
            rw [hrO] at hco
            exact dropW_head_not_ws r2 c2 zt hco
          obtain ⟨w2, hw2, hweq⟩ := collapseNl_ws_append (takeW r2).length
            (takeW r2) rO le_rfl (takeW_all_ws r2) hrO_head
          have hceq : collapseNl rest = '\n' :: l :: s ::
              (w2 ++ collapseNl rO) := by
            rw [hrest, hgO]
            have e1 : (l :: s :: takeW r2) ++ rO =
                l :: s :: (takeW r2 ++ rO) := rfl
            rw [e1, collapseNl_cons_nl,
              List.takeWhile_cons_of_neg (by simp [hln]),
              List.dropWhile_cons_of_neg (by simp [hln]),
              if_neg (by simp), collapseNl_cons l _ hln,
              collapseNl_cons s _ hsn, hweq]
            rfl
          rw [hceq]
          have hm2 : optBrk.m
              (dropW ('\n' :: l :: s :: (w2 ++ collapseNl rO))) =
              some (l :: s :: (w2 ++ takeW (collapseNl rO)),
                collapseNl rO) := by
            rw [dropW_nl, dropW_not_ws _ _ hlw]
            show optM (l :: s :: (w2 ++ collapseNl rO)) = _
            rw [optM_cons2, if_pos hls,
              show takeW (w2 ++ collapseNl rO) =
                w2 ++ takeW (collapseNl rO) from
                List.takeWhile_append_of_pos hw2,
              show dropW (w2 ++ collapseNl rO) = dropW (collapseNl rO) from
                List.dropWhile_append_of_pos hw2]
            cases hro : rO with
            | nil =>
              rw [collapseNl_nil]
              rfl
            | cons c2 zt =>
              have hc2 : isJsWs c2 = false := hrO_head c2 zt hro
              rw [collapseNl_cons c2 zt (not_nl_of_not_ws c2 hc2),
                dropW_not_ws _ _ hc2]
          rw [fixBrk_cons_match optBrk c _ _ _ hc hm2]
          constructor
          · rw [takeW_ws _ _ (by decide), takeW_not_ws _ _ hlw]
          · have hlr : rO.length ≤ m := by
              have h1 := optBrk.r_lt hm
              have h2 : (dropW rest).length ≤ rest.length :=
                length_dropWhile_le _ _
              simp only [List.length_cons] at hlen
              omega
            exact ih rO hlr hfr

/-! ### The inline-answer pass preserves option-break fixed points -/

theorem ansKwLen_none_head (c : Char) (X : List Char) (h1 : ¬ c = '정')
    (h2 : ¬ c = '답') (h3 : ¬ (c = 'A' ∨ c = 'a')) :
    ansKwLen (c :: X) = none := by
  unfold ansKwLen
  split
  · rename_i heq
    rw [List.cons.injEq] at heq
    exact absurd heq.1 h1
  · rename_i heq
    rw [List.cons.injEq] at heq
    exact absurd heq.1 h2
  · rename_i c1 c2 c3 c4 c5 c6 tail g1 g2 heq
    rw [List.cons.injEq] at heq
    obtain ⟨hc, -⟩ := heq
    rw [if_neg]
    intro hcond
    simp only [Bool.and_eq_true, Bool.or_eq_true, decide_eq_true_eq]
      at hcond
    rcases hcond.1.1.1.1.1 with h' | h'
    · exact h3 (Or.inl (by rw [hc, h']))
    · exact h3 (Or.inr (by rw [hc, h']))
  · rfl

theorem inlineM_sep_none (s : Char) (X : List Char)
    (hs : optSep s = true) : inlineM (s :: X) = none := by
  have hk : ansKwLen (s :: X) = none := by
    simp only [optSep, Bool.or_eq_true, decide_eq_true_eq] at hs
    rcases hs with (hs | hs) | hs <;> subst hs <;>
      exact ansKwLen_none_head _ _ (by decide) (by decide) (by decide)
  unfold inlineM
  rw [hk]

theorem dropW_dropW (x : List Char) : dropW (dropW x) = dropW x := by
  cases hdx : dropW x with
  | nil => rfl
  | cons c t => exact dropW_not_ws c t (dropW_head_not_ws x c t hdx)

theorem scanBrk_cons_shape (b : Brk) (c : Char) (t : List Char) :
    ∃ X, scanBrk b (c :: t) = c :: X := by
  have hh := scanBrk_head b (c :: t)
  cases hs : scanBrk b (c :: t) with
  | nil =>
    rw [hs] at hh
    exact Option.noConfusion hh
  | cons y ys =>
    rw [hs] at hh
    simp only [List.head?_cons, Option.some.injEq] at hh
    exact ⟨ys, by rw [hh]⟩

theorem takeW_dropW_scan_dropW (b : Brk) (x : List Char) :
    takeW (scanBrk b (dropW x)) = [] ∧
    dropW (scanBrk b (dropW x)) = scanBrk b (dropW x) := by
  cases hdx : dropW x with
  | nil =>
    rw [scanBrk_nil]
    exact ⟨rfl, rfl⟩
  | cons c t =>
    have hcw := dropW_head_not_ws x c t hdx
    obtain ⟨X, hX⟩ := scanBrk_cons_shape b c t
    rw [hX]
    exact ⟨takeW_not_ws _ _ hcw, dropW_not_ws _ _ hcw⟩

theorem optM_append_none_transfer (e : Char) (et u u2 : List Char)
    (hhead : u2.head? = u.head?) (h : optM (e :: (et ++ u)) = none) :
    optM (e :: (et ++ u2)) = none := by
  cases et with
  | nil =>
    cases u2 with
    | nil => rfl
    | cons y ys =>
      have hu : ∃ ut, u = y :: ut := by
        cases u with
        | nil => exact Option.noConfusion hhead
        | cons y2 ut =>
          simp only [List.head?_cons, Option.some.injEq] at hhead
          exact ⟨ut, by rw [hhead]⟩
      obtain ⟨ut, hu⟩ := hu
      rw [hu] at h
      rw [List.nil_append] at h ⊢
      rw [optM_cons2] at h ⊢
      split at h
      · exact Option.noConfusion h
      · rename_i hbad
        rw [if_neg hbad]
  | cons e2 et2 =>
    rw [List.cons_append] at h ⊢
    rw [optM_cons2] at h ⊢
    split at h
    · exact Option.noConfusion h
    · rename_i hbad
      rw [if_neg hbad]

theorem ws_singleton_split (g2 tu : List Char)
    (h : g2 ++ tu = ['\n']) :
    (g2 = [] ∧ tu = ['\n']) ∨ (g2 = ['\n'] ∧ tu = []) := by
  cases g2 with
  | nil =>
    rw [List.nil_append] at h
    exact Or.inl ⟨rfl, h⟩
  | cons x g3 =>
    rw [List.cons_append, List.cons.injEq] at h
    obtain ⟨hx, h2⟩ := h
    rw [List.append_eq_nil] at h2
    exact Or.inr ⟨by rw [hx, h2.1], h2.2⟩

/-- Transfer of option fixedness across the inline pass, below a whitespace
prefix, given transfer oracles for shorter inputs and for the input itself
without a context prefix. -/
theorem fixOpt_dropW_scanIn : ∀ (n : Nat) (u : List Char), u.length ≤ n →
    (∀ u2 g, u2.length < u.length → fixBrk optBrk (g ++ u2) →
      fixBrk optBrk (g ++ scanBrk inlineBrk u2)) →
    (fixBrk optBrk u → fixBrk optBrk (scanBrk inlineBrk u)) →
    fixBrk optBrk (dropW u) →
    fixBrk optBrk (dropW (scanBrk inlineBrk u)) := by
  intro n
  induction n with
  | zero =>
    intro u hlen hlt hself hfx
    have hu : u = [] := List.length_eq_zero.mp (Nat.le_zero.mp hlen)
    subst hu
    rw [scanBrk_nil]
    exact hfx
  | succ m ih =>
    intro u hlen hlt hself hfx
    cases u with
    | nil =>
      rw [scanBrk_nil]
      exact hfx
    | cons w0 u2 =>
      by_cases hw0 : isJsWs w0
      · by_cases hw0n : w0 = '\n'
        · subst hw0n
          rw [scanBrk_cons_nl, dropW_nl]
          rw [dropW_nl] at hfx
          refine ih u2 ?_ ?_ ?_ hfx
          · simp only [List.length_cons] at hlen
            omega
          · intro u3 g h3
            exact hlt u3 g (by simp only [List.length_cons]; omega)
          · intro h
            have h2 := hlt u2 [] (by simp only [List.length_cons]; omega)
              (by rw [List.nil_append]; exact h)
            rwa [List.nil_append] at h2
        · cases hmi : inlineBrk.m (dropW u2) with
          | some gr =>
            obtain ⟨gI, rI⟩ := gr
            rw [scanBrk_cons_match inlineBrk w0 u2 gI rI hw0n hmi,
              dropW_ws _ _ hw0, dropW_nl]
            obtain ⟨g0, gs0, hg0, hg0w⟩ := inlineBrk.g_cons hmi
            rw [hg0, List.cons_append, dropW_not_ws _ _ hg0w,
              ← List.cons_append, ← hg0]
            have hpre := inlineBrk.pre_eq _ _ _ hmi
            rw [dropW_ws _ _ hw0, ← hpre] at hfx
            refine hlt rI gI ?_ hfx
            have h1 := inlineBrk.r_lt hmi
            have h2 : (dropW u2).length ≤ u2.length :=
              length_dropWhile_le _ _
            simp only [List.length_cons]
            omega
          | none =>
            rw [scanBrk_cons_none inlineBrk w0 u2 hw0n hmi,
              dropW_ws _ _ hw0]
            rw [dropW_ws _ _ hw0] at hfx
            refine ih u2 ?_ ?_ ?_ hfx
            · simp only [List.length_cons] at hlen
              omega
            · intro u3 g h3
              exact hlt u3 g (by simp only [List.length_cons]; omega)
            · intro h
              have h2 := hlt u2 [] (by simp only [List.length_cons]; omega)
                (by rw [List.nil_append]; exact h)
              rwa [List.nil_append] at h2
      · have hw0f : isJsWs w0 = false := by simpa using hw0
        rw [dropW_not_ws _ _ hw0f] at hfx
        obtain ⟨X, hX⟩ := scanBrk_cons_shape inlineBrk w0 u2
        rw [hX, dropW_not_ws _ _ hw0f, ← hX]
        exact hself hfx

/-- The inline-answer pass preserves option-break fixed points, in any
context prefix. -/
theorem fixOpt_scanIn : ∀ (n : Nat) (u : List Char), u.length ≤ n →
    ∀ (k : Nat) (g : List Char), g.length ≤ k →
    fixBrk optBrk (g ++ u) → fixBrk optBrk (g ++ scanBrk inlineBrk u) := by
  intro n
  induction n with
  | zero =>
    intro u hlen k g hg hfx
    have hu : u = [] := List.length_eq_zero.mp (Nat.le_zero.mp hlen)
    subst hu
    rw [scanBrk_nil]
    exact hfx
  | succ m ihn =>
    intro u hlenu k
    induction k with
    | zero =>
      intro g hg hfx
      have hgn : g = [] := List.length_eq_zero.mp (Nat.le_zero.mp hg)
      subst hgn
      rw [List.nil_append] at hfx ⊢
      cases u with
      | nil =>
        rw [scanBrk_nil]
        exact hfx
      | cons c t =>
        by_cases hcn : c = '\n'
        · subst hcn
          rw [scanBrk_cons_nl, fixBrk_cons_nl]
          rw [fixBrk_cons_nl] at hfx
          have h3 := ihn t (by simp only [List.length_cons] at hlenu; omega)
            0 [] (by simp) (by rw [List.nil_append]; exact hfx)
          rwa [List.nil_append] at h3
        · cases hmi : inlineBrk.m (dropW t) with
          | some gr =>
            obtain ⟨gI, rI⟩ := gr
            rw [scanBrk_cons_match inlineBrk c t gI rI hcn hmi]
            have hpre := inlineBrk.pre_eq _ _ _ hmi
            have hno : optBrk.m (dropW t) = none := by
              rw [← hpre]
              exact inlineM_g_no_opt _ _ _ hmi rI
            have hft : fixBrk optBrk t :=
              (fixBrk_cons_none optBrk c t hcn hno).mp hfx
            have hsplit : t = takeW t ++ (gI ++ rI) := by
              rw [hpre, takeW_append_dropW]
            obtain ⟨g0, gs0, hg0, hg0w⟩ := inlineBrk.g_cons hmi
            have hnog : optBrk.m (dropW (gI ++ rI)) = none := by
              rw [hg0, List.cons_append, dropW_not_ws _ _ hg0w,
                ← List.cons_append, ← hg0]
              exact inlineM_g_no_opt _ _ _ hmi rI
            have hfgr : fixBrk optBrk (gI ++ rI) := by
              have hiff := fixBrk_ws_pre optBrk (takeW t) (gI ++ rI)
                (takeW_all_ws t) hnog
              rw [← hsplit] at hiff
              exact hiff.mp hft
            have hnog2 : optBrk.m
                (dropW ('\n' :: (gI ++ scanBrk inlineBrk rI))) = none := by
              rw [dropW_nl, hg0, List.cons_append, dropW_not_ws _ _ hg0w,
                ← List.cons_append, ← hg0]
              exact inlineM_g_no_opt _ _ _ hmi _
            rw [fixBrk_cons_none optBrk c _ hcn hnog2, fixBrk_cons_nl]
            refine ihn rI ?_ gI.length gI le_rfl hfgr
            have h1 := inlineBrk.r_lt hmi
            have h2 : (dropW t).length ≤ t.length := length_dropWhile_le _ _
            simp only [List.length_cons] at hlenu
            omega
          | none =>
            rw [scanBrk_cons_none inlineBrk c t hcn hmi]
            cases hmo : optBrk.m (dropW t) with
            | none =>
              have hft := (fixBrk_cons_none optBrk c t hcn hmo).mp hfx
              have hno2 : optBrk.m (dropW (scanBrk inlineBrk t)) = none :=
                scanFailPres_opt_inline t hmo
              rw [fixBrk_cons_none optBrk c _ hcn hno2]
              have h3 := ihn t
                (by simp only [List.length_cons] at hlenu; omega) 0 []
                (by simp) (by rw [List.nil_append]; exact hft)
              rwa [List.nil_append] at h3
            | some gro =>
              obtain ⟨gO, rO⟩ := gro
              obtain ⟨htw, hfr⟩ :=
                (fixBrk_cons_match optBrk c t gO rO hcn hmo).mp hfx
              obtain ⟨l, s, r2, hw_eq, hls, hgO, hrO⟩ :=
                optM_some_decomp _ gO rO hmo
              have hpre := optBrk.pre_eq _ _ _ hmo
              have ht_eq : t = '\n' :: (gO ++ rO) := by
                conv_lhs => rw [← takeW_append_dropW t]
                rw [htw, ← hpre]
                rfl
              have hls1 : optLetter l = true := by
                rw [Bool.and_eq_true] at hls
                exact hls.1
              have hls2 : optSep s = true := by
                rw [Bool.and_eq_true] at hls
                exact hls.2
              have hlw : isJsWs l = false := optLetter_not_ws l hls1
              have hln : ¬ l = '\n' := optLetter_not_nl l hls1
              have hsn : ¬ s = '\n' := optSep_not_nl s hls2
              have hsw : isJsWs s = false := optSep_not_ws s hls2
              have hmi_l : inlineBrk.m (dropW (s :: (takeW r2 ++ rO))) =
                  none := by
                rw [dropW_not_ws _ _ hsw]
                exact inlineM_sep_none s _ hls2
              have hdro : dropW (takeW r2 ++ rO) = rO := by
                rw [dropW_ws_append, hrO, dropW_dropW]
              cases hmi2 : inlineBrk.m rO with
              | some gr2 =>
                obtain ⟨gI2, rI2⟩ := gr2
                have hmi_s : inlineBrk.m (dropW (takeW r2 ++ rO)) =
                    some (gI2, rI2) := by
                  rw [hdro]
                  exact hmi2
                have hscan_go : scanBrk inlineBrk (gO ++ rO) =
                    l :: s :: '\n' :: (gI2 ++ scanBrk inlineBrk rI2) := by
                  rw [hgO]
                  show scanBrk inlineBrk (l :: s :: (takeW r2 ++ rO)) = _
                  rw [scanBrk_cons_none inlineBrk l _ hln hmi_l,
                    scanBrk_cons_match inlineBrk s _ gI2 rI2 hsn hmi_s]
                have hscan_t : scanBrk inlineBrk t = '\n' :: l :: s :: '\n' ::
                    (gI2 ++ scanBrk inlineBrk rI2) := by
                  rw [ht_eq, scanBrk_cons_nl, hscan_go]
                rw [hscan_t]
                obtain ⟨g20, g2s, hg20, hg20w⟩ := inlineBrk.g_cons hmi2
                have hm2 : optBrk.m (dropW ('\n' :: l :: s :: '\n' ::
                    (gI2 ++ scanBrk inlineBrk rI2))) =
                    some (l :: s :: ['\n'], gI2 ++ scanBrk inlineBrk rI2) := by
                  rw [dropW_nl, dropW_not_ws _ _ hlw]
                  show optM (l :: s ::
                    ('\n' :: (gI2 ++ scanBrk inlineBrk rI2))) = _
                  rw [optM_cons2, if_pos hls, takeW_ws _ _ (by decide),
                    dropW_nl, hg20, List.cons_append,
                    takeW_not_ws _ _ hg20w, dropW_not_ws _ _ hg20w,
                    ← List.cons_append, ← hg20]
                rw [fixBrk_cons_match optBrk c _ _ _ hcn hm2]
                constructor
                · rw [takeW_ws _ _ (by decide), takeW_not_ws _ _ hlw]
                · have hpre2 := inlineBrk.pre_eq _ _ _ hmi2
                  have hfr2 : fixBrk optBrk (gI2 ++ rI2) := by
                    rw [hpre2]
                    exact hfr
                  refine ihn rI2 ?_ gI2.length gI2 le_rfl hfr2
                  have h1 := inlineBrk.r_lt hmi2
                  have h2 : (dropW r2).length ≤ r2.length :=
                    length_dropWhile_le _ _
                  have h3 : (dropW t).length ≤ t.length :=
                    length_dropWhile_le _ _
                  have h4 := congrArg List.length hw_eq
                  simp only [List.length_cons] at h4 hlenu
                  rw [hrO] at h1
                  omega
              | none =>
                have hmi_s : inlineBrk.m (dropW (takeW r2 ++ rO)) =
                    none := by
                  rw [hdro]
                  exact hmi2
                have hws : scanBrk inlineBrk (takeW r2 ++ rO) =
                    takeW r2 ++ scanBrk inlineBrk rO := by
                  have h5 := scanBrk_ws_pre inlineBrk (takeW r2 ++ rO)
                    hmi_s
                  rw [takeW_ws_append, hdro] at h5
                  have h6 : takeW rO = [] := by
                    rw [hrO]
                    cases hdr2 : dropW r2 with
                    | nil => rfl
                    | cons y ys =>
                      exact takeW_not_ws y ys (dropW_head_not_ws r2 y ys hdr2)
                  rw [h6, List.append_nil] at h5
                  exact h5
                have hscan_go : scanBrk inlineBrk (gO ++ rO) =
                    l :: s :: (takeW r2 ++ scanBrk inlineBrk rO) := by
                  rw [hgO]
                  show scanBrk inlineBrk (l :: s :: (takeW r2 ++ rO)) = _
                  rw [scanBrk_cons_none inlineBrk l _ hln hmi_l,
                    scanBrk_cons_none inlineBrk s _ hsn hmi_s, hws]
                have hscan_t : scanBrk inlineBrk t = '\n' :: l :: s ::
                    (takeW r2 ++ scanBrk inlineBrk rO) := by
                  rw [ht_eq, scanBrk_cons_nl, hscan_go]
                rw [hscan_t]
                obtain ⟨hta, hdr⟩ := takeW_dropW_scan_dropW inlineBrk r2
                have hm2 : optBrk.m (dropW ('\n' :: l :: s ::
                    (takeW r2 ++ scanBrk inlineBrk rO))) =
                    some (l :: s ::
                      (takeW r2 ++ takeW (scanBrk inlineBrk rO)),
                      scanBrk inlineBrk rO) := by
                  rw [dropW_nl, dropW_not_ws _ _ hlw]
                  show optM (l :: s ::
                    (takeW r2 ++ scanBrk inlineBrk rO)) = _
                  rw [optM_cons2, if_pos hls, takeW_ws_append, dropW_ws_append,
                    hrO, hdr]
                rw [fixBrk_cons_match optBrk c _ _ _ hcn hm2]
                constructor
                · rw [takeW_ws _ _ (by decide), takeW_not_ws _ _ hlw]
                · have hlenro : rO.length ≤ m := by
                    have h2 : (dropW r2).length ≤ r2.length :=
                      length_dropWhile_le _ _
                    have h3 : (dropW t).length ≤ t.length :=
                      length_dropWhile_le _ _
                    have h4 := congrArg List.length hw_eq
                    simp only [List.length_cons] at h4 hlenu
                    rw [hrO]
                    omega
                  have hres := ihn rO hlenro 0 [] (by simp)
                    (by rw [List.nil_append]; exact hfr)
                  rwa [List.nil_append] at hres
    | succ kk ihk =>
      intro g hg hfx
      cases g with
      | nil => exact ihk [] (by simp) hfx
      | cons a g2 =>
        rw [List.cons_append] at hfx ⊢
        by_cases han : a = '\n'
        · subst han
          rw [fixBrk_cons_nl] at hfx ⊢
          exact ihk g2 (by simp only [List.length_cons] at hg; omega) hfx
        · cases hmo : optBrk.m (dropW (g2 ++ u)) with
          | none =>
            have hfx2 := (fixBrk_cons_none optBrk a _ han hmo).mp hfx
            have hno2 : optBrk.m (dropW (g2 ++ scanBrk inlineBrk u)) =
                none := by
              cases hdg : dropW g2 with
              | nil =>
                have hallws : ∀ x ∈ g2, isJsWs x :=
                  List.dropWhile_eq_nil_iff.mp hdg
                rw [show dropW (g2 ++ u) = dropW u from
                  List.dropWhile_append_of_pos hallws] at hmo
                rw [show dropW (g2 ++ scanBrk inlineBrk u) =
                  dropW (scanBrk inlineBrk u) from
                  List.dropWhile_append_of_pos hallws]
                exact scanFailPres_opt_inline u hmo
              | cons e et =>
                have hne : ¬ dropW g2 = [] := by rw [hdg]; simp
                rw [dropW_append_of_ne g2 u hne, hdg] at hmo
                rw [dropW_append_of_ne g2 _ hne, hdg]
                rw [List.cons_append] at hmo ⊢
                exact optM_append_none_transfer e et u _
                  (scanBrk_head inlineBrk u) hmo
            rw [fixBrk_cons_none optBrk a _ han hno2]
            exact ihk g2 (by simp only [List.length_cons] at hg; omega) hfx2
          | some gro =>
            obtain ⟨gO, rO⟩ := gro
            obtain ⟨htw, hfr⟩ :=
              (fixBrk_cons_match optBrk a _ gO rO han hmo).mp hfx
            cases hdg : dropW g2 with
            | cons l rest4 =>
              have hne : ¬ dropW g2 = [] := by rw [hdg]; simp
              have hdgu : dropW (g2 ++ u) = l :: (rest4 ++ u) := by
                rw [dropW_append_of_ne g2 u hne, hdg, List.cons_append]
              have hdgs : dropW (g2 ++ scanBrk inlineBrk u) =
                  l :: (rest4 ++ scanBrk inlineBrk u) := by
                rw [dropW_append_of_ne g2 _ hne, hdg, List.cons_append]
              have htakes : takeW (g2 ++ scanBrk inlineBrk u) =
                  takeW (g2 ++ u) := by
                rw [takeW_append_of_ne g2 _ hne, takeW_append_of_ne g2 u hne]
              rw [hdgu] at hmo
              obtain ⟨l2, s2, r2, hw_eq, hls, hgO, hrO⟩ :=
                optM_some_decomp _ gO rO hmo
              rw [List.cons.injEq] at hw_eq
              obtain ⟨hl2, hw_eq2⟩ := hw_eq
              subst hl2
              have hls1 : optLetter l = true := by
                rw [Bool.and_eq_true] at hls
                exact hls.1
              have hls2 : optSep s2 = true := by
                rw [Bool.and_eq_true] at hls
                exact hls.2
              have hlw : isJsWs l = false := optLetter_not_ws l hls1
              have hs2n : ¬ s2 = '\n' := optSep_not_nl s2 hls2
              have hs2w : isJsWs s2 = false := optSep_not_ws s2 hls2
              cases rest4 with
              | nil =>
                rw [List.nil_append] at hw_eq2
                rw [List.nil_append] at hdgs
                cases hmi : inlineBrk.m (dropW r2) with
                | some gr2 =>
                  obtain ⟨gI, rI⟩ := gr2
                  have hscan : scanBrk inlineBrk u =
                      s2 :: '\n' :: (gI ++ scanBrk inlineBrk rI) := by
                    rw [hw_eq2,
                      scanBrk_cons_match inlineBrk s2 r2 gI rI hs2n hmi]
                  obtain ⟨g0, gs0, hg0, hg0w⟩ := inlineBrk.g_cons hmi
                  have hm2 : optBrk.m (dropW (g2 ++ scanBrk inlineBrk u)) =
                      some (l :: s2 :: ['\n'],
                        gI ++ scanBrk inlineBrk rI) := by
                    rw [hdgs, hscan]
                    show optM (l :: s2 ::
                      ('\n' :: (gI ++ scanBrk inlineBrk rI))) = _
                    rw [optM_cons2, if_pos hls, takeW_ws _ _ (by decide),
                      dropW_nl, hg0, List.cons_append,
                      takeW_not_ws _ _ hg0w, dropW_not_ws _ _ hg0w,
                      ← List.cons_append, ← hg0]
                  rw [fixBrk_cons_match optBrk a _ _ _ han hm2]
                  constructor
                  · rw [htakes]
                    exact htw
                  · have hpre2 := inlineBrk.pre_eq _ _ _ hmi
                    have hfr2 : fixBrk optBrk (gI ++ rI) := by
                      rw [hpre2, ← hrO]
                      exact hfr
                    refine ihn rI ?_ gI.length gI le_rfl hfr2
                    have h1 := inlineBrk.r_lt hmi
                    have h2 : (dropW r2).length ≤ r2.length :=
                      length_dropWhile_le _ _
                    have h4 := congrArg List.length hw_eq2
                    simp only [List.length_cons] at h4 hlenu
                    omega
                | none =>
                  have hscan : scanBrk inlineBrk u =
                      s2 :: scanBrk inlineBrk r2 := by
                    rw [hw_eq2,
                      scanBrk_cons_none inlineBrk s2 r2 hs2n hmi]
                  have hm2 : optBrk.m (dropW (g2 ++ scanBrk inlineBrk u)) =
                      some (l :: s2 :: takeW (scanBrk inlineBrk r2),
                        dropW (scanBrk inlineBrk r2)) := by
                    rw [hdgs, hscan]
                    show optM (l :: s2 :: scanBrk inlineBrk r2) = _
                    rw [optM_cons2, if_pos hls]
                  rw [fixBrk_cons_match optBrk a _ _ _ han hm2]
                  constructor
                  · rw [htakes]
                    exact htw
                  · have h4 := congrArg List.length hw_eq2
                    simp only [List.length_cons] at h4 hlenu
                    refine fixOpt_dropW_scanIn r2.length r2 le_rfl ?_ ?_ ?_
                    · intro u2 g3 hlt2 hfx3
                      exact ihn u2 (by omega) g3.length g3 le_rfl hfx3
                    · intro hfx3
                      have h5 := ihn r2 (by omega) 0 [] (by simp)
                        (by rw [List.nil_append]; exact hfx3)
                      rwa [List.nil_append] at h5
                    · rw [← hrO]
                      exact hfr
              | cons s2x rest3 =>
                rw [List.cons_append, List.cons.injEq] at hw_eq2
                obtain ⟨hs2x, hr2⟩ := hw_eq2
                subst hs2x
                cases hdr3 : dropW rest3 with
                | cons e3 et3 =>
                  have hne3 : ¬ dropW rest3 = [] := by rw [hdr3]; simp
                  have hrOv : rO = dropW rest3 ++ u := by
                    rw [hrO, ← hr2, dropW_append_of_ne rest3 u hne3]
                  have hm2 : optBrk.m (dropW (g2 ++ scanBrk inlineBrk u)) =
                      some (l :: s2x ::
                        takeW (rest3 ++ scanBrk inlineBrk u),
                        dropW rest3 ++ scanBrk inlineBrk u) := by
                    rw [hdgs, List.cons_append]
                    show optM (l :: s2x ::
                      (rest3 ++ scanBrk inlineBrk u)) = _
                    rw [optM_cons2, if_pos hls,
                      dropW_append_of_ne rest3 _ hne3]
                  rw [fixBrk_cons_match optBrk a _ _ _ han hm2]
                  constructor
                  · rw [htakes]
                    exact htw
                  · have hfr2 : fixBrk optBrk (dropW rest3 ++ u) := by
                      rw [← hrOv]
                      exact hfr
                    refine ihk (dropW rest3) ?_ hfr2
                    have h1 : (dropW rest3).length ≤ rest3.length :=
                      length_dropWhile_le _ _
                    have h2 : (dropW g2).length ≤ g2.length :=
                      length_dropWhile_le _ _
                    have h3 := congrArg List.length hdg
                    simp only [List.length_cons] at h3 hg
                    omega
                | nil =>
                  have hallws3 : ∀ x ∈ rest3, isJsWs x :=
                    List.dropWhile_eq_nil_iff.mp hdr3
                  have hrOv : rO = dropW u := by
                    rw [hrO, ← hr2, show dropW (rest3 ++ u) = dropW u from
                      List.dropWhile_append_of_pos hallws3]
                  have hm2 : optBrk.m (dropW (g2 ++ scanBrk inlineBrk u)) =
                      some (l :: s2x ::
                        takeW (rest3 ++ scanBrk inlineBrk u),
                        dropW (scanBrk inlineBrk u)) := by
                    rw [hdgs, List.cons_append]
                    show optM (l :: s2x ::
                      (rest3 ++ scanBrk inlineBrk u)) = _
                    rw [optM_cons2, if_pos hls,
                      show dropW (rest3 ++ scanBrk inlineBrk u) =
                        dropW (scanBrk inlineBrk u) from
                        List.dropWhile_append_of_pos hallws3]
                  rw [fixBrk_cons_match optBrk a _ _ _ han hm2]
                  constructor
                  · rw [htakes]
                    exact htw
                  · refine fixOpt_dropW_scanIn u.length u le_rfl ?_ ?_ ?_
                    · intro u2 g3 hlt2 hfx3
                      exact ihn u2 (by omega) g3.length g3 le_rfl hfx3
                    · intro hfx3
                      have h5 := ihk [] (by simp)
                        (by rw [List.nil_append]; exact hfx3)
                      rwa [List.nil_append] at h5
                    · rw [← hrOv]
                      exact hfr
            | nil =>
              have hallws : ∀ x ∈ g2, isJsWs x :=
                List.dropWhile_eq_nil_iff.mp hdg
              have hdgu : dropW (g2 ++ u) = dropW u :=
                List.dropWhile_append_of_pos hallws
              rw [hdgu] at hmo
              obtain ⟨l, s, r2, hw_eq, hls, hgO, hrO⟩ :=
                optM_some_decomp _ gO rO hmo
              have hls1 : optLetter l = true := by
                rw [Bool.and_eq_true] at hls
                exact hls.1
              have hls2 : optSep s = true := by
                rw [Bool.and_eq_true] at hls
                exact hls.2
              have hlw : isJsWs l = false := optLetter_not_ws l hls1
              have hln : ¬ l = '\n' := optLetter_not_nl l hls1
              have hsn : ¬ s = '\n' := optSep_not_nl s hls2
              have hsw : isJsWs s = false := optSep_not_ws s hls2
              have htsplit : g2 ++ takeW u = ['\n'] := by
                rw [← htw]
                exact (List.takeWhile_append_of_pos hallws).symm
              have hmi_l : inlineBrk.m (dropW (s :: r2)) = none := by
                rw [dropW_not_ws _ _ hsw]
                exact inlineM_sep_none s r2 hls2
              have hgoal : g2 ++ scanBrk inlineBrk u =
                  '\n' :: scanBrk inlineBrk (dropW u) := by
                rcases ws_singleton_split g2 (takeW u) htsplit with
                  ⟨hg2, htu⟩ | ⟨hg2, htu⟩
                · subst hg2
                  rw [List.nil_append]
                  have hu4 : u = '\n' :: dropW u := by
                    conv_lhs => rw [← takeW_append_dropW u]
                    rw [htu]
                    rfl
                  conv_lhs => rw [hu4]
                  rw [scanBrk_cons_nl]
                · subst hg2
                  have hu4 : u = dropW u := by
                    conv_lhs => rw [← takeW_append_dropW u]
                    rw [htu, List.nil_append]
                  rw [← hu4]
                  rfl
              rw [hgoal]
              cases hmi : inlineBrk.m (dropW r2) with
              | some gr2 =>
                obtain ⟨gI, rI⟩ := gr2
                have hscan4 : scanBrk inlineBrk (dropW u) =
                    l :: s :: '\n' :: (gI ++ scanBrk inlineBrk rI) := by
                  rw [hw_eq, scanBrk_cons_none inlineBrk l (s :: r2) hln
                    hmi_l, scanBrk_cons_match inlineBrk s r2 gI rI hsn hmi]
                rw [hscan4]
                obtain ⟨g0, gs0, hg0, hg0w⟩ := inlineBrk.g_cons hmi
                have hm2 : optBrk.m (dropW ('\n' :: l :: s :: '\n' ::
                    (gI ++ scanBrk inlineBrk rI))) =
                    some (l :: s :: ['\n'],
                      gI ++ scanBrk inlineBrk rI) := by
                  rw [dropW_nl, dropW_not_ws _ _ hlw]
                  show optM (l :: s ::
                    ('\n' :: (gI ++ scanBrk inlineBrk rI))) = _
                  rw [optM_cons2, if_pos hls, takeW_ws _ _ (by decide),
                    dropW_nl, hg0, List.cons_append,
                    takeW_not_ws _ _ hg0w, dropW_not_ws _ _ hg0w,
                    ← List.cons_append, ← hg0]
                rw [fixBrk_cons_match optBrk a _ _ _ han hm2]
                constructor
                · rw [takeW_ws _ _ (by decide), takeW_not_ws _ _ hlw]
                · have hpre2 := inlineBrk.pre_eq _ _ _ hmi
                  have hfr2 : fixBrk optBrk (gI ++ rI) := by
                    rw [hpre2, ← hrO]
                    exact hfr
                  refine ihn rI ?_ gI.length gI le_rfl hfr2
                  have h1 := inlineBrk.r_lt hmi
                  have h2 : (dropW r2).length ≤ r2.length :=
                    length_dropWhile_le _ _
                  have h3 : (dropW u).length ≤ u.length :=
                    length_dropWhile_le _ _
                  have h4 := congrArg List.length hw_eq
                  simp only [List.length_cons] at h4
                  omega
              | none =>
                have hscan4 : scanBrk inlineBrk (dropW u) =
                    l :: s :: scanBrk inlineBrk r2 := by
                  rw [hw_eq, scanBrk_cons_none inlineBrk l (s :: r2) hln
                    hmi_l, scanBrk_cons_none inlineBrk s r2 hsn hmi]
                rw [hscan4]
                have hm2 : optBrk.m (dropW ('\n' :: l :: s ::
                    scanBrk inlineBrk r2)) =
                    some (l :: s :: takeW (scanBrk inlineBrk r2),
                      dropW (scanBrk inlineBrk r2)) := by
                  rw [dropW_nl, dropW_not_ws _ _ hlw]
                  show optM (l :: s :: scanBrk inlineBrk r2) = _
                  rw [optM_cons2, if_pos hls]
                rw [fixBrk_cons_match optBrk a _ _ _ han hm2]
                constructor
                · rw [takeW_ws _ _ (by decide), takeW_not_ws _ _ hlw]
                · have h4 := congrArg List.length hw_eq
                  simp only [List.length_cons] at h4
                  have h3 : (dropW u).length ≤ u.length :=
                    length_dropWhile_le _ _
                  refine fixOpt_dropW_scanIn r2.length r2 le_rfl ?_ ?_ ?_
                  · intro u2 g3 hlt2 hfx3
                    exact ihn u2 (by omega) g3.length g3 le_rfl hfx3
                  · intro hfx3
                    have h5 := ihn r2 (by omega) 0 [] (by simp)
                      (by rw [List.nil_append]; exact hfx3)
                    rwa [List.nil_append] at h5
                  · rw [← hrO]
                    exact hfr

/-! ### No triple newline: the collapsing pass and its fixed points -/

/-- Scans a list keeping a count of the current newline run (starting at
`n`); fails as soon as a run reaches three. -/
def goNl : Nat → List Char → Bool
  | _, [] => true
  | n, c :: rest =>
    if c = '\n' then decide (n < 2) && goNl (n + 1) rest else goNl 0 rest

/-- The newline-run count at the end of the list. -/
def endNl : Nat → List Char → Nat
  | n, [] => n
  | n, c :: rest => endNl (if c = '\n' then n + 1 else 0) rest

theorem goNl_cons_nl (n : Nat) (t : List Char) :
    goNl n ('\n' :: t) = (decide (n < 2) && goNl (n + 1) t) := by
  conv_lhs => rw [goNl]
  rw [if_pos rfl]

theorem goNl_cons (n : Nat) (c : Char) (t : List Char) (hc : ¬ c = '\n') :
    goNl n (c :: t) = goNl 0 t := by
  conv_lhs => rw [goNl]
  rw [if_neg hc]

theorem endNl_cons_nl (n : Nat) (t : List Char) :
    endNl n ('\n' :: t) = endNl (n + 1) t := by
  conv_lhs => rw [endNl]
  rw [if_pos rfl]

theorem endNl_cons (n : Nat) (c : Char) (t : List Char) (hc : ¬ c = '\n') :
    endNl n (c :: t) = endNl 0 t := by
  conv_lhs => rw [endNl]
  rw [if_neg hc]

theorem goNl_append : ∀ (x : List Char) (n : Nat) (y : List Char),
    goNl n (x ++ y) = (goNl n x && goNl (endNl n x) y) := by
  intro x
  induction x with
  | nil =>
    intro n y
    rfl
  | cons c x2 ih =>
    intro n y
    by_cases hc : c = '\n'
    · subst hc
      rw [List.cons_append, goNl_cons_nl, goNl_cons_nl, endNl_cons_nl,
        ih (n + 1) y, Bool.and_assoc]
    · rw [List.cons_append, goNl_cons _ _ _ hc, goNl_cons _ _ _ hc,
        endNl_cons _ _ _ hc, ih 0 y]

theorem goNl_head_not_nl (z : List Char) (n1 n2 : Nat)
    (h : ∀ c t, z = c :: t → ¬ c = '\n') : goNl n1 z = goNl n2 z := by
  cases z with
  | nil => rfl
  | cons c t =>
    rw [goNl_cons _ _ _ (h c t rfl), goNl_cons _ _ _ (h c t rfl)]

/-- The head of a collapsed list is the head of the input. -/
theorem collapseNl_head_not_nl (z : List Char)
    (h : ∀ c t, z = c :: t → ¬ c = '\n') :
    ∀ c t, collapseNl z = c :: t → ¬ c = '\n' := by
  cases z with
  | nil =>
    rw [collapseNl_nil]
    intro c t hct
    exact List.noConfusion hct
  | cons c0 t0 =>
    rw [collapseNl_cons c0 t0 (h c0 t0 rfl)]
    intro c t hct
    rw [List.cons.injEq] at hct
    rw [hct.1] at h
    exact h c t0 rfl

/-- Long leading newline runs violate the counter. -/
theorem dropWhile_head_false (p : Char → Bool) : ∀ (l : List Char) c t,
    l.dropWhile p = c :: t → p c = false := by
  intro l
  induction l with
  | nil =>
    intro c t h
    exact List.noConfusion h
  | cons a l2 ih =>
    intro c t h
    by_cases hpa : p a = true
    · rw [List.dropWhile_cons_of_pos hpa] at h
      exact ih c t h
    · rw [List.dropWhile_cons_of_neg (by simpa using hpa)] at h
      rw [List.cons.injEq] at h
      rw [← h.1]
      simpa using hpa

theorem goNl_two_run (rest : List Char)
    (h2 : 2 ≤ (rest.takeWhile (fun d => d = '\n')).length) :
    goNl 1 rest = false := by
  cases rest with
  | nil => simp at h2
  | cons a t =>
    cases t with
    | nil =>
      by_cases ha : a = '\n'
      · subst ha
        rw [List.takeWhile_cons_of_pos (by decide)] at h2
        simp at h2
      · rw [List.takeWhile_cons_of_neg (by simpa using ha)] at h2
        simp at h2
    | cons b t2 =>
      by_cases ha : a = '\n'
      · subst ha
        by_cases hb : b = '\n'
        · subst hb
          rw [goNl_cons_nl, goNl_cons_nl]
          simp
        · rw [List.takeWhile_cons_of_pos (by decide),
            List.takeWhile_cons_of_neg (by simpa using hb)] at h2
          simp at h2
      · rw [List.takeWhile_cons_of_neg (by simpa using ha)] at h2
        simp at h2

/-- N2: a list without triple newlines is unchanged by collapsing. -/
theorem collapseNl_id_of_goNl : ∀ (n : Nat) (z : List Char),
    z.length ≤ n → goNl 0 z = true → collapseNl z = z := by
  intro n
  induction n with
  | zero =>
    intro z hlen hgo
    have hz : z = [] := List.length_eq_zero.mp (Nat.le_zero.mp hlen)
    subst hz
    exact collapseNl_nil
  | succ m ih =>
    intro z hlen hgo
    cases z with
    | nil => exact collapseNl_nil
    | cons c rest =>
      by_cases hc : c = '\n'
      · subst hc
        rw [goNl_cons_nl] at hgo
        rw [Bool.and_eq_true] at hgo
        rw [collapseNl_cons_nl]
        have hrun : ¬ 2 ≤ (rest.takeWhile (fun d => d = '\n')).length := by
          intro h2
          rw [goNl_two_run rest h2] at hgo
          exact Bool.noConfusion hgo.2
        rw [if_neg hrun]
        have hlt : (rest.takeWhile (fun d => d = '\n')).length ≤ 1 := by
          omega
        cases hrw : rest.takeWhile (fun d => d = '\n') with
        | nil =>
          have hdw : rest.dropWhile (fun d => d = '\n') = rest := by
            cases rest with
            | nil => rfl
            | cons b t2 =>
              by_cases hb : b = '\n'
              · subst hb
                rw [List.takeWhile_cons_of_pos (by decide)] at hrw
                exact List.noConfusion hrw
              · exact List.dropWhile_cons_of_neg (by simpa using hb)
          rw [hdw]
          have hgr : goNl 0 rest = true := by
            have := goNl_head_not_nl rest 1 0 ?_
            · rw [← this]
              exact hgo.2
            · intro c2 t2 hct
              intro hcn
              rw [hct, hcn] at hrw
              rw [List.takeWhile_cons_of_pos (by decide)] at hrw
              exact List.noConfusion hrw
          rw [ih rest (by simp only [List.length_cons] at hlen; omega) hgr]
          rfl
        | cons b brun =>
          have hb : b = '\n' := by
            have h7 : b ∈ rest.takeWhile (fun d => d = '\n') := by
              rw [hrw]
              simp
            have h8 := List.mem_takeWhile_imp h7
            simpa using h8
          subst hb
          have hbrun : brun = [] := by
            cases brun with
            | nil => rfl
            | cons x xs =>
              rw [hrw] at hlt
              simp at hlt
          subst hbrun
          -- rest = '\n' :: rest2 with rest2 head not newline
          have hrest : rest = '\n' :: rest.dropWhile (fun d => d = '\n') := by
            conv_lhs => rw [← List.takeWhile_append_dropWhile
              (fun d => d = '\n') rest]
            rw [hrw]
            rfl
          have hhd : ∀ c2 t2,
              rest.dropWhile (fun d => d = '\n') = c2 :: t2 →
              ¬ c2 = '\n' := by
            intro c2 t2 hct hcn
            have h9 := dropWhile_head_false (fun d => d = '\n') rest c2 t2
              hct
            rw [hcn] at h9
            simp at h9
          have hgr : goNl 0 (rest.dropWhile (fun d => d = '\n')) = true := by
            have h5 := hgo.2
            rw [hrest, goNl_cons_nl, Bool.and_eq_true] at h5
            rw [goNl_head_not_nl _ 0 2 hhd]
            exact h5.2
          have hlen2 : (rest.dropWhile (fun d => d = '\n')).length ≤ m := by
            have h6 := congrArg List.length hrest
            simp only [List.length_cons] at h6 hlen
            omega
          rw [ih _ hlen2 hgr]
          conv_rhs => rw [hrest]
          rfl
      · rw [collapseNl_cons c rest hc]
        rw [goNl_cons _ _ _ hc] at hgo
        rw [ih rest (by simp only [List.length_cons] at hlen; omega) hgo]

/-- N1: collapsed output never has three consecutive newlines. -/
theorem goNl_collapseNl : ∀ (n : Nat) (z : List Char), z.length ≤ n →
    goNl 0 (collapseNl z) = true := by
  intro n
  induction n with
  | zero =>
    intro z hlen
    have hz : z = [] := List.length_eq_zero.mp (Nat.le_zero.mp hlen)
    subst hz
    rw [collapseNl_nil]
    rfl
  | succ m ih =>
    intro z hlen
    cases z with
    | nil =>
      rw [collapseNl_nil]
      rfl
    | cons c rest =>
      by_cases hc : c = '\n'
      · subst hc
        rw [collapseNl_cons_nl]
        have hdhd : ∀ c2 t2,
            rest.dropWhile (fun d => d = '\n') = c2 :: t2 →
            ¬ c2 = '\n' := by
          intro c2 t2 hct hcn
          have h9 := dropWhile_head_false (fun d => d = '\n') rest c2 t2 hct
          rw [hcn] at h9
          simp at h9
        have hchd := collapseNl_head_not_nl
          (rest.dropWhile (fun d => d = '\n')) hdhd
        have hrec := ih (rest.dropWhile (fun d => d = '\n')) (by
          have := length_dropWhile_le (fun d => d = '\n') rest
          simp only [List.length_cons] at hlen
          omega)
        by_cases h2 : 2 ≤ (rest.takeWhile (fun d => d = '\n')).length
        · rw [if_pos h2]
          rw [show (['\n', '\n'] : List Char) ++
            collapseNl (rest.dropWhile (fun d => d = '\n')) =
            '\n' :: '\n' ::
            collapseNl (rest.dropWhile (fun d => d = '\n')) from rfl]
          rw [goNl_cons_nl, goNl_cons_nl, goNl_head_not_nl _ 2 0 hchd, hrec]
          rfl
        · rw [if_neg h2]
          cases hrw : rest.takeWhile (fun d => d = '\n') with
          | nil =>
            rw [show ('\n' :: ([] : List Char)) ++
              collapseNl (rest.dropWhile (fun d => d = '\n')) =
              '\n' :: collapseNl (rest.dropWhile (fun d => d = '\n'))
              from rfl]
            rw [goNl_cons_nl, goNl_head_not_nl _ 1 0 hchd, hrec]
            rfl
          | cons b brun =>
            have hb : b = '\n' := by
              have h7 : b ∈ rest.takeWhile (fun d => d = '\n') := by
                rw [hrw]
                simp
              have h8 := List.mem_takeWhile_imp h7
              simpa using h8
            subst hb
            have hbrun : brun = [] := by
              cases brun with
              | nil => rfl
              | cons x xs =>
                exfalso
                apply h2
                rw [hrw]
                simp only [List.length_cons]
                omega
            subst hbrun
            rw [show ('\n' :: ['\n']) ++
              collapseNl (rest.dropWhile (fun d => d = '\n')) =
              '\n' :: '\n' ::
              collapseNl (rest.dropWhile (fun d => d = '\n')) from rfl]
            rw [goNl_cons_nl, goNl_cons_nl,
              goNl_head_not_nl _ 2 0 hchd, hrec]
            rfl
      · rw [collapseNl_cons c rest hc, goNl_cons _ _ _ hc]
        exact ih rest (by simp only [List.length_cons] at hlen; omega)

/-- N3: a rewrite scan never creates a triple newline. -/
theorem goNl_scanBrk (b : Brk) : ∀ (v : List Char) (n : Nat),
    goNl n v = true → goNl n (scanBrk b v) = true := by
  intro v
  induction v using scanBrk.induct b with
  | case1 =>
    intro n h
    rw [scanBrk_nil]
    exact h
  | case2 rest ih =>
    intro n h
    rw [goNl_cons_nl, Bool.and_eq_true] at h
    rw [scanBrk_cons_nl, goNl_cons_nl, Bool.and_eq_true]
    exact ⟨h.1, ih (n + 1) h.2⟩
  | case3 c rest hc g r hm ih =>
    intro n h
    rw [scanBrk_cons_match b c rest g r hc hm]
    rw [goNl_cons _ _ _ hc] at h
    rw [goNl_cons _ _ _ hc, goNl_cons_nl, Bool.and_eq_true]
    refine ⟨rfl, ?_⟩
    obtain ⟨g0, gs0, hg0, hg0w⟩ := b.g_cons hm
    have hg0n : ¬ g0 = '\n' := not_nl_of_not_ws g0 hg0w
    rw [hg0, List.cons_append, goNl_cons _ _ _ hg0n, goNl_append]
    have hpre := b.pre_eq _ _ _ hm
    have hrest : rest = takeW rest ++ (g0 :: (gs0 ++ r)) := by
      conv_lhs => rw [← takeW_append_dropW rest]
      rw [← hpre, hg0]
      rfl
    rw [hrest, goNl_append, Bool.and_eq_true] at h
    have h2 := h.2
    rw [goNl_cons _ _ _ hg0n, goNl_append, Bool.and_eq_true] at h2
    rw [Bool.and_eq_true]
    exact ⟨h2.1, ih _ h2.2⟩
  | case4 c rest hc hm ih =>
    intro n h
    rw [scanBrk_cons_none b c rest hc hm]
    by_cases hcn : c = '\n'
    · subst hcn
      rw [goNl_cons_nl, Bool.and_eq_true] at h ⊢
      exact ⟨h.1, ih _ h.2⟩
    · rw [goNl_cons _ _ _ hcn] at h ⊢
      exact ih _ h

/-! ### Character inventory of the passes -/

theorem mem_scanBrk (b : Brk) : ∀ (l : List Char) (a : Char),
    a ∈ scanBrk b l → a ∈ l ∨ a = '\n' := by
  intro l
  induction l using scanBrk.induct b with
  | case1 =>
    intro a ha
    rw [scanBrk_nil] at ha
    exact absurd ha (by simp)
  | case2 rest ih =>
    intro a ha
    rw [scanBrk_cons_nl, List.mem_cons] at ha
    rcases ha with ha | ha
    · exact Or.inr ha
    · rcases ih a ha with h | h
      · exact Or.inl (List.mem_cons_of_mem _ h)
      · exact Or.inr h
  | case3 c rest hc g r hm ih =>
    intro a ha
    rw [scanBrk_cons_match b c rest g r hc hm, List.mem_cons] at ha
    have hpre := b.pre_eq _ _ _ hm
    have hsub : ∀ x, x ∈ g ++ r → x ∈ rest := by
      intro x hx
      rw [hpre] at hx
      exact mem_dropWhile_mem _ _ _ hx
    rcases ha with ha | ha
    · exact Or.inl (by rw [ha]; simp)
    · rw [List.mem_cons] at ha
      rcases ha with ha | ha
      · exact Or.inr ha
      · rw [List.mem_append] at ha
        rcases ha with ha | ha
        · exact Or.inl (List.mem_cons_of_mem _
            (hsub a (List.mem_append.mpr (Or.inl ha))))
        · rcases ih a ha with h | h
          · exact Or.inl (List.mem_cons_of_mem _
              (hsub a (List.mem_append.mpr (Or.inr h))))
          · exact Or.inr h
  | case4 c rest hc hm ih =>
    intro a ha
    rw [scanBrk_cons_none b c rest hc hm, List.mem_cons] at ha
    rcases ha with ha | ha
    · exact Or.inl (by rw [ha]; simp)
    · rcases ih a ha with h | h
      · exact Or.inl (List.mem_cons_of_mem _ h)
      · exact Or.inr h

theorem mem_collapseNl : ∀ (n : Nat) (l : List Char) (a : Char),
    l.length ≤ n → a ∈ collapseNl l → a ∈ l := by
  intro n
  induction n with
  | zero =>
    intro l a hlen ha
    have hl : l = [] := List.length_eq_zero.mp (Nat.le_zero.mp hlen)
    subst hl
    rw [collapseNl_nil] at ha
    exact absurd ha (by simp)
  | succ m ih =>
    intro l a hlen ha
    cases l with
    | nil =>
      rw [collapseNl_nil] at ha
      exact absurd ha (by simp)
    | cons c rest =>
      by_cases hc : c = '\n'
      · subst hc
        rw [collapseNl_cons_nl] at ha
        have hdrop : a ∈ collapseNl (rest.dropWhile (fun d => d = '\n')) →
            a ∈ '\n' :: rest := by
          intro h3
          have h4 := ih (rest.dropWhile (fun d => d = '\n')) a (by
            have := length_dropWhile_le (fun d => d = '\n') rest
            simp only [List.length_cons] at hlen
            omega) h3
          exact List.mem_cons_of_mem _ (mem_dropWhile_mem _ _ _ h4)
        by_cases h2 : 2 ≤ (rest.takeWhile (fun d => d = '\n')).length
        · rw [if_pos h2, List.mem_append] at ha
          rcases ha with ha | ha
          · rcases (by simpa using ha : a = '\n' ∨ a = '\n') with h | h <;>
              (rw [h]; simp)
          · exact hdrop ha
        · rw [if_neg h2, List.mem_append] at ha
          rcases ha with ha | ha
          · rw [List.mem_cons] at ha
            rcases ha with ha | ha
            · rw [ha]
              simp
            · have h5 := List.mem_takeWhile_imp ha
              simp only [decide_eq_true_eq] at h5
              rw [h5]
              simp
          · exact hdrop ha
      · rw [collapseNl_cons c rest hc, List.mem_cons] at ha
        rcases ha with ha | ha
        · rw [ha]
          simp
        · exact List.mem_cons_of_mem _ (ih rest a
            (by simp only [List.length_cons] at hlen; omega) ha)

theorem cleanupText_no_bad (l : List Char) :
    ∀ a ∈ cleanupText l, ¬ a = '\r' ∧ ¬ a = ' ' := by
  intro a ha
  unfold cleanupText at ha
  rw [List.mem_map] at ha
  obtain ⟨x, hx, hmap⟩ := ha
  rw [List.mem_filter] at hx
  constructor
  · intro har
    subst har
    by_cases hxn : x = ' '
    · rw [if_pos hxn] at hmap
      exact absurd hmap (by decide)
    · rw [if_neg hxn] at hmap
      have h4 := hx.2
      rw [hmap] at h4
      simp at h4
  · intro han
    subst han
    by_cases hxn : x = ' '
    · rw [if_pos hxn] at hmap
      exact absurd hmap (by decide)
    · rw [if_neg hxn] at hmap
      exact hxn hmap

theorem map_nbsp_id : ∀ l : List Char, (∀ a ∈ l, ¬ a = ' ') →
    l.map (fun c => if c = ' ' then ' ' else c) = l := by
  intro l
  induction l with
  | nil =>
    intro h
    rfl
  | cons a t ih =>
    intro h
    rw [List.map_cons, if_neg (h a (by simp)),
      ih (fun x hx => h x (by simp [hx]))]

theorem cleanupText_id (l : List Char)
    (h : ∀ a ∈ l, ¬ a = '\r' ∧ ¬ a = ' ') : cleanupText l = l := by
  unfold cleanupText
  have hf : l.filter (fun c => !(c = '\r')) = l := by
    rw [List.filter_eq_self]
    intro a ha
    simp [(h a ha).1]
  rw [hf]
  exact map_nbsp_id l (fun a ha => (h a ha).2)

/-- C5: the normalizer is idempotent: for every input string `x`,
`normalizeMcqText (normalizeMcqText x) = normalizeMcqText x`. -/
theorem claim_C5_idempotent (s : String) :
    normalizeMcqText (normalizeMcqText s) = normalizeMcqText s := by
  unfold normalizeMcqText
  rw [show ((breakInline (collapseNl (breakOpts
    (cleanupText s.data)))).asString).data =
    breakInline (collapseNl (breakOpts (cleanupText s.data))) from rfl]
  have hbadZ := cleanupText_no_bad s.data
  have hbad1 : ∀ a ∈ breakOpts (cleanupText s.data),
      ¬ a = '\r' ∧ ¬ a = '\u00A0' := by
    intro a ha
    rcases mem_scanBrk optBrk _ a ha with h | h
    · exact hbadZ a h
    · subst h
      exact ⟨by decide, by decide⟩
  have hbad2 : ∀ a ∈ collapseNl (breakOpts (cleanupText s.data)),
      ¬ a = '\r' ∧ ¬ a = '\u00A0' := by
    intro a ha
    exact hbad1 a (mem_collapseNl _ _ a le_rfl ha)
  have hbadC : ∀ a ∈ breakInline (collapseNl (breakOpts
      (cleanupText s.data))), ¬ a = '\r' ∧ ¬ a = '\u00A0' := by
    intro a ha
    rcases mem_scanBrk inlineBrk _ a ha with h | h
    · exact hbad2 a h
    · subst h
      exact ⟨by decide, by decide⟩
  have hclean := cleanupText_id _ hbadC
  rw [hclean]
  have hfix1 : fixBrk optBrk (breakOpts (cleanupText s.data)) :=
    (scanBrk_eq_iff_fixBrk optBrk _).mp (breakOpts_idem (cleanupText s.data))
  have hfix2 : fixBrk optBrk (collapseNl (breakOpts (cleanupText s.data))) :=
    fixOpt_collapseNl _ _ le_rfl hfix1
  have hfix3 : fixBrk optBrk (breakInline (collapseNl (breakOpts
      (cleanupText s.data)))) := by
    have h5 := fixOpt_scanIn
      (collapseNl (breakOpts (cleanupText s.data))).length _ le_rfl 0 []
      (by simp) (by rw [List.nil_append]; exact hfix2)
    rwa [List.nil_append] at h5
  have hopt : breakOpts (breakInline (collapseNl (breakOpts
      (cleanupText s.data)))) =
      breakInline (collapseNl (breakOpts (cleanupText s.data))) :=
    (scanBrk_eq_iff_fixBrk optBrk _).mpr hfix3
  rw [hopt]
  have hg1 : goNl 0 (collapseNl (breakOpts (cleanupText s.data))) = true :=
    goNl_collapseNl _ _ le_rfl
  have hg2 : goNl 0 (breakInline (collapseNl (breakOpts
      (cleanupText s.data)))) = true :=
    goNl_scanBrk inlineBrk _ 0 hg1
  have hcol : collapseNl (breakInline (collapseNl (breakOpts
      (cleanupText s.data)))) =
      breakInline (collapseNl (breakOpts (cleanupText s.data))) :=
    collapseNl_id_of_goNl
      (breakInline (collapseNl (breakOpts (cleanupText s.data)))).length _
      le_rfl hg2
  rw [hcol, breakInline_idem]
